import Mathlib

/-!
goinit: archive extraction and template materialisation

A shallow embedding of the `downloader`, `extractor` and `processor` packages of
`openframebox/goinit`, with the properties its specification states about them.

Go strings and byte slices are lists of bytes; a byte is written as a `Char`, so that
paths and tokens stay readable (`"/tmp/x".toList`).  Integer tests on a byte go through
`Char.toNat`.
-/

namespace Goinit

/-- A Go `string` or `[]byte`: a sequence of bytes, one `Char` per byte. -/
abbrev GoString := List Char

/-! ## IEEE 754 binary64, as far as `isBinary` uses it -/

/-- A finite, non-negative `float64`: the number `mant / 2 ^ scale`. -/
structure Float64 where
  mant : Nat
  scale : Nat
deriving DecidableEq, Repr

/-- The integer nearest to `a / b`, ties going to the even neighbour (the IEEE 754
default rounding). -/
def roundHalfEven (a b : Nat) : Nat :=
  let q := a / b
  let r := a % b
  if 2 * r < b then q
  else if b < 2 * r then q + 1
  else if q % 2 = 0 then q else q + 1

/-- The least `j` (searched upwards from the second argument, within the exponent range of
a normal binary64) with `s ≤ n * 2 ^ j`: the number of doublings that bring `n / s` into
`[1, 2)`. -/
def binadeShift (n s : Nat) : Nat → Nat → Nat
  | 0, j => j
  | fuel + 1, j => if s ≤ n * 2 ^ j then j else binadeShift n s fuel (j + 1)

/-- The `float64` quotient `float64(n) / float64(s)` for integers `0 ≤ n ≤ s`, `0 < s`,
both small enough to convert exactly: the quotient is scaled to a 53-bit significand and
rounded to nearest, ties to even. -/
def float64Div (n s : Nat) : Float64 :=
  if n = 0 then ⟨0, 0⟩
  else
    let k := 52 + binadeShift n s 1022 0
    ⟨roundHalfEven (n * 2 ^ k) s, k⟩

/-- The comparison `x > y` of two finite non-negative `float64` values. -/
def Float64.gt (x y : Float64) : Bool :=
  decide (y.mant * 2 ^ x.scale < x.mant * 2 ^ y.scale)

/-- The constant `0.1` as a `float64`: `0x3FB999999999999A`, that is
`7205759403792794 / 2 ^ 56`. -/
def float64_0_1 : Float64 := ⟨7205759403792794, 56⟩

/-! ## `internal/processor`: `isBinary` -/

/-- A byte below `0x20` other than newline, carriage return and tab. -/
def isNonPrintable (b : Char) : Bool :=
  decide (b.toNat < 32) && b.toNat != 10 && b.toNat != 13 && b.toNat != 9

/-- Model of `isBinary` (processor.go:145): no content is text; a null byte in the sample is
binary; otherwise the share of non-printable bytes, computed in `float64`, is compared with
`0.1`. -/
def isBinary (content : GoString) : Bool :=
  if content.length = 0 then false
  else
    let checkSize := if 512 < content.length then 512 else content.length
    let sample := content.take checkSize
    if sample.any (fun b => b.toNat == 0) then true
    else
      let nonPrintable := (sample.filter isNonPrintable).length
      (float64Div nonPrintable checkSize).gt float64_0_1

/-! ## `internal/downloader`: `DetectArchiveFormat` -/

/-- The loop of `filepath.Ext`: walk the path backwards (first argument: what is left,
reversed; second: the suffix passed so far); stop with nothing at a separator, with the
suffix at a dot. -/
def extScan : GoString → GoString → GoString
  | [], _ => []
  | c :: rest, acc =>
    if c = '/' then []
    else if c = '.' then c :: acc
    else extScan rest (c :: acc)

/-- Model of `filepath.Ext`: the suffix starting at the last dot of the last path element,
empty when that element has no dot. -/
def Ext (path : GoString) : GoString := extScan path.reverse []

/-- Model of `DetectArchiveFormat` (downloader.go:52). -/
def DetectArchiveFormat (url : GoString) : GoString :=
  let ext := Ext url
  if ext = ".gz".toList ∧ 7 < url.length ∧ url.drop (url.length - 7) = ".tar.gz".toList then
    "tar.gz".toList
  else if ext = ".zip".toList then "zip".toList
  else "tar.gz".toList

/-! ## `path/filepath` on a Unix host, as far as the program uses it -/

/-- The elements of a path: the pieces between separators (`strings.Split(path, "/")`). -/
def splitSlash : GoString → List GoString
  | [] => [[]]
  | c :: cs =>
    if c = '/' then [] :: splitSlash cs
    else
      match splitSlash cs with
      | [] => [[c]]
      | h :: t => (c :: h) :: t

/-- Path elements put together again with one separator between neighbours. -/
def joinSlash : List GoString → GoString
  | [] => []
  | [a] => a
  | a :: b :: rest => a ++ '/' :: joinSlash (b :: rest)

/-- One element of the lexical processing of `filepath.Clean`, on the elements kept so far
(last one first): an empty element and `.` are dropped, `..` removes the element before it,
is dropped at the root, and is kept at the head of a relative path; any other element is
kept. -/
def cleanStep (rooted : Bool) (stack : List GoString) (elem : GoString) : List GoString :=
  if elem = [] ∨ elem = ['.'] then stack
  else if elem = ['.', '.'] then
    match stack with
    | [] => if rooted then [] else [elem]
    | top :: rest => if top = ['.', '.'] then elem :: stack else rest
  else elem :: stack

/-- The elements `filepath.Clean` keeps, in order. -/
def cleanElems (rooted : Bool) (path : GoString) : List GoString :=
  ((splitSlash path).foldl (cleanStep rooted) []).reverse

/-- Model of `filepath.Clean`: the shortest path lexically equivalent to `path`. -/
def Clean (path : GoString) : GoString :=
  if path = [] then ['.']
  else
    let rooted := decide (path.head? = some '/')
    let out := (if rooted then ['/'] else []) ++ joinSlash (cleanElems rooted path)
    if out = [] then ['.'] else out

/-- Model of `filepath.Join` for two elements: empty elements are ignored, the rest is joined
with a separator and cleaned; nothing but empty elements gives the empty string. -/
def Join (a b : GoString) : GoString :=
  if a = [] then (if b = [] then [] else Clean b)
  else Clean (a ++ '/' :: b)

/-- The part of a path up to and including its last separator. -/
def dirPart (path : GoString) : GoString :=
  (path.reverse.dropWhile (fun c => c != '/')).reverse

/-- Model of `filepath.Dir`: all but the last element of the path, cleaned. -/
def Dir (path : GoString) : GoString := Clean (dirPart path)

/-- Model of `strings.HasPrefix`. -/
def HasPrefix (s pre : GoString) : Bool := pre.isPrefixOf s

/-! ## The file system -/

/-- A resolved location: the names of the directory entries from the root down. -/
abbrev Path := List GoString

/-- What a location holds: a directory, or a regular file with its bytes; both with the
permission bits they were created with. -/
inductive FsNode where
  | dir (mode : Nat)
  | file (mode : Nat) (content : GoString)
deriving DecidableEq, Repr

/-- A file system without links: the locations that exist, the binding nearest the head being
the current one. -/
abbrev FS := List (Path × FsNode)

/-- One step of the kernel's path resolution, on the names from the root down to the location
reached so far (last one first): an empty element and `.` stay there, `..` goes to the parent
(the root is its own parent), a name goes to the entry of that name. -/
def stepInto (here : List GoString) (elem : GoString) : List GoString :=
  if elem = [] ∨ elem = ['.'] then here
  else if elem = ['.', '.'] then here.tail
  else elem :: here

/-- How the kernel resolves a path string for a process whose current directory is `cwd`:
element by element, from the root when the path is absolute and from `cwd` when it is
relative (no location is a symbolic link). -/
def resolve (cwd : Path) (path : GoString) : Path :=
  ((splitSlash path).foldl stepInto (if path.head? = some '/' then [] else cwd.reverse)).reverse

/-- What is at a location (`lstat`). -/
def FS.stat : FS → Path → Option FsNode
  | [], _ => none
  | (k, n) :: rest, p => if k = p then some n else FS.stat rest p

/-- Whether a location is a directory. -/
def FS.isDir (fs : FS) (p : Path) : Bool :=
  match fs.stat p with
  | some (.dir _) => true
  | _ => false

/-- Bind a location. -/
def FS.put (fs : FS) (p : Path) (n : FsNode) : FS := (p, n) :: fs

/-- The `mkdir` system call: the parent is a directory and the location is free. -/
def FS.mkdir (fs : FS) (p : Path) (mode : Nat) : Option FS :=
  if p ≠ [] ∧ fs.isDir p.dropLast = true ∧ fs.stat p = none then some (fs.put p (.dir mode))
  else none

/-- Model of `os.MkdirAll` on a location given last name first: a directory that exists is
left alone, a file in the way is an error, anything missing is created after its parent. -/
def FS.mkdirAllRev (fs : FS) (mode : Nat) : List GoString → Option FS
  | [] =>
    match fs.stat [] with
    | some (.dir _) => some fs
    | _ => none
  | name :: parent =>
    match fs.stat (name :: parent).reverse with
    | some (.dir _) => some fs
    | some (.file _ _) => none
    | none =>
      match FS.mkdirAllRev fs mode parent with
      | none => none
      | some fs1 => fs1.mkdir (name :: parent).reverse mode

/-- Model of `os.MkdirAll`. -/
def FS.mkdirAll (fs : FS) (p : Path) (mode : Nat) : Option FS := fs.mkdirAllRev mode p.reverse

/-- Model of `os.OpenFile` for writing with `O_CREATE`, with or without `O_TRUNC`: a directory
cannot be opened, an existing file is kept (emptied under `O_TRUNC`), a missing one is created
empty in an existing parent directory. -/
def FS.openFile (fs : FS) (p : Path) (mode : Nat) (trunc : Bool) : Option FS :=
  match fs.stat p with
  | some (.dir _) => none
  | some (.file m _) => if trunc then some (fs.put p (.file m [])) else some fs
  | none =>
    if p ≠ [] ∧ fs.isDir p.dropLast = true then some (fs.put p (.file mode [])) else none

/-- Writing `data` through a freshly opened file: the bytes go to the start of the file and
replace what was there, what lies beyond them stays. -/
def FS.writeFromStart (fs : FS) (p : Path) (data : GoString) : FS :=
  match fs.stat p with
  | some (.file m old) => fs.put p (.file m (data ++ old.drop data.length))
  | _ => fs

/-- Model of `os.RemoveAll`: the location and everything below it are gone. -/
def FS.removeAll (fs : FS) (p : Path) : FS :=
  fs.filter (fun e => !(p.isPrefixOf e.1))

/-- An entry of a directory listing. -/
structure DirEntry where
  name : GoString
  isDir : Bool
deriving DecidableEq, Repr

/-- Byte-wise order of two names. -/
def strLe : GoString → GoString → Bool
  | [], _ => true
  | _ :: _, [] => false
  | a :: as, b :: bs =>
    if a.toNat < b.toNat then true
    else if b.toNat < a.toNat then false
    else strLe as bs

/-- The names bound directly below `d`. -/
def FS.childNames (fs : FS) (d : Path) : List GoString :=
  (fs.filterMap (fun e =>
    match e.1.reverse with
    | name :: parent => if parent.reverse = d then some name else none
    | [] => none)).dedup

/-- Model of `os.ReadDir`: the entries of a directory, sorted by name. -/
def FS.readDir (fs : FS) (d : Path) : Option (List DirEntry) :=
  if fs.isDir d then
    some (((fs.childNames d).insertionSort (fun a b => strLe a b = true)).map
      (fun n => ⟨n, fs.isDir (d ++ [n])⟩))
  else none

/-! ## `internal/extractor` -/

/-- A call into the operating system, with the path it was given. -/
inductive OsCall where
  | mkdirTemp (dir : GoString)
  | removeAll (path : GoString)
  | openArchive (path : GoString)
  | mkdirAll (path : GoString)
  | openFile (path : GoString)
  | create (path : GoString)
  | readDir (path : GoString)
  | remove (path : GoString)
deriving DecidableEq, Repr

/-- The state the extractor runs in: the file system, and the calls made so far, oldest
first. -/
structure World where
  fs : FS
  calls : List OsCall
deriving DecidableEq, Repr

/-- The errors of the extractor, one per message of the source. -/
inductive ExtractError where
  | tempDir
  | openArchive
  | gzipReader
  | tarHeader
  | invalidPath (name : GoString)
  | createDir
  | createParent
  | createFile
  | writeFile
  | openZip
  | openInArchive
  | readExtracted
  | unsupportedFormat (format : GoString)
deriving DecidableEq, Repr

deriving instance DecidableEq for Except

/-- A member of a tar stream as `tar.Reader` hands it out: the header fields the extractor
reads, the bytes of the body, and whether reading the body ends in an error instead of the
end of the data. -/
structure TarEntry where
  name : GoString
  typeflag : Char
  mode : Nat
  body : GoString
  bodyErr : Bool
deriving DecidableEq, Repr

/-- A decompressed tar stream: its members in archive order, and whether a malformed header
follows them instead of the end of the archive. -/
structure TarStream where
  entries : List TarEntry
  headerErr : Bool
deriving DecidableEq, Repr

/-- A member of a zip archive as `zip.Reader` lists it: its name, whether its file info says
directory, whether opening it fails, its bytes, and whether reading them ends in an error. -/
structure ZipEntry where
  name : GoString
  isDir : Bool
  openErr : Bool
  body : GoString
  bodyErr : Bool
deriving DecidableEq, Repr

/-- What the program takes from its surroundings: the current directory of the process, the
directory for temporary files (`os.TempDir()`), the random strings `os.MkdirTemp` tries in
turn, and the decoders of the two archive formats (`none`: the bytes are not such an
archive). -/
structure Env where
  cwd : Path
  tempDir : GoString
  randoms : List GoString
  gunzipTar : GoString → Option TarStream
  unzip : GoString → Option (List ZipEntry)

/-- The constant `tar.TypeDir`. -/
def TypeDir : Char := '5'

/-- The constant `tar.TypeReg`. -/
def TypeReg : Char := '0'

/-- `os.MkdirAll` as a call: on failure the file system is as before. -/
def osMkdirAll (cwd : Path) (w : World) (path : GoString) (mode : Nat) : Bool × World :=
  match w.fs.mkdirAll (resolve cwd path) mode with
  | some fs => (true, ⟨fs, w.calls ++ [.mkdirAll path]⟩)
  | none => (false, ⟨w.fs, w.calls ++ [.mkdirAll path]⟩)

/-- `os.OpenFile(path, O_CREATE|O_RDWR, mode)` as a call. -/
def osOpenFile (cwd : Path) (w : World) (path : GoString) (mode : Nat) : Bool × World :=
  match w.fs.openFile (resolve cwd path) mode false with
  | some fs => (true, ⟨fs, w.calls ++ [.openFile path]⟩)
  | none => (false, ⟨w.fs, w.calls ++ [.openFile path]⟩)

/-- `os.Create(path)` as a call: `O_RDWR|O_CREATE|O_TRUNC` with mode `0666`. -/
def osCreate (cwd : Path) (w : World) (path : GoString) : Bool × World :=
  match w.fs.openFile (resolve cwd path) 0o666 true with
  | some fs => (true, ⟨fs, w.calls ++ [.create path]⟩)
  | none => (false, ⟨w.fs, w.calls ++ [.create path]⟩)

/-- `io.Copy` into the file just opened at `path`. -/
def ioCopy (cwd : Path) (w : World) (path : GoString) (data : GoString) : World :=
  ⟨w.fs.writeFromStart (resolve cwd path) data, w.calls⟩

/-- `os.RemoveAll` as a call. -/
def osRemoveAll (cwd : Path) (w : World) (path : GoString) : World :=
  ⟨w.fs.removeAll (resolve cwd path), w.calls ++ [.removeAll path]⟩

/-- How `os.MkdirTemp` puts a name below a directory. -/
def joinPath (dir name : GoString) : GoString :=
  if dir ≠ [] ∧ dir.getLast? = some '/' then dir ++ name else dir ++ '/' :: name

/-- The attempts of `os.MkdirTemp`: a name that exists makes it try the next random string,
any other failure ends it. -/
def mkdirTempLoop (cwd : Path) (fs : FS) (dir : GoString) :
    List GoString → Option (GoString × FS)
  | [] => none
  | r :: rs =>
    let name := joinPath dir ("goinit-extract-".toList ++ r)
    match fs.mkdir (resolve cwd name) 0o700 with
    | some fs1 => some (name, fs1)
    | none => if (fs.stat (resolve cwd name)).isSome then mkdirTempLoop cwd fs dir rs else none

/-- `os.MkdirTemp("", "goinit-extract-*")` as a call. -/
def osMkdirTemp (env : Env) (w : World) : Option GoString × World :=
  match mkdirTempLoop env.cwd w.fs env.tempDir env.randoms with
  | some (name, fs) => (some name, ⟨fs, w.calls ++ [.mkdirTemp env.tempDir]⟩)
  | none => (none, ⟨w.fs, w.calls ++ [.mkdirTemp env.tempDir]⟩)

/-- The loop of `extractTarGz` (extractor.go:68) over the members still to come: `none` is
the `nil` error. -/
def tarLoop (cwd : Path) (destDir : GoString) (headerErr : Bool) :
    World → List TarEntry → Option ExtractError × World
  | w, [] => if headerErr then (some .tarHeader, w) else (none, w)
  | w, header :: rest =>
    let target := Join destDir header.name
    if !HasPrefix target (Clean destDir ++ ['/']) then (some (.invalidPath header.name), w)
    else if header.typeflag = TypeDir then
      match osMkdirAll cwd w target 0o755 with
      | (false, w1) => (some .createDir, w1)
      | (true, w1) => tarLoop cwd destDir headerErr w1 rest
    else if header.typeflag = TypeReg then
      match osMkdirAll cwd w (Dir target) 0o755 with
      | (false, w1) => (some .createParent, w1)
      | (true, w1) =>
        match osOpenFile cwd w1 target header.mode with
        | (false, w2) => (some .createFile, w2)
        | (true, w2) =>
          let w3 := ioCopy cwd w2 target header.body
          if header.bodyErr then (some .writeFile, w3)
          else tarLoop cwd destDir headerErr w3 rest
    else tarLoop cwd destDir headerErr w rest

/-- Model of `extractTarGz` (extractor.go:53). -/
def extractTarGz (env : Env) (w : World) (archivePath destDir : GoString) :
    Option ExtractError × World :=
  let w0 : World := ⟨w.fs, w.calls ++ [.openArchive archivePath]⟩
  match w.fs.stat (resolve env.cwd archivePath) with
  | none => (some .openArchive, w0)
  | some (.dir _) => (some .gzipReader, w0)
  | some (.file _ bytes) =>
    match env.gunzipTar bytes with
    | none => (some .gzipReader, w0)
    | some stream => tarLoop env.cwd destDir stream.headerErr w0 stream.entries

/-- The loop of `extractZip` (extractor.go:121) over the members still to come. -/
def zipLoop (cwd : Path) (destDir : GoString) :
    World → List ZipEntry → Option ExtractError × World
  | w, [] => (none, w)
  | w, f :: rest =>
    let target := Join destDir f.name
    if !HasPrefix target (Clean destDir ++ ['/']) then (some (.invalidPath f.name), w)
    else if f.isDir then
      match osMkdirAll cwd w target 0o755 with
      | (false, w1) => (some .createDir, w1)
      | (true, w1) => zipLoop cwd destDir w1 rest
    else
      match osMkdirAll cwd w (Dir target) 0o755 with
      | (false, w1) => (some .createParent, w1)
      | (true, w1) =>
        match osCreate cwd w1 target with
        | (false, w2) => (some .createFile, w2)
        | (true, w2) =>
          if f.openErr then (some .openInArchive, w2)
          else
            let w3 := ioCopy cwd w2 target f.body
            if f.bodyErr then (some .writeFile, w3)
            else zipLoop cwd destDir w3 rest

/-- Model of `extractZip` (extractor.go:114). -/
def extractZip (env : Env) (w : World) (archivePath destDir : GoString) :
    Option ExtractError × World :=
  let w0 : World := ⟨w.fs, w.calls ++ [.openArchive archivePath]⟩
  match w.fs.stat (resolve env.cwd archivePath) with
  | some (.file _ bytes) =>
    match env.unzip bytes with
    | none => (some .openZip, w0)
    | some files => zipLoop env.cwd destDir w0 files
  | _ => (some .openZip, w0)

/-- Model of `stripRootDirectory` (extractor.go:167). -/
def stripRootDirectory (cwd : Path) (w : World) (dir : GoString) :
    Except ExtractError GoString × World :=
  let w1 : World := ⟨w.fs, w.calls ++ [.readDir dir]⟩
  match w.fs.readDir (resolve cwd dir) with
  | none => (.error .readExtracted, w1)
  | some entries =>
    match entries with
    | first :: _ =>
      if entries.length = 1 ∧ first.isDir = true then (.ok (Join dir first.name), w1)
      else (.ok dir, w1)
    | [] => (.ok dir, w1)

/-- Model of `Extract` (extractor.go:16). -/
def Extract (env : Env) (w : World) (archivePath format : GoString) :
    Except ExtractError GoString × World :=
  match osMkdirTemp env w with
  | (none, w1) => (.error .tempDir, w1)
  | (some tmpDir, w1) =>
    if format = "tar.gz".toList then
      match extractTarGz env w1 archivePath tmpDir with
      | (some err, w2) => (.error err, osRemoveAll env.cwd w2 tmpDir)
      | (none, w2) =>
        match stripRootDirectory env.cwd w2 tmpDir with
        | (.error err, w3) => (.error err, osRemoveAll env.cwd w3 tmpDir)
        | (.ok strippedDir, w3) => (.ok strippedDir, w3)
    else if format = "zip".toList then
      match extractZip env w1 archivePath tmpDir with
      | (some err, w2) => (.error err, osRemoveAll env.cwd w2 tmpDir)
      | (none, w2) =>
        match stripRootDirectory env.cwd w2 tmpDir with
        | (.error err, w3) => (.error err, osRemoveAll env.cwd w3 tmpDir)
        | (.ok strippedDir, w3) => (.ok strippedDir, w3)
    else (.error (.unsupportedFormat format), osRemoveAll env.cwd w1 tmpDir)

/-! ## `regexp` and `unicode/utf8`, for a quoted literal

`ProcessAndCopy` compiles `regexp.QuoteMeta(modulePlaceholder)`.  `QuoteMeta` puts a backslash
before every metacharacter, so that the expression parses as the placeholder itself, rune by
rune, without a capture group besides the whole match; the parser refuses an expression that
is not valid UTF-8.  The compiled program compares runes: the matcher decodes the text rune
by rune, and a byte that starts no well-formed encoding is read as the rune U+FFFD.  (The
size limit of package `regexp/syntax`, which a placeholder of millions of runes exceeds, is
not modelled.) -/

/-- A UTF-8 continuation byte within the given bounds. -/
def inRange (lo hi : Nat) (b : Char) : Bool := decide (lo ≤ b.toNat) && decide (b.toNat ≤ hi)

/-- The rune U+FFFD, `utf8.RuneError`.  A rune is written as its UTF-8 encoding: the decoder
takes the shortest encoding of a rune only, so that two runes are equal exactly when their
encodings are. -/
def RuneError : GoString := [Char.ofNat 0xEF, Char.ofNat 0xBF, Char.ofNat 0xBD]

/-- Model of `utf8.DecodeRune`: the rune at the head of the input and its width in bytes.
No input gives `RuneError` with width `0`, a head that is no well-formed encoding gives
`RuneError` with width `1`. -/
def DecodeRune : GoString → GoString × Nat
  | [] => (RuneError, 0)
  | b0 :: rest =>
    let x := b0.toNat
    if x < 0x80 then ([b0], 1)
    else if x < 0xC2 then (RuneError, 1)
    else if x < 0xE0 then
      match rest with
      | b1 :: _ => if inRange 0x80 0xBF b1 then ([b0, b1], 2) else (RuneError, 1)
      | _ => (RuneError, 1)
    else if x < 0xF0 then
      match rest with
      | b1 :: b2 :: _ =>
        if inRange (if x = 0xE0 then 0xA0 else 0x80) (if x = 0xED then 0x9F else 0xBF) b1
            && inRange 0x80 0xBF b2 then ([b0, b1, b2], 3)
        else (RuneError, 1)
      | _ => (RuneError, 1)
    else if x < 0xF5 then
      match rest with
      | b1 :: b2 :: b3 :: _ =>
        if inRange (if x = 0xF0 then 0x90 else 0x80) (if x = 0xF4 then 0x8F else 0xBF) b1
            && inRange 0x80 0xBF b2 && inRange 0x80 0xBF b3 then ([b0, b1, b2, b3], 4)
        else (RuneError, 1)
      | _ => (RuneError, 1)
    else (RuneError, 1)

/-- The runes of a string, as ranging over it yields them (`fuel`: an upper bound of their
number). -/
def runesOf : Nat → GoString → List GoString
  | 0, _ => []
  | fuel + 1, s =>
    if s = [] then []
    else (DecodeRune s).1 :: runesOf fuel (s.drop (DecodeRune s).2)

/-- Model of `checkUTF8` of package `regexp/syntax`: no rune of the string is `RuneError`
with width `1`. -/
def checkUTF8 : Nat → GoString → Bool
  | 0, s => decide (s = [])
  | fuel + 1, s =>
    if s = [] then true
    else if (DecodeRune s).1 = RuneError ∧ (DecodeRune s).2 = 1 then false
    else checkUTF8 fuel (s.drop (DecodeRune s).2)

/-- A pattern compiled from a quoted literal: the literal, which is valid UTF-8. -/
structure Regexp where
  literal : GoString
deriving DecidableEq, Repr

/-- Model of `regexp.MustCompile(regexp.QuoteMeta(s))`: the pattern that matches the literal
`s`; `none` is the panic of `MustCompile` on an expression that is not valid UTF-8. -/
def MustCompileQuoteMeta (s : GoString) : Option Regexp :=
  if checkUTF8 s.length s then some ⟨s⟩ else none

/-- The runes of the pattern, one instruction of the compiled program each. -/
def Regexp.runes (re : Regexp) : List GoString := runesOf re.literal.length re.literal

/-- The literal every match begins with, as `(*Prog).Prefix` computes it: the runes of the
pattern up to the first `RuneError`. -/
def Regexp.prefixBytes (re : Regexp) : GoString :=
  (re.runes.takeWhile (fun r => decide (r ≠ RuneError))).flatten

/-- The offset of the leftmost occurrence of `lit` in `s` (`bytes.Index`). -/
def indexOf (lit : GoString) : GoString → Option Nat
  | [] => if lit = [] then some 0 else none
  | c :: cs =>
    if lit.isPrefixOf (c :: cs) then some 0
    else (indexOf lit cs).map (· + 1)

/-- The run of the compiled program at one position of the text: every rune of the pattern
in turn equals the rune the text is decoded to (`step`); the result is the number of bytes
matched. -/
def matchRunes : List GoString → GoString → Option Nat
  | [], _ => some 0
  | r :: rs, s =>
    if (DecodeRune s).2 = 0 then none
    else if (DecodeRune s).1 = r then
      (matchRunes rs (s.drop (DecodeRune s).2)).map (· + (DecodeRune s).2)
    else none

/-- The unanchored search of the matcher (`backtrack` of package `regexp`) from `pos` on: jump
to the next occurrence of the literal prefix, if there is one, run the program there, and on
failure go on behind the rune at that position. -/
def Regexp.findLoop (re : Regexp) (src : GoString) : Nat → Nat → Option (Nat × Nat)
  | 0, _ => none
  | fuel + 1, pos =>
    if src.length < pos then none
    else
      let start :=
        if re.prefixBytes = [] then some pos
        else (indexOf re.prefixBytes (src.drop pos)).map (pos + ·)
      match start with
      | none => none
      | some p =>
        match matchRunes re.runes (src.drop p) with
        | some n => some (p, p + n)
        | none =>
          let width := (DecodeRune (src.drop p)).2
          if width = 0 then none else findLoop re src fuel (p + width)

/-- The leftmost match at or after `pos`, as start and end offsets. -/
def Regexp.find (re : Regexp) (src : GoString) (pos : Nat) : Option (Nat × Nat) :=
  re.findLoop src (src.length + 1) pos

/-- Model of `(*Regexp).Match`. -/
def Regexp.Match (re : Regexp) (b : GoString) : Bool := (re.find b 0).isSome

/-- A byte that can stand in a group name of a replacement template: an ASCII letter, a
digit or the underscore.  (Go also takes letters and digits beyond ASCII; templates with such
names are outside this model.) -/
def isNameByte (c : Char) : Bool := c.isAlphanum || c == '_'

/-- Model of `extract` of package `regexp`: the group name at the head of what follows a
`$`, plain or in braces, and the rest of the template; `none` when there is no name. -/
def extract (str : GoString) : Option (GoString × GoString) :=
  match str with
  | '{' :: inner =>
    let name := inner.takeWhile isNameByte
    if name = [] then none
    else
      match inner.dropWhile isNameByte with
      | '}' :: rest => some (name, rest)
      | _ => none
  | _ =>
    let name := str.takeWhile isNameByte
    if name = [] then none else some (name, str.dropWhile isNameByte)

/-- Model of `(*Regexp).expand` for a pattern without capture groups: the text a replacement
template stands for at a match. `$$` is a dollar sign, `$0` and `${0}` are the matched text,
any other `$name` or `${name}` is empty, and a `$` that starts no name is itself. -/
def expand (matched : GoString) : Nat → GoString → GoString
  | 0, template => template
  | fuel + 1, template =>
    match template.span (fun c => c != '$') with
    | (before, []) => before
    | (before, _ :: after) =>
      match after with
      | '$' :: rest => before ++ '$' :: expand matched fuel rest
      | _ =>
        match extract after with
        | none => before ++ '$' :: expand matched fuel after
        | some (name, rest) =>
          before ++ (if name = ['0'] then matched else []) ++ expand matched fuel rest

/-- The loop of `(*Regexp).replaceAll`: `lastMatchEnd` is the end of the latest match,
`searchPos` is where the next search starts, `buf` is the output so far. -/
def replaceAllLoop (re : Regexp) (src repl : GoString) :
    Nat → Nat → Nat → GoString → GoString
  | 0, lastMatchEnd, _, buf => buf ++ src.drop lastMatchEnd
  | fuel + 1, lastMatchEnd, searchPos, buf =>
    if src.length < searchPos then buf ++ src.drop lastMatchEnd
    else
      match re.find src searchPos with
      | none => buf ++ src.drop lastMatchEnd
      | some (a0, a1) =>
        let buf1 := buf ++ (src.drop lastMatchEnd).take (a0 - lastMatchEnd)
        let buf2 :=
          if lastMatchEnd < a1 ∨ a0 = 0 then
            buf1 ++ expand ((src.drop a0).take (a1 - a0)) (repl.length + 1) repl
          else buf1
        let width := (DecodeRune (src.drop searchPos)).2
        let searchPos1 :=
          if a1 < searchPos + width then searchPos + width
          else if a1 < searchPos + 1 then searchPos + 1
          else a1
        replaceAllLoop re src repl fuel a1 searchPos1 buf2

/-- Model of `(*Regexp).ReplaceAll`: every match, found left to right, is replaced by the
expansion of the template `repl`. -/
def Regexp.ReplaceAll (re : Regexp) (src repl : GoString) : GoString :=
  replaceAllLoop re src repl (src.length + 2) 0 0 []

/-! ## `internal/processor` -/

/-- The errors of `processFile` and `copyFile`, one per message of the source. -/
inductive ProcError where
  | readFile
  | statSource
  | writeFile
  | openSource
  | createDest
  | copyFile
deriving DecidableEq, Repr

/-- The permission bits of a node. -/
def FsNode.mode : FsNode → Nat
  | .dir m => m
  | .file m _ => m

/-- Model of `copyFile` (processor.go:118): the source is opened and stat-ed, the destination
is created or emptied, and the bytes of the source are read and written over. -/
def copyFile (fs : FS) (srcPath destPath : Path) : Option ProcError × FS :=
  match fs.stat srcPath with
  | none => (some .openSource, fs)
  | some srcInfo =>
    match fs.openFile destPath srcInfo.mode true with
    | none => (some .createDest, fs)
    | some fs1 =>
      match fs1.stat srcPath with
      | some (.file _ bytes) => (none, fs1.writeFromStart destPath bytes)
      | _ => (some .copyFile, fs1)

/-- Model of `processFile` (processor.go:84): the flag says whether a replacement was made,
the option is the error. -/
def processFile (fs : FS) (srcPath destPath : Path) (pattern : Regexp)
    (replacement : GoString) : (Bool × Option ProcError) × FS :=
  match fs.stat srcPath with
  | some (.file _ content) =>
    if isBinary content then
      let r := copyFile fs srcPath destPath
      ((false, r.1), r.2)
    else
      let hasMatch := pattern.Match content
      let modified := pattern.ReplaceAll content replacement
      match fs.stat srcPath with
      | none => ((false, some .statSource), fs)
      | some srcInfo =>
        match fs.openFile destPath srcInfo.mode true with
        | none => ((false, some .writeFile), fs)
        | some fs1 => ((hasMatch, none), fs1.writeFromStart destPath modified)
  | _ => ((false, some .readFile), fs)

/-- What `filepath.Walk` finds at and below its root, as `lstat` and the directory listings
report it: files and directories by name and mode, the entries of a directory in the order of
their names. -/
inductive WalkNode where
  | file (name : GoString) (mode : Nat)
  | dir (name : GoString) (mode : Nat) (children : List WalkNode)

/-- The base name of a node, `info.Name()`. -/
def WalkNode.name : WalkNode → GoString
  | .file n _ => n
  | .dir n _ _ => n

/-- Whether a node is a directory, `info.IsDir()`. -/
def WalkNode.isDir : WalkNode → Bool
  | .file _ _ => false
  | .dir _ _ _ => true

/-- What the walk function returns besides `nil`: the request to skip a directory, or an
error that ends the walk. -/
inductive WalkErr where
  | skipDir
  | mkdirAll
  | processFile (relPath : Path) (err : ProcError)
deriving DecidableEq, Repr

/-- The running state of `ProcessAndCopy`: the file system and the two counters. -/
structure CopyState where
  fs : FS
  fileCount : Nat
  replacementCount : Nat
deriving DecidableEq, Repr

/-- The function `ProcessAndCopy` hands to `filepath.Walk` (processor.go:24), at the node with
relative path `relPath` (the names below the root; empty for the root, which `filepath.Rel`
reports as `.`). -/
def walkFn (srcDir destDir : Path) (pattern : Regexp) (moduleName : GoString)
    (relPath : Path) (isDir : Bool) (name : GoString) (mode : Nat) (st : CopyState) :
    Option WalkErr × CopyState :=
  if relPath = [] then (none, st)
  else if isDir = true ∧ HasPrefix name ['.'] = true then (some .skipDir, st)
  else
    let destPath := destDir ++ relPath
    if isDir then
      match st.fs.mkdirAll destPath mode with
      | none => (some .mkdirAll, st)
      | some fs1 => (none, { st with fs := fs1 })
    else
      match processFile st.fs (srcDir ++ relPath) destPath pattern moduleName with
      | ((_, some err), fs1) => (some (.processFile relPath err), { st with fs := fs1 })
      | ((replaced, none), fs1) =>
        (none, ⟨fs1, st.fileCount + 1,
          if replaced then st.replacementCount + 1 else st.replacementCount⟩)

/-- Model of `walk` of `path/filepath`: the function is called on the node, then, for a
directory it did not refuse, on every entry in turn; an entry that is a directory may ask to
be skipped, any other non-`nil` result ends the walk. -/
def walk (srcDir destDir : Path) (pattern : Regexp) (moduleName : GoString) :
    Path → WalkNode → CopyState → Option WalkErr × CopyState
  | relPath, .file name mode, st =>
    walkFn srcDir destDir pattern moduleName relPath false name mode st
  | relPath, .dir name mode children, st =>
    match walkFn srcDir destDir pattern moduleName relPath true name mode st with
    | (some err, st1) => (some err, st1)
    | (none, st1) => walkEntries relPath children st1
where
  /-- The loop of `walk` over the entries of a directory. -/
  walkEntries : Path → List WalkNode → CopyState → Option WalkErr × CopyState
  | _, [], st => (none, st)
  | relPath, child :: rest, st =>
    match walk srcDir destDir pattern moduleName (relPath ++ [child.name]) child st with
    | (some err, st1) =>
      if child.isDir = true ∧ err = .skipDir then walkEntries relPath rest st1
      else (some err, st1)
    | (none, st1) => walkEntries relPath rest st1

/-- Model of `ProcessAndCopy` (processor.go:14): the error, and the state with the counters of
the closing summary line; `none` is the panic of `regexp.MustCompile`, before anything is
read or written. -/
def ProcessAndCopy (fs : FS) (tree : WalkNode) (srcDir destDir : Path)
    (modulePlaceholder moduleName : GoString) : Option (Option WalkErr × CopyState) :=
  match MustCompileQuoteMeta modulePlaceholder with
  | none => none
  | some pattern =>
    match walk srcDir destDir pattern moduleName [] tree ⟨fs, 0, 0⟩ with
    | (some .skipDir, st) => some (none, st)
    | r => some r

/-! ## Notions used in the statements -/

/-- A name a directory entry can have. -/
def PlainName (c : GoString) : Prop := c ≠ [] ∧ '/' ∉ c ∧ c ≠ ['.'] ∧ c ≠ ['.', '.']

/-- The cleaned path ends in the element `..`: a relative path that names the directory above
a directory, not an entry by its name. -/
def endsInDotDot (path : GoString) : Prop :=
  (splitSlash (Clean path)).getLast? = some ['.', '.']

instance (path : GoString) : Decidable (endsInDotDot path) := by
  unfold endsInDotDot; exact inferInstance

/-- The elements `filepath.Clean` has kept of a relative path, last one first: names, on top
of any number of `..`. -/
def CleanStack (st : List GoString) : Prop :=
  ∃ names dots, st = names ++ dots ∧ (∀ n ∈ names, PlainName n) ∧ ∀ d ∈ dots, d = ['.', '.']

/-- Location `p` lies below location `d`, and is not `d` itself. -/
def strictlyInside (d p : Path) : Prop := d <+: p ∧ d ≠ p

instance (d p : Path) : Decidable (strictlyInside d p) := by
  unfold strictlyInside; exact inferInstance

/-- File system `fs1` differs from `fs` at most at locations strictly inside `c`. -/
def FrameAt (c : Path) (fs fs1 : FS) : Prop :=
  ∀ q, ¬ strictlyInside c q → fs1.stat q = fs.stat q

/-- Location `c` and every location above it is a directory. -/
def DirsTo (fs : FS) (c : Path) : Prop := ∀ q ∈ c.inits, fs.isDir q = true

instance (fs : FS) (c : Path) : Decidable (DirsTo fs c) := by
  unfold DirsTo; exact inferInstance

/-- Whether a base name begins with a dot. -/
def dotted (name : GoString) : Bool := HasPrefix name ['.']

/-- The source entries at and below a node found at `relPath`: relative path and whether
the entry is a directory. -/
def WalkNode.entriesAt : Path → WalkNode → List (Path × Bool)
  | relPath, .file _ _ => [(relPath, false)]
  | relPath, .dir _ _ children => (relPath, true) :: entriesOf relPath children
where
  /-- The source entries at and below the given entries of the directory at `relPath`. -/
  entriesOf : Path → List WalkNode → List (Path × Bool)
  | _, [] => []
  | relPath, child :: rest =>
    WalkNode.entriesAt (relPath ++ [child.name]) child ++ entriesOf relPath rest

/-- The source entries other than the root. -/
def WalkNode.entriesBelow : WalkNode → List (Path × Bool)
  | .file _ _ => []
  | .dir _ _ children => WalkNode.entriesAt.entriesOf [] children

/-- The directories at and below a node found at `relPath`: relative path and mode. -/
def WalkNode.dirsAt : Path → WalkNode → List (Path × Nat)
  | _, .file _ _ => []
  | relPath, .dir _ mode children => (relPath, mode) :: dirsOf relPath children
where
  /-- The directories at and below the given entries of the directory at `relPath`. -/
  dirsOf : Path → List WalkNode → List (Path × Nat)
  | _, [] => []
  | relPath, child :: rest =>
    WalkNode.dirsAt (relPath ++ [child.name]) child ++ dirsOf relPath rest

/-- The directories of the tree other than the root, with their modes. -/
def WalkNode.dirsBelow : WalkNode → List (Path × Nat)
  | .file _ _ => []
  | .dir _ _ children => WalkNode.dirsAt.dirsOf [] children

/-- No directory on the path of the entry, the entry itself included when it is a directory,
has a base name that begins with a dot. -/
def visibleEntry (e : Path × Bool) : Prop :=
  ∀ n ∈ (if e.2 then e.1 else e.1.dropLast), dotted n = false

instance (e : Path × Bool) : Decidable (visibleEntry e) := by
  unfold visibleEntry; exact inferInstance

/-- The location holds a directory (`isDir` true) or a regular file (`isDir` false). -/
def FS.hasKind (fs : FS) (q : Path) (isDir : Bool) : Prop :=
  match fs.stat q with
  | some (.dir _) => isDir = true
  | some (.file _ _) => isDir = false
  | none => False

instance (fs : FS) (q : Path) (isDir : Bool) : Decidable (fs.hasKind q isDir) := by
  unfold FS.hasKind; split <;> exact inferInstance

/-- Every location keeps its kind from `fs` to `fs1`. -/
def KeepsKinds (fs fs1 : FS) : Prop := ∀ q d, fs.hasKind q d → fs1.hasKind q d

/-- What a part of the walk over the source entries `entries` does to the file system: kinds
are kept, every new location is at or above the mirror of an entry that is not hidden, and
every entry that is not hidden has its mirror. -/
def WalkSpec (destDir : Path) (entries : List (Path × Bool)) (fs fs1 : FS) : Prop :=
  KeepsKinds fs fs1 ∧
  (∀ q, fs.stat q = none → fs1.stat q ≠ none →
    ∃ e ∈ entries, visibleEntry e ∧ q <+: destDir ++ e.1) ∧
  (∀ e ∈ entries, visibleEntry e → fs1.hasKind (destDir ++ e.1) e.2)

/-- The names in every directory of the tree are pairwise distinct, as they are in any
directory listing. -/
def WalkNode.wellFormed : WalkNode → Bool
  | .file _ _ => true
  | .dir _ _ children => decide ((children.map WalkNode.name).Nodup) && allWellFormed children
where
  /-- Every node of the list is well formed. -/
  allWellFormed : List WalkNode → Bool
  | [] => true
  | child :: rest => child.wellFormed && allWellFormed rest

/-- Whether the permission bits grant the owner reading. -/
def ownerRead (mode : Nat) : Bool := decide (mode / 0o400 % 2 = 1)

/-- Whether the permission bits grant the owner writing. -/
def ownerWrite (mode : Nat) : Bool := decide (mode / 0o200 % 2 = 1)

/-- Whether the permission bits grant the owner searching (of a directory). -/
def ownerSearch (mode : Nat) : Bool := decide (mode / 0o100 % 2 = 1)

/-- The location holds a regular file that grants its owner reading. -/
def FS.readableFile (fs : FS) (q : Path) : Bool :=
  match fs.stat q with
  | some (.file m _) => ownerRead m
  | _ => false

/-- The location holds a directory that grants its owner writing and searching. -/
def FS.writableDir (fs : FS) (q : Path) : Bool :=
  match fs.stat q with
  | some (.dir m) => ownerWrite m && ownerSearch m
  | _ => false

/-- Every directory of the tree grants its owner reading, writing and searching. -/
def WalkNode.dirsOpen : WalkNode → Bool
  | .file _ _ => true
  | .dir _ mode children =>
    ownerRead mode && ownerWrite mode && ownerSearch mode && allOpen children
where
  /-- Every directory of the trees of the list grants its owner every access. -/
  allOpen : List WalkNode → Bool
  | [] => true
  | child :: rest => child.dirsOpen && allOpen rest

/-- File system `fs1` differs from `fs` at most at location `c` and below it. -/
def OnlyBelow (c : Path) (fs fs1 : FS) : Prop := ∀ q, ¬ c <+: q → fs1.stat q = fs.stat q

/-- A tar stream whose second member points out of the working directory. -/
def demoTar : TarStream :=
  ⟨[⟨"proj/a.txt".toList, '0', 0o644, "hi".toList, false⟩,
    ⟨"../evil".toList, '0', 0o644, "x".toList, false⟩,
    ⟨"proj/b.txt".toList, '0', 0o644, "yo".toList, false⟩], false⟩

/-- A zip listing whose second member resolves to the working directory itself. -/
def demoZip : List ZipEntry :=
  [⟨"proj/".toList, true, false, [], false⟩,
   ⟨".".toList, true, false, [], false⟩,
   ⟨"proj/b.txt".toList, false, false, "yo".toList, false⟩]

/-- Surroundings in which every archive file decodes to `demoTar` and `demoZip`. -/
def demoEnv : Env :=
  ⟨[], "/tmp".toList, ["1".toList], fun _ => some demoTar, fun _ => some demoZip⟩

/-- A file system with an archive file `/a` and an empty working directory `/tmp/x`. -/
def demoWorld : World :=
  ⟨[(["a".toList], .file 0o644 []), (["tmp".toList, "x".toList], .dir 0o700),
    (["tmp".toList], .dir 0o777), ([], .dir 0o755)], []⟩

/-- The world after the first member of `demoTar` has been extracted. -/
def demoAfterTar : World :=
  (tarLoop [] "/tmp/x".toList false ⟨demoWorld.fs, [.openArchive "/a".toList]⟩
    (demoTar.entries.take 1)).2

/-- The world after the first member of `demoZip` has been extracted. -/
def demoAfterZip : World :=
  (zipLoop [] "/tmp/x".toList ⟨demoWorld.fs, [.openArchive "/a".toList]⟩ (demoZip.take 1)).2


/-- A tar stream in which a file `a` is followed by a member below `a`, and only then by a
member that points out of the working directory. -/
def shadowTar : TarStream :=
  ⟨[⟨"a".toList, '0', 0o644, "hi".toList, false⟩,
    ⟨"a/b".toList, '0', 0o644, "yo".toList, false⟩,
    ⟨"../evil".toList, '0', 0o644, "x".toList, false⟩], false⟩

/-- A zip listing with the same three members. -/
def shadowZip : List ZipEntry :=
  [⟨"a".toList, false, false, "hi".toList, false⟩,
   ⟨"a/b".toList, false, false, "yo".toList, false⟩,
   ⟨"../evil".toList, false, false, "x".toList, false⟩]

/-- Surroundings in which every archive file decodes to `shadowTar` and `shadowZip`. -/
def shadowEnv : Env :=
  ⟨[], "/tmp".toList, ["1".toList], fun _ => some shadowTar, fun _ => some shadowZip⟩

/-- Surroundings like `demoEnv`, for a process that runs in `/home/u` with the relative
directory `work` for temporary files. -/
def relEnv : Env :=
  ⟨["home".toList, "u".toList], "work".toList, ["1".toList], fun _ => some demoTar,
    fun _ => some demoZip⟩

/-- A file system with the archive file `/home/u/a` and the empty working directory
`/home/u/work/x`. -/
def relWorld : World :=
  ⟨[(["home".toList, "u".toList, "a".toList], .file 0o644 []),
    (["home".toList, "u".toList, "work".toList, "x".toList], .dir 0o700),
    (["home".toList, "u".toList, "work".toList], .dir 0o755),
    (["home".toList, "u".toList], .dir 0o755), (["home".toList], .dir 0o755),
    ([], .dir 0o755)], []⟩

/-- The world after the first member of `demoTar` has been extracted into `work/x`. -/
def relAfterTar : World :=
  (tarLoop ["home".toList, "u".toList] "work/x".toList false
    ⟨relWorld.fs, [.openArchive "a".toList]⟩ (demoTar.entries.take 1)).2

/-- Surroundings of a process that runs in `/tmp/x/y`, in which every archive file decodes
to the single member `../evil`. -/
def escapeEnv : Env :=
  ⟨["tmp".toList, "x".toList, "y".toList], "/tmp".toList, ["1".toList],
    fun _ => some ⟨[⟨"../evil".toList, '0', 0o644, "x".toList, false⟩], false⟩,
    fun _ => some [⟨"../evil".toList, false, false, "x".toList, false⟩]⟩

/-- The file system of `demoWorld` with the directory `/tmp/x/y`. -/
def escapeWorld : World :=
  ⟨(["tmp".toList, "x".toList, "y".toList], .dir 0o755) :: demoWorld.fs, []⟩

/-- A file system with the text file `/s/go.mod` and an empty directory `/d`. -/
def demoModFS : FS :=
  [(["s".toList, "go.mod".toList], .file 0o644 "module {{MODULE}} pkg".toList),
   (["s".toList], .dir 0o755), (["d".toList], .dir 0o755), ([], .dir 0o755)]

/-- A world whose working directory `/tmp/x` holds the single directory `proj-v1` with one
file in it; `/tmp` holds that working directory and a file. -/
def demoStripWorld : World :=
  ⟨[(["tmp".toList, "x".toList, "proj-v1".toList, "file.txt".toList], .file 0o644 "hi".toList),
    (["tmp".toList, "x".toList, "proj-v1".toList], .dir 0o755),
    (["tmp".toList, "x".toList], .dir 0o700), (["tmp".toList, "y".toList], .file 0o600 []),
    (["tmp".toList], .dir 0o777), ([], .dir 0o755)],
   []⟩

/-- A file system with `/s/logo.png`, a file with a null byte that also holds the bytes of
the token `{{MODULE}}`, the text file `/s/README.md`, the text file `/s/LICENSE` without the
token, and an empty directory `/d`. -/
def demoCopyFS : FS :=
  [(["s".toList, "logo.png".toList], .file 0o644 ("PNG".toList ++ [Char.ofNat 0] ++
      "{{MODULE}}".toList)),
   (["s".toList, "README.md".toList], .file 0o644 "# {{MODULE}}".toList),
   (["s".toList, "LICENSE".toList], .file 0o644 "MIT".toList),
   (["s".toList], .dir 0o755), (["d".toList], .dir 0o755), ([], .dir 0o755)]

/-- What `filepath.Walk` finds at `/s` in `demoCopyFS`. -/
def demoCopyTree : WalkNode :=
  .dir "s".toList 0o755
    [.file "LICENSE".toList 0o644, .file "README.md".toList 0o644,
     .file "logo.png".toList 0o644]

/-- A file system with the text file `/s/f`, whose three bytes are `a`, `0xFF` and `b`, and an
empty directory `/d`. -/
def demoRuneFS : FS :=
  [(["s".toList, "f".toList], .file 0o644 ['a', Char.ofNat 0xFF, 'b']),
   (["s".toList], .dir 0o755), (["d".toList], .dir 0o755), ([], .dir 0o755)]

/-- A file system with a source tree `/s` that holds `.git/config`, the hidden file
`.gitignore`, and `pkg/.cache/x` beside `pkg/a.go`; and an empty directory `/d`. -/
def demoTreeFS : FS :=
  [(["s".toList, ".git".toList, "config".toList], .file 0o644 "c".toList),
   (["s".toList, ".git".toList], .dir 0o755),
   (["s".toList, ".gitignore".toList], .file 0o644 "bin".toList),
   (["s".toList, "pkg".toList, ".cache".toList, "x".toList], .file 0o644 "x".toList),
   (["s".toList, "pkg".toList, ".cache".toList], .dir 0o755),
   (["s".toList, "pkg".toList, "a.go".toList], .file 0o644 "package {{M}}".toList),
   (["s".toList, "pkg".toList], .dir 0o755),
   (["s".toList], .dir 0o755), (["d".toList], .dir 0o755), ([], .dir 0o755)]

/-- What `filepath.Walk` finds at `/s` in `demoTreeFS`. -/
def demoTree : WalkNode :=
  .dir "s".toList 0o755
    [.dir ".git".toList 0o755 [.file "config".toList 0o644],
     .file ".gitignore".toList 0o644,
     .dir "pkg".toList 0o755
       [.dir ".cache".toList 0o755 [.file "x".toList 0o644], .file "a.go".toList 0o644]]

/-- The state `ProcessAndCopy` leaves on `demoTree`. -/
def demoTreeResult : CopyState :=
  match ProcessAndCopy demoTreeFS demoTree ["s".toList] ["d".toList] "{{M}}".toList
    "app".toList with
  | some r => r.2
  | none => ⟨demoTreeFS, 0, 0⟩

/-- Surroundings like `demoEnv`, but without a usable directory for temporary files. -/
def demoEnvNoTemp : Env :=
  ⟨[], "/nowhere".toList, ["1".toList], fun _ => some demoTar, fun _ => some demoZip⟩

/-! ## `main`: the `create` command -/

/-- Model of `os.Remove`: a file, or a directory without entries, is gone; anything else is
left as it is. -/
def FS.remove (fs : FS) (p : Path) : FS :=
  match fs.stat p with
  | some (.file _ _) => fs.filter (fun e => decide (e.1 ≠ p))
  | some (.dir _) => if fs.childNames p = [] then fs.filter (fun e => decide (e.1 ≠ p)) else fs
  | none => fs

/-- `os.Remove` as a call. -/
def osRemove (cwd : Path) (w : World) (path : GoString) : World :=
  ⟨w.fs.remove (resolve cwd path), w.calls ++ [.remove path]⟩

/-- How the `create` command ends once the archive is downloaded, other than with `nil`: an
error of `Extract` or of `ProcessAndCopy`, or the panic of `ProcessAndCopy`, which nothing
recovers. -/
inductive CreateError where
  | extract (err : ExtractError)
  | process (err : WalkErr)
  | compilePanic
deriving DecidableEq, Repr

/-- Model of the function behind `createCmd` (main.go:98) from the point where the archive
has been downloaded to `archivePath`: the format is detected, the archive is extracted, the
extracted tree (`tree`: what `filepath.Walk` finds at the directory `Extract` returned) is
processed into the project directory; on the way out, also out of a panic, the deferred calls
run, last one first: `os.RemoveAll(extractedDir)` once `Extract` has succeeded, then
`os.Remove(archivePath)`. -/
def createCmd (env : Env) (w : World) (tree : WalkNode)
    (archivePath archiveUrl projectDir modulePlaceholder moduleName : GoString) :
    Option CreateError × World :=
  let format := DetectArchiveFormat archiveUrl
  match Extract env w archivePath format with
  | (.error err, w1) => (some (.extract err), osRemove env.cwd w1 archivePath)
  | (.ok extractedDir, w1) =>
    match ProcessAndCopy w1.fs tree (resolve env.cwd extractedDir) (resolve env.cwd projectDir)
      modulePlaceholder moduleName with
    | none =>
      (some .compilePanic, osRemove env.cwd (osRemoveAll env.cwd w1 extractedDir) archivePath)
    | some r =>
      let w2 : World := ⟨r.2.fs, w1.calls⟩
      (r.1.map .process, osRemove env.cwd (osRemoveAll env.cwd w2 extractedDir) archivePath)

/-- Surroundings in which the archive is the usual one of a code host: a single directory
`proj-v1` with a file in it. -/
def wrappedEnv : Env :=
  ⟨[], "/tmp".toList, ["1".toList],
    fun _ => some ⟨[⟨"proj-v1/".toList, '5', 0o755, [], false⟩,
      ⟨"proj-v1/go.mod".toList, '0', 0o644, "module {{M}}".toList, false⟩], false⟩,
    fun _ => none⟩

/-- Surroundings in which the archive has two entries at its top. -/
def flatEnv : Env :=
  ⟨[], "/tmp".toList, ["1".toList],
    fun _ => some ⟨[⟨"go.mod".toList, '0', 0o644, "module {{M}}".toList, false⟩,
      ⟨"main.go".toList, '0', 0o644, "package main".toList, false⟩], false⟩,
    fun _ => none⟩

/-- A file system with the downloaded archive `/a`, the directory `/tmp` and an empty project
directory `/p`. -/
def createWorld : World :=
  ⟨[(["a".toList], .file 0o600 []), (["p".toList], .dir 0o755), (["tmp".toList], .dir 0o777),
    ([], .dir 0o755)], []⟩

/-! ## Theorems -/

theorem roundHalfEven_bounds (a b : Nat) (hb : 0 < b) :
    2 * (roundHalfEven a b * b) ≤ 2 * a + b ∧ 2 * a ≤ 2 * (roundHalfEven a b * b) + b := by
  have h1 := Nat.div_add_mod a b
  have h2 := Nat.mod_lt a hb
  have h3 : (a / b + 1) * b = b * (a / b) + b := by ring
  have h4 : a / b * b = b * (a / b) := by ring
  unfold roundHalfEven
  simp only []
  split_ifs <;> simp only [h3, h4] <;> omega

theorem float64Div_exact_tenth (n : Nat) (hn : 0 < n) (hs : 10 * n ≤ 512) :
    float64Div n (10 * n) = float64_0_1 := by
  have h : ∀ m, m < 52 → m = 0 ∨ float64Div m (10 * m) = float64_0_1 := by decide!
  rcases h n (by omega) with h0 | h0
  · omega
  · exact h0

theorem float64Div_gt_tenth (n s : Nat) (hs : 0 < s) (hs512 : s ≤ 512) (hn : n ≤ s) :
    (float64Div n s).gt float64_0_1 = true ↔ s < 10 * n := by
  rcases Nat.eq_zero_or_pos n with h0 | hpos
  · subst h0
    simp [float64Div, Float64.gt, float64_0_1]
  rcases Nat.lt_trichotomy (10 * n) s with hlt | heq | hgt
  · -- below one tenth
    have hng : ¬ s < 10 * n := by omega
    simp only [hng, iff_false, Bool.not_eq_true]
    have hne : n ≠ 0 := by omega
    simp only [float64Div, hne, if_false, Float64.gt, float64_0_1, decide_eq_false_iff_not,
      not_lt]
    generalize hj : binadeShift n s 1022 0 = j
    obtain ⟨hb1, -⟩ := roundHalfEven_bounds (n * 2 ^ (52 + j)) s hs
    generalize roundHalfEven (n * 2 ^ (52 + j)) s = m at hb1 ⊢
    have hP : 2 ^ 52 ≤ 2 ^ (52 + j) := Nat.pow_le_pow_right (by norm_num) (by omega)
    generalize 2 ^ (52 + j) = P at hb1 hP ⊢
    have h1 : 10 * n + 1 ≤ s := hlt
    have h2 : (10 * n + 1) * P ≤ s * P := Nat.mul_le_mul_right P h1
    have h3 : (10 * n + 1) * P = 10 * (n * P) + P := by ring
    rw [h3] at h2
    by_contra hcon
    push_neg at hcon
    have h4 : (7205759403792794 * P + 1) * s ≤ m * 2 ^ 56 * s := Nat.mul_le_mul_right s hcon
    have h5 : (7205759403792794 * P + 1) * s = 7205759403792794 * (s * P) + s := by ring
    have h6 : m * 2 ^ 56 * s = 72057594037927936 * (m * s) := by ring
    rw [h5, h6] at h4
    norm_num at hP
    omega
  · -- exactly one tenth
    subst heq
    have hng : ¬ 10 * n < 10 * n := by omega
    simp only [hng, iff_false, Bool.not_eq_true]
    rw [float64Div_exact_tenth n hpos hs512]
    decide
  · -- above one tenth
    simp only [hgt, iff_true]
    have hne : n ≠ 0 := by omega
    simp only [float64Div, hne, if_false, Float64.gt, float64_0_1, decide_eq_true_eq]
    generalize hj : binadeShift n s 1022 0 = j
    obtain ⟨-, hb2⟩ := roundHalfEven_bounds (n * 2 ^ (52 + j)) s hs
    generalize roundHalfEven (n * 2 ^ (52 + j)) s = m at hb2 ⊢
    have hP : 2 ^ 52 ≤ 2 ^ (52 + j) := Nat.pow_le_pow_right (by norm_num) (by omega)
    generalize 2 ^ (52 + j) = P at hb2 hP ⊢
    have h1 : s + 1 ≤ 10 * n := hgt
    have h2 : (s + 1) * P ≤ 10 * n * P := Nat.mul_le_mul_right P h1
    have h3 : (s + 1) * P = s * P + P := by ring
    have h3b : 10 * n * P = 10 * (n * P) := by ring
    rw [h3, h3b] at h2
    by_contra hcon
    push_neg at hcon
    have h4 : m * 2 ^ 56 * s ≤ 7205759403792794 * P * s := Nat.mul_le_mul_right s hcon
    have h5 : 7205759403792794 * P * s = 7205759403792794 * (s * P) := by ring
    have h6 : m * 2 ^ 56 * s = 72057594037927936 * (m * s) := by ring
    rw [h5, h6] at h4
    have h7 : s * P ≤ 512 * P := Nat.mul_le_mul_right P hs512
    norm_num at hP
    omega

theorem isBinary_eq_sample (content : GoString) :
    isBinary content = true ↔
      (∃ b ∈ content.take (min content.length 512), b.toNat = 0) ∨
        (content.take (min content.length 512)).length <
          10 * ((content.take (min content.length 512)).filter isNonPrintable).length := by
  have hmin : (if 512 < content.length then 512 else content.length) = min content.length 512 := by
    split_ifs <;> omega
  unfold isBinary
  simp only [hmin]
  generalize hs : content.take (min content.length 512) = sample
  have hlen : sample.length = min content.length 512 := by
    rw [← hs, List.length_take]; omega
  by_cases h0 : content.length = 0
  · have hnil : sample = [] := by
      apply List.eq_nil_of_length_eq_zero; omega
    simp [h0, hnil]
  · simp only [h0, if_false]
    by_cases hnull : sample.any (fun b => b.toNat == 0) = true
    · simp only [hnull, if_true, true_iff]
      left
      simpa using hnull
    · simp only [hnull, if_false]
      have hno : ¬ ∃ b ∈ sample, b.toNat = 0 := by simpa using hnull
      simp only [hno, false_or]
      rw [← hlen]
      exact float64Div_gt_tenth _ _ (by omega) (by omega) (List.length_filter_le _ _)

/-- Claim C4. `isBinary` is true exactly when the sample (the first `min (len content) 512`
bytes) holds a null byte, or more than one tenth of its bytes are below `0x20` and are not
newline, carriage return or tab; a share of exactly one tenth, and the empty content, are
text. -/
theorem isBinary_spec (content : GoString) :
    (isBinary content = true ↔
      (∃ b ∈ content.take (min content.length 512), b.toNat = 0) ∨
        (content.take (min content.length 512)).length <
          10 * ((content.take (min content.length 512)).filter
            (fun b => decide (b.toNat < 32) && b.toNat != 10 && b.toNat != 13
              && b.toNat != 9)).length) ∧
    isBinary [] = false :=
  ⟨isBinary_eq_sample content, rfl⟩

theorem sample_take (c : GoString) :
    (c.take 512).take (min (c.take 512).length 512) = c.take (min c.length 512) := by
  rw [List.take_take, List.length_take]
  congr 1
  omega

theorem isBinary_take (c : GoString) : isBinary (c.take 512) = isBinary c := by
  rw [Bool.eq_iff_iff, isBinary_eq_sample, isBinary_eq_sample, sample_take]

/-- Claim C5. `isBinary` depends only on the first `min (len c) 512` bytes: it gives the same
answer on `c` and on `c` cut to 512 bytes, so two contents with the same 512-byte prefix are
classified alike. -/
theorem isBinary_first512 (c : GoString) :
    isBinary c = isBinary (c.take 512) ∧
      ∀ d : GoString, d.take 512 = c.take 512 → isBinary d = isBinary c := by
  refine ⟨(isBinary_take c).symm, fun d h => ?_⟩
  rw [← isBinary_take d, h, isBinary_take]

theorem isBinary_first512_witness :
    isBinary ("ab".toList ++ [Char.ofNat 0]) = isBinary (("ab".toList ++ [Char.ofNat 0]).take 512) ∧
    isBinary ("ab".toList ++ [Char.ofNat 0]) = true :=
  ⟨(isBinary_first512 ("ab".toList ++ [Char.ofNat 0])).1, by decide⟩

/-! ### Paths -/

theorem splitSlash_ne_nil (s : GoString) : splitSlash s ≠ [] := by
  cases s with
  | nil => simp [splitSlash]
  | cons c cs =>
    unfold splitSlash
    split_ifs
    · simp
    · split <;> simp

theorem splitSlash_no_slash (s : GoString) : ∀ e ∈ splitSlash s, '/' ∉ e := by
  induction s with
  | nil => simp [splitSlash]
  | cons c cs ih =>
    unfold splitSlash
    split_ifs with h
    · intro e he
      rcases List.mem_cons.mp he with rfl | he
      · simp
      · exact ih e he
    · cases hs : splitSlash cs with
      | nil => exact absurd hs (splitSlash_ne_nil cs)
      | cons a t =>
        rw [hs] at ih
        intro e he
        rcases List.mem_cons.mp he with rfl | he
        · have := ih a (List.mem_cons_self _ _)
          simp only [List.mem_cons, not_or]
          exact ⟨fun hc => h hc.symm, this⟩
        · exact ih e (List.mem_cons_of_mem _ he)

theorem splitSlash_word (a : GoString) (h : '/' ∉ a) : splitSlash a = [a] := by
  induction a with
  | nil => rfl
  | cons c cs ih =>
    have hc : c ≠ '/' := fun hc => h (by simp [hc])
    have hcs : '/' ∉ cs := fun hm => h (List.mem_cons_of_mem _ hm)
    simp [splitSlash, hc, ih hcs]

theorem splitSlash_append_slash (a b : GoString) :
    splitSlash (a ++ '/' :: b) = splitSlash a ++ splitSlash b := by
  induction a with
  | nil => simp [splitSlash]
  | cons c cs ih =>
    by_cases hc : c = '/'
    · simp [splitSlash, hc, ih]
    · cases hs : splitSlash cs with
      | nil => exact absurd hs (splitSlash_ne_nil cs)
      | cons x t =>
        simp [splitSlash, hc, ih, hs]

theorem splitSlash_joinSlash (cs : List GoString) (hne : cs ≠ [])
    (h : ∀ c ∈ cs, '/' ∉ c) : splitSlash (joinSlash cs) = cs := by
  induction cs with
  | nil => exact absurd rfl hne
  | cons a rest ih =>
    cases rest with
    | nil => simpa [joinSlash] using splitSlash_word a (h a (List.mem_cons_self _ _))
    | cons b rest2 =>
      have ha := splitSlash_word a (h a (List.mem_cons_self _ _))
      have hr := ih (by simp) (fun c hc => h c (List.mem_cons_of_mem _ hc))
      rw [joinSlash, splitSlash_append_slash, ha, hr]
      rfl

theorem cleanStep_plain (r : Bool) (st : List GoString) (e : GoString) (h : PlainName e) :
    cleanStep r st e = e :: st := by
  obtain ⟨h1, -, h3, h4⟩ := h
  simp [cleanStep, h1, h3, h4]

theorem foldl_cleanStep_plain (r : Bool) (cs st : List GoString) (h : ∀ c ∈ cs, PlainName c) :
    cs.foldl (cleanStep r) st = cs.reverse ++ st := by
  induction cs generalizing st with
  | nil => rfl
  | cons a rest ih =>
    rw [List.foldl_cons, cleanStep_plain r st a (h a (List.mem_cons_self _ _)),
      ih _ (fun c hc => h c (List.mem_cons_of_mem _ hc))]
    simp

theorem cleanStep_true_plain (st : List GoString) (e : GoString) (he : '/' ∉ e)
    (h : ∀ c ∈ st, PlainName c) : ∀ c ∈ cleanStep true st e, PlainName c := by
  unfold cleanStep
  by_cases h1 : e = [] ∨ e = ['.']
  · simpa [h1] using h
  · simp only [h1, if_false]
    by_cases h2 : e = ['.', '.']
    · simp only [h2, if_true]
      cases st with
      | nil => simp
      | cons top rest =>
        have htop : top ≠ ['.', '.'] := (h top (List.mem_cons_self _ _)).2.2.2
        simp only [htop, if_false]
        exact fun c hc => h c (List.mem_cons_of_mem _ hc)
    · simp only [h2, if_false]
      intro c hc
      rcases List.mem_cons.mp hc with rfl | hc
      · push_neg at h1
        exact ⟨h1.1, he, h1.2, h2⟩
      · exact h c hc

theorem foldl_cleanStep_true_plain (es st : List GoString) (he : ∀ e ∈ es, '/' ∉ e)
    (h : ∀ c ∈ st, PlainName c) : ∀ c ∈ es.foldl (cleanStep true) st, PlainName c := by
  induction es generalizing st with
  | nil => exact h
  | cons a rest ih =>
    rw [List.foldl_cons]
    exact ih _ (fun e hm => he e (List.mem_cons_of_mem _ hm))
      (cleanStep_true_plain st a (he a (List.mem_cons_self _ _)) h)

theorem rooted_plain (s : GoString) : ∀ c ∈ cleanElems true s, PlainName c := by
  intro c hc
  unfold cleanElems at hc
  rw [List.mem_reverse] at hc
  exact foldl_cleanStep_true_plain _ [] (splitSlash_no_slash s) (by simp) c hc

theorem rooted_render (cs : List GoString) (h : ∀ c ∈ cs, PlainName c) :
    cleanElems true ('/' :: joinSlash cs) = cs := by
  unfold cleanElems
  cases cs with
  | nil => simp [joinSlash, splitSlash, cleanStep]
  | cons a rest =>
    have hs := splitSlash_joinSlash (a :: rest) (by simp) (fun c hc => (h c hc).2.1)
    simp only [splitSlash, if_true, hs, List.foldl_cons]
    have h0 : cleanStep true [] [] = [] := by simp [cleanStep]
    rw [h0, ← List.foldl_cons, foldl_cleanStep_plain true _ _ h]
    simp

theorem rooted_render_slash (cs : List GoString) (h : ∀ c ∈ cs, PlainName c) :
    cleanElems true ('/' :: joinSlash cs ++ ['/']) = cs := by
  unfold cleanElems
  have h0 : ∀ st, cleanStep true st [] = st := by intro st; simp [cleanStep]
  cases cs with
  | nil => simp [joinSlash, splitSlash, cleanStep]
  | cons a rest =>
    have hs := splitSlash_joinSlash (a :: rest) (by simp) (fun c hc => (h c hc).2.1)
    have : '/' :: joinSlash (a :: rest) ++ ['/'] = '/' :: (joinSlash (a :: rest) ++ '/' :: []) := by
      simp
    rw [this]
    simp only [splitSlash, if_true, splitSlash_append_slash, hs, List.foldl_cons, h0,
      List.foldl_append, List.foldl_nil]
    rw [← List.foldl_cons, foldl_cleanStep_plain true _ _ h]
    simp

theorem Clean_rooted (s : GoString) (h : s.head? = some '/') :
    Clean s = '/' :: joinSlash (cleanElems true s) := by
  have hne : s ≠ [] := by rintro rfl; simp at h
  simp [Clean, hne, h]

theorem Clean_head (s : GoString) (h : s.head? = some '/') : (Clean s).head? = some '/' := by
  rw [Clean_rooted s h]; rfl

theorem rooted_Clean (s : GoString) (h : s.head? = some '/') : cleanElems true (Clean s) = cleanElems true s := by
  rw [Clean_rooted s h, rooted_render _ (rooted_plain s)]

theorem Join_rooted (a b : GoString) (h : a.head? = some '/') :
    Join a b = '/' :: joinSlash (cleanElems true (a ++ '/' :: b)) := by
  have hne : a ≠ [] := by rintro rfl; simp at h
  have hab : (a ++ '/' :: b).head? = some '/' := by
    cases a with
    | nil => exact absurd rfl hne
    | cons x xs => simpa using h
  simp only [Join, hne, if_false]
  exact Clean_rooted _ hab

theorem rooted_Join (a b : GoString) (h : a.head? = some '/') :
    cleanElems true (Join a b) = cleanElems true (a ++ '/' :: b) := by
  rw [Join_rooted a b h, rooted_render _ (rooted_plain _)]

theorem rooted_guard_inside (dest name : GoString) (habs : dest.head? = some '/')
    (hg : HasPrefix (Join dest name) (Clean dest ++ ['/']) = true) :
    strictlyInside (cleanElems true dest) (cleanElems true (Join dest name)) := by
  rw [rooted_Join dest name habs]
  rw [Join_rooted dest name habs, Clean_rooted dest habs] at hg
  have hc := rooted_plain dest
  have ht := rooted_plain (dest ++ '/' :: name)
  generalize cleanElems true dest = c at hg hc ⊢
  generalize cleanElems true (dest ++ '/' :: name) = t at hg ht ⊢
  unfold HasPrefix at hg
  rw [List.isPrefixOf_iff_prefix] at hg
  obtain ⟨r, hr⟩ := hg
  have hj : joinSlash t = joinSlash c ++ '/' :: r := by
    simp only [List.cons_append, List.append_assoc, List.singleton_append, List.cons.injEq,
      true_and] at hr
    exact hr.symm
  have htne : t ≠ [] := by
    rintro rfl
    simp [joinSlash] at hj
  have hsplit := splitSlash_joinSlash t htne (fun c hc => (ht c hc).2.1)
  rw [hj, splitSlash_append_slash] at hsplit
  cases c with
  | nil =>
    simp only [joinSlash, splitSlash, List.singleton_append] at hsplit
    have := ht [] (by rw [← hsplit]; exact List.mem_cons_self _ _)
    exact absurd rfl this.1
  | cons a rest =>
    rw [splitSlash_joinSlash (a :: rest) (by simp) (fun c hm => (hc c hm).2.1)] at hsplit
    refine ⟨⟨splitSlash r, hsplit⟩, ?_⟩
    intro heq
    have hlen := congrArg List.length hsplit
    rw [← heq, List.length_append] at hlen
    have := List.length_pos.mpr (splitSlash_ne_nil r)
    omega

theorem stepInto_rooted (st : List GoString) (e : GoString) (h : ∀ c ∈ st, c ≠ ['.', '.']) :
    stepInto st e = cleanStep true st e ∧ ∀ c ∈ stepInto st e, c ≠ ['.', '.'] := by
  unfold stepInto cleanStep
  by_cases h1 : e = [] ∨ e = ['.']
  · simp only [h1, if_true]
    exact ⟨trivial, h⟩
  · simp only [h1, if_false]
    by_cases h2 : e = ['.', '.']
    · simp only [h2, if_true]
      cases st with
      | nil => simp
      | cons top rest =>
        have htop : top ≠ ['.', '.'] := h top (List.mem_cons_self _ _)
        simp only [htop, if_false, List.tail_cons, true_and]
        exact fun c hc => h c (List.mem_cons_of_mem _ hc)
    · simp only [h2, if_false, true_and]
      intro c hc
      rcases List.mem_cons.mp hc with rfl | hc
      · exact h2
      · exact h c hc

theorem foldl_stepInto_rooted (es st : List GoString) (h : ∀ c ∈ st, c ≠ ['.', '.']) :
    es.foldl stepInto st = es.foldl (cleanStep true) st := by
  induction es generalizing st with
  | nil => rfl
  | cons a rest ih =>
    rw [List.foldl_cons, List.foldl_cons, ← (stepInto_rooted st a h).1]
    exact ih _ (stepInto_rooted st a h).2

theorem resolve_abs (cwd : Path) (s : GoString) (h : s.head? = some '/') :
    resolve cwd s = cleanElems true s := by
  unfold resolve cleanElems
  rw [if_pos h, foldl_stepInto_rooted _ [] (by simp)]

theorem Join_head (a b : GoString) (h : a.head? = some '/') : (Join a b).head? = some '/' := by
  rw [Join_rooted a b h]; rfl

theorem joinSlash_append_singleton (init : List GoString) (last : GoString) (h : init ≠ []) :
    joinSlash (init ++ [last]) = joinSlash init ++ '/' :: last := by
  induction init with
  | nil => exact absurd rfl h
  | cons a rest ih =>
    cases rest with
    | nil => simp [joinSlash]
    | cons b rest2 =>
      have := ih (by simp)
      simp only [List.cons_append] at this ⊢
      simp [joinSlash, this]

theorem dropWhile_append_of_all {α : Type} (p : α → Bool) (u v : List α)
    (h : ∀ c ∈ u, p c = true) : (u ++ v).dropWhile p = v.dropWhile p := by
  induction u with
  | nil => rfl
  | cons a rest ih =>
    simp [List.dropWhile_cons, h a (List.mem_cons_self _ _),
      ih (fun c hc => h c (List.mem_cons_of_mem _ hc))]

theorem dirPart_append (x w : GoString) (hw : '/' ∉ w) : dirPart (x ++ '/' :: w) = x ++ ['/'] := by
  unfold dirPart
  have h1 : (x ++ '/' :: w).reverse = w.reverse ++ '/' :: x.reverse := by simp
  rw [h1, dropWhile_append_of_all]
  · simp [List.dropWhile_cons]
  · intro c hc
    rw [List.mem_reverse] at hc
    have : c ≠ '/' := fun h => hw (h ▸ hc)
    simpa using this

theorem rooted_Dir (t : List GoString) (ht : ∀ c ∈ t, PlainName c) (hne : t ≠ []) :
    cleanElems true (Dir ('/' :: joinSlash t)) = t.dropLast := by
  obtain ⟨init, last, rfl⟩ : ∃ init last, t = init ++ [last] :=
    ⟨t.dropLast, t.getLast hne, (List.dropLast_append_getLast hne).symm⟩
  have hlast : '/' ∉ last := (ht last (by simp)).2.1
  have hinit : ∀ c ∈ init, PlainName c := fun c hc => ht c (by simp [hc])
  rw [List.dropLast_concat]
  unfold Dir
  by_cases hi : init = []
  · subst hi
    have : dirPart ('/' :: joinSlash ([] ++ [last])) = ['/'] := by
      have := dirPart_append [] last hlast
      simpa [joinSlash] using this
    rw [this]
    decide
  · have hd : dirPart ('/' :: joinSlash (init ++ [last])) = '/' :: joinSlash init ++ ['/'] := by
      rw [joinSlash_append_singleton init last hi]
      have := dirPart_append ('/' :: joinSlash init) last hlast
      simpa using this
    rw [hd, rooted_Clean _ (by simp)]
    exact rooted_render_slash init hinit

/-! ### Relative paths -/

theorem CleanStack.elem {st : List GoString} (h : CleanStack st) :
    ∀ c ∈ st, PlainName c ∨ c = ['.', '.'] := by
  obtain ⟨names, dots, rfl, hn, hd⟩ := h
  intro c hc
  rcases List.mem_append.mp hc with hc | hc
  · exact Or.inl (hn c hc)
  · exact Or.inr (hd c hc)

theorem CleanStack.step {st : List GoString} (h : CleanStack st) (e : GoString)
    (he : '/' ∉ e) : CleanStack (cleanStep false st e) := by
  obtain ⟨names, dots, rfl, hn, hd⟩ := h
  unfold cleanStep
  by_cases h1 : e = [] ∨ e = ['.']
  · simp only [h1, if_true]
    exact ⟨names, dots, rfl, hn, hd⟩
  · simp only [h1, if_false]
    by_cases h2 : e = ['.', '.']
    · simp only [h2, if_true]
      cases names with
      | nil =>
        simp only [List.nil_append]
        cases dots with
        | nil => exact ⟨[], [['.', '.']], by simp, by simp, by simp⟩
        | cons d ds =>
          have hdd : d = ['.', '.'] := hd d (List.mem_cons_self _ _)
          simp only [hdd, if_true]
          refine ⟨[], ['.', '.'] :: ['.', '.'] :: ds, rfl, by simp, ?_⟩
          intro x hx
          rcases List.mem_cons.mp hx with rfl | hx
          · rfl
          · rcases List.mem_cons.mp hx with rfl | hx
            · rfl
            · exact hd x (List.mem_cons_of_mem _ hx)
      | cons n ns =>
        have hnn : n ≠ ['.', '.'] := (hn n (List.mem_cons_self _ _)).2.2.2
        simp only [List.cons_append, hnn, if_false]
        exact ⟨ns, dots, rfl, fun x hx => hn x (List.mem_cons_of_mem _ hx), hd⟩
    · simp only [h2, if_false]
      push_neg at h1
      refine ⟨e :: names, dots, rfl, ?_, hd⟩
      intro x hx
      rcases List.mem_cons.mp hx with rfl | hx
      · exact ⟨h1.1, he, h1.2, h2⟩
      · exact hn x hx

theorem CleanStack.fold {st : List GoString} (h : CleanStack st) (es : List GoString)
    (he : ∀ e ∈ es, '/' ∉ e) : CleanStack (es.foldl (cleanStep false) st) := by
  induction es generalizing st with
  | nil => exact h
  | cons a rest ih =>
    rw [List.foldl_cons]
    exact ih (h.step a (he a (List.mem_cons_self _ _)))
      (fun e hm => he e (List.mem_cons_of_mem _ hm))

theorem cleanElems_false_stack (s : GoString) : CleanStack (cleanElems false s).reverse := by
  unfold cleanElems
  rw [List.reverse_reverse]
  exact CleanStack.fold ⟨[], [], rfl, by simp, by simp⟩ _ (splitSlash_no_slash s)

theorem stepInto_plain (here : List GoString) (e : GoString) (h : PlainName e) :
    stepInto here e = e :: here := by
  obtain ⟨h1, -, h3, h4⟩ := h
  simp [stepInto, h1, h3, h4]

theorem foldl_stepInto_plain (es here : List GoString) (h : ∀ e ∈ es, PlainName e) :
    es.foldl stepInto here = es.reverse ++ here := by
  induction es generalizing here with
  | nil => rfl
  | cons a rest ih =>
    rw [List.foldl_cons, stepInto_plain here a (h a (List.mem_cons_self _ _)),
      ih _ (fun c hc => h c (List.mem_cons_of_mem _ hc))]
    simp

theorem stepInto_cleanStep {st : List GoString} (h : CleanStack st) (here : List GoString)
    (e : GoString) :
    (cleanStep false st e).reverse.foldl stepInto here
      = stepInto (st.reverse.foldl stepInto here) e := by
  by_cases h1 : e = [] ∨ e = ['.']
  · have hc : cleanStep false st e = st := by simp [cleanStep, h1]
    have hs : ∀ x, stepInto x e = x := by intro x; simp [stepInto, h1]
    rw [hc, hs]
  · by_cases h2 : e = ['.', '.']
    · subst h2
      cases st with
      | nil => simp [cleanStep]
      | cons top rest =>
        by_cases ht : top = ['.', '.']
        · have hc : cleanStep false (top :: rest) ['.', '.'] = ['.', '.'] :: top :: rest := by
            simp [cleanStep, ht]
          rw [hc, List.reverse_cons, List.foldl_append]
          rfl
        · have hc : cleanStep false (top :: rest) ['.', '.'] = rest := by
            simp [cleanStep, ht]
          have hp : PlainName top := by
            rcases h.elem top (List.mem_cons_self _ _) with hp | hp
            · exact hp
            · exact absurd hp ht
          rw [hc, List.reverse_cons, List.foldl_append]
          simp only [List.foldl_cons, List.foldl_nil]
          rw [stepInto_plain _ top hp]
          simp [stepInto]
    · have hc : cleanStep false st e = e :: st := by simp [cleanStep, h1, h2]
      rw [hc, List.reverse_cons, List.foldl_append]
      rfl

theorem foldl_stepInto_clean {st : List GoString} (h : CleanStack st) (here : List GoString)
    (es : List GoString) (he : ∀ e ∈ es, '/' ∉ e) :
    (es.foldl (cleanStep false) st).reverse.foldl stepInto here
      = es.foldl stepInto (st.reverse.foldl stepInto here) := by
  induction es generalizing st with
  | nil => rfl
  | cons a rest ih =>
    rw [List.foldl_cons, List.foldl_cons,
      ih (h.step a (he a (List.mem_cons_self _ _)))
        (fun e hm => he e (List.mem_cons_of_mem _ hm)),
      stepInto_cleanStep h]

theorem walk_cleanElems (here : List GoString) (s : GoString) :
    (cleanElems false s).foldl stepInto here = (splitSlash s).foldl stepInto here := by
  unfold cleanElems
  have := foldl_stepInto_clean ⟨[], [], rfl, by simp, by simp⟩ here (splitSlash s)
    (splitSlash_no_slash s)
  simpa using this

theorem cleanElems_false_elem (s : GoString) :
    ∀ c ∈ cleanElems false s, PlainName c ∨ c = ['.', '.'] := by
  intro c hc
  exact (cleanElems_false_stack s).elem c (List.mem_reverse.mpr hc)

theorem joinSlash_eq_nil (cs : List GoString) (h : ∀ c ∈ cs, c ≠ []) :
    joinSlash cs = [] ↔ cs = [] := by
  cases cs with
  | nil => simp [joinSlash]
  | cons a rest =>
    have ha := h a (List.mem_cons_self _ _)
    cases rest with
    | nil => simp [joinSlash, ha]
    | cons b rest2 => simp [joinSlash]

theorem joinSlash_head (cs : List GoString) (h : ∀ c ∈ cs, c ≠ [] ∧ '/' ∉ c) :
    (joinSlash cs).head? ≠ some '/' := by
  cases cs with
  | nil => simp [joinSlash]
  | cons a rest =>
    obtain ⟨ha, hs⟩ := h a (List.mem_cons_self _ _)
    cases a with
    | nil => exact absurd rfl ha
    | cons x xs =>
      have hx : x ≠ '/' := fun hx => hs (by simp [hx])
      cases rest with
      | nil => simpa [joinSlash] using hx
      | cons b rest2 => simpa [joinSlash] using hx

theorem plainOrDots_ne_nil {c : GoString} (h : PlainName c ∨ c = ['.', '.']) :
    c ≠ [] ∧ '/' ∉ c := by
  rcases h with h | h
  · exact ⟨h.1, h.2.1⟩
  · subst h; exact ⟨by simp, by decide⟩

theorem Clean_rel (s : GoString) (h : s.head? ≠ some '/') :
    Clean s = if cleanElems false s = [] then ['.'] else joinSlash (cleanElems false s) := by
  unfold Clean
  by_cases hs : s = []
  · subst hs
    simp [cleanElems, splitSlash, cleanStep]
  · simp only [hs, if_false, h, decide_False, Bool.false_eq_true, List.nil_append]
    have hnil := joinSlash_eq_nil (cleanElems false s)
      (fun c hc => (plainOrDots_ne_nil (cleanElems_false_elem s c hc)).1)
    by_cases hc : cleanElems false s = []
    · simp [hc, joinSlash]
    · have : joinSlash (cleanElems false s) ≠ [] := fun hj => hc (hnil.mp hj)
      simp [hc, this]

theorem resolve_rel (cwd : Path) (s : GoString) (h : s.head? ≠ some '/') :
    resolve cwd s = ((splitSlash s).foldl stepInto cwd.reverse).reverse := by
  unfold resolve
  rw [if_neg h]

theorem resolve_joinSlash_rel (cwd : Path) (cs : List GoString) (hne : cs ≠ [])
    (h : ∀ c ∈ cs, PlainName c ∨ c = ['.', '.']) :
    resolve cwd (joinSlash cs) = (cs.foldl stepInto cwd.reverse).reverse := by
  rw [resolve_rel cwd _ (joinSlash_head cs (fun c hc => plainOrDots_ne_nil (h c hc))),
    splitSlash_joinSlash cs hne (fun c hc => (plainOrDots_ne_nil (h c hc)).2)]

theorem resolve_Clean_rel (cwd : Path) (s : GoString) (h : s.head? ≠ some '/') :
    resolve cwd (Clean s) = resolve cwd s := by
  rw [Clean_rel s h, resolve_rel cwd s h, ← walk_cleanElems]
  by_cases hc : cleanElems false s = []
  · simp [hc, resolve, splitSlash, stepInto]
  · rw [if_neg hc, resolve_joinSlash_rel cwd _ hc (cleanElems_false_elem s)]

theorem resolve_Clean (cwd : Path) (s : GoString) : resolve cwd (Clean s) = resolve cwd s := by
  by_cases h : s.head? = some '/'
  · rw [resolve_abs cwd s h, resolve_abs cwd _ (Clean_head s h), rooted_Clean s h]
  · exact resolve_Clean_rel cwd s h

theorem not_dot_slash_word (e rest : GoString) (h : PlainName e ∨ e = ['.', '.']) :
    HasPrefix (e ++ rest) ['.', '/'] = false := by
  rcases h with h | h
  · obtain ⟨h1, h2, h3, -⟩ := h
    cases e with
    | nil => exact absurd rfl h1
    | cons x xs =>
      cases xs with
      | nil =>
        have hx : ¬ '.' = x := fun hx => h3 (by rw [hx])
        simp [HasPrefix, List.isPrefixOf, hx]
      | cons y ys =>
        have hy : ¬ '/' = y := fun hy => h2 (by rw [hy]; simp)
        simp [HasPrefix, List.isPrefixOf, hy]
  · subst h
    simp [HasPrefix, List.isPrefixOf]

theorem Clean_no_dot_slash (s : GoString) : HasPrefix (Clean s) ['.', '/'] = false := by
  by_cases h : s.head? = some '/'
  · rw [Clean_rooted s h]
    simp [HasPrefix, List.isPrefixOf]
  · rw [Clean_rel s h]
    cases hc : cleanElems false s with
    | nil => simp [HasPrefix, List.isPrefixOf]
    | cons a rest =>
      have ha := cleanElems_false_elem s a (by rw [hc]; exact List.mem_cons_self _ _)
      simp only [reduceCtorEq, if_false]
      cases rest with
      | nil =>
        have := not_dot_slash_word a [] ha
        simpa [joinSlash] using this
      | cons b rest2 =>
        have := not_dot_slash_word a ('/' :: joinSlash (b :: rest2)) ha
        simpa [joinSlash] using this

theorem Join_no_dot_slash (a b : GoString) : HasPrefix (Join a b) ['.', '/'] = false := by
  unfold Join
  split_ifs
  · simp [HasPrefix, List.isPrefixOf]
  · exact Clean_no_dot_slash b
  · exact Clean_no_dot_slash _

theorem splitSlash_Clean_rel (s : GoString) (h : s.head? ≠ some '/')
    (hc : cleanElems false s ≠ []) : splitSlash (Clean s) = cleanElems false s := by
  rw [Clean_rel s h, if_neg hc,
    splitSlash_joinSlash _ hc (fun c hm => (plainOrDots_ne_nil (cleanElems_false_elem s c hm)).2)]

theorem stack_above_name (s c1 : List GoString) (p : GoString) (hp : p ≠ ['.', '.'])
    (h : CleanStack (s.reverse ++ p :: c1)) : ∀ e ∈ s, PlainName e := by
  obtain ⟨names, dots, heq, hn, hd⟩ := h
  rcases List.append_eq_append_iff.mp heq with ⟨a1, h1, h2⟩ | ⟨b1, h1, h2⟩
  · intro e he
    cases a1 with
    | nil =>
      simp only [List.nil_append] at h2
      have : p ∈ dots := by rw [← h2]; exact List.mem_cons_self _ _
      exact absurd (hd p this) hp
    | cons x xs =>
      exact hn e (by rw [h1]; exact List.mem_append_left _ (List.mem_reverse.mpr he))
  · have : p ∈ dots := by rw [h2]; simp
    exact absurd (hd p this) hp

theorem stepInto_nil (here : List GoString) : stepInto here [] = here := by
  simp [stepInto]

theorem resolve_append_slash (cwd : Path) (a b : GoString) (ha : a ≠ []) :
    resolve cwd (a ++ '/' :: b)
      = ((splitSlash b).foldl stepInto (resolve cwd a).reverse).reverse := by
  have hh : (a ++ '/' :: b).head? = a.head? := by
    cases a with
    | nil => exact absurd rfl ha
    | cons x xs => rfl
  unfold resolve
  rw [hh, splitSlash_append_slash, List.foldl_append, List.reverse_reverse]

theorem guard_rel (cwd : Path) (dest name : GoString) (hrel : dest.head? ≠ some '/')
    (hdir : ¬ endsInDotDot dest)
    (hg : HasPrefix (Join dest name) (Clean dest ++ ['/']) = true) :
    ∃ s, s ≠ [] ∧ (∀ e ∈ s, PlainName e) ∧
      resolve cwd (Join dest name) = resolve cwd dest ++ s ∧
      resolve cwd (Dir (Join dest name)) = resolve cwd dest ++ s.dropLast := by
  have hc : cleanElems false dest ≠ [] := by
    intro hc
    have hcl : Clean dest = ['.'] := by rw [Clean_rel dest hrel, if_pos hc]
    rw [hcl] at hg
    have hno := Join_no_dot_slash dest name
    simp only [List.singleton_append] at hg
    rw [hno] at hg
    exact absurd hg (by simp)
  have hdne : dest ≠ [] := by
    rintro rfl
    exact hc (by simp [cleanElems, splitSlash, cleanStep])
  have hcelem := cleanElems_false_elem dest
  have hclean : Clean dest = joinSlash (cleanElems false dest) := by
    rw [Clean_rel dest hrel, if_neg hc]
  have hwalkc : resolve cwd dest = ((cleanElems false dest).foldl stepInto cwd.reverse).reverse := by
    rw [resolve_rel cwd dest hrel, walk_cleanElems]
  have hlast : ∀ c1 p, cleanElems false dest = c1 ++ [p] → p ≠ ['.', '.'] := by
    intro c1 p hcp hp
    apply hdir
    unfold endsInDotDot
    rw [splitSlash_Clean_rel dest hrel hc, hcp, hp]
    simp
  generalize cleanElems false dest = c at hc hcelem hclean hwalkc hlast
  have hxrel : (dest ++ '/' :: name).head? ≠ some '/' := by
    cases dest with
    | nil => exact absurd rfl hdne
    | cons x xs => simpa using hrel
  have hjoin : Join dest name = Clean (dest ++ '/' :: name) := by simp [Join, hdne]
  have htelem := cleanElems_false_elem (dest ++ '/' :: name)
  have htstack := cleanElems_false_stack (dest ++ '/' :: name)
  have hjne : joinSlash c ≠ [] := fun hj =>
    hc ((joinSlash_eq_nil c (fun x hx => (plainOrDots_ne_nil (hcelem x hx)).1)).mp hj)
  have ht : cleanElems false (dest ++ '/' :: name) ≠ [] := by
    intro ht0
    rw [hjoin, Clean_rel _ hxrel, if_pos ht0, hclean] at hg
    have hl := (List.isPrefixOf_iff_prefix.mp hg).length_le
    have hcl : 0 < (joinSlash c).length := List.length_pos.mpr hjne
    rw [List.length_append, List.length_singleton, List.length_singleton] at hl
    omega
  have hjt : Join dest name = joinSlash (cleanElems false (dest ++ '/' :: name)) := by
    rw [hjoin, Clean_rel _ hxrel, if_neg ht]
  generalize cleanElems false (dest ++ '/' :: name) = t at htelem htstack ht hjt
  rw [hjt, hclean] at hg
  obtain ⟨r, hr⟩ := List.isPrefixOf_iff_prefix.mp hg
  have hsplit : t = c ++ splitSlash r := by
    have h1 := splitSlash_joinSlash t ht (fun x hx => (plainOrDots_ne_nil (htelem x hx)).2)
    have h2 : joinSlash t = joinSlash c ++ '/' :: r := by rw [← hr]; simp
    rw [h2, splitSlash_append_slash,
      splitSlash_joinSlash c hc (fun x hx => (plainOrDots_ne_nil (hcelem x hx)).2)] at h1
    exact h1.symm
  obtain ⟨c1, p, hcp⟩ : ∃ c1 p, c = c1 ++ [p] :=
    ⟨c.dropLast, c.getLast hc, (List.dropLast_append_getLast hc).symm⟩
  have hp : p ≠ ['.', '.'] := hlast c1 p hcp
  have hs : ∀ e ∈ splitSlash r, PlainName e := by
    apply stack_above_name (splitSlash r) c1.reverse p hp
    rw [hsplit, hcp] at htstack
    simpa using htstack
  obtain ⟨s0, last, hs0⟩ : ∃ s0 last, splitSlash r = s0 ++ [last] :=
    ⟨(splitSlash r).dropLast, (splitSlash r).getLast (splitSlash_ne_nil r),
      (List.dropLast_append_getLast (splitSlash_ne_nil r)).symm⟩
  refine ⟨splitSlash r, splitSlash_ne_nil r, hs, ?_, ?_⟩
  · rw [hjt, resolve_joinSlash_rel cwd t ht htelem, hsplit, List.foldl_append,
      foldl_stepInto_plain _ _ hs, hwalkc]
    simp
  · have hinit : c ++ s0 ≠ [] := by simp [hc]
    have htinit : t = (c ++ s0) ++ [last] := by rw [hsplit, hs0, List.append_assoc]
    have hlastplain : PlainName last := hs last (by rw [hs0]; simp)
    have hs0plain : ∀ e ∈ s0, PlainName e := fun e he => hs e (by rw [hs0]; simp [he])
    have hinitelem : ∀ x ∈ c ++ s0, PlainName x ∨ x = ['.', '.'] := by
      intro x hx
      exact htelem x (by rw [htinit]; exact List.mem_append_left _ hx)
    have hjinit : joinSlash (c ++ s0) ≠ [] := fun hj =>
      hinit ((joinSlash_eq_nil _ (fun x hx => (plainOrDots_ne_nil (hinitelem x hx)).1)).mp hj)
    rw [hjt, htinit, joinSlash_append_singleton _ _ hinit]
    unfold Dir
    rw [dirPart_append _ _ hlastplain.2.1, resolve_Clean]
    have hy : joinSlash (c ++ s0) ++ ['/'] = joinSlash (c ++ s0) ++ '/' :: [] := rfl
    rw [hy, resolve_append_slash cwd _ [] hjinit, resolve_joinSlash_rel cwd _ hinit hinitelem]
    simp only [splitSlash, List.foldl_cons, List.foldl_nil, List.reverse_reverse, stepInto_nil]
    rw [List.foldl_append, foldl_stepInto_plain _ _ hs0plain, hwalkc, hs0]
    simp

theorem prefix_dropLast {α : Type} {c t : List α} (h : c <+: t) (hne : c ≠ t) :
    c <+: t.dropLast := by
  obtain ⟨r, rfl⟩ := h
  have hr : r ≠ [] := by
    rintro rfl
    simp at hne
  rw [List.dropLast_append_of_ne_nil _ hr]
  exact List.prefix_append _ _

theorem dropWhile_append_singleton {α : Type} (p : α → Bool) (l : List α) (a : α)
    (h : p a = false) : (l ++ [a]).dropWhile p = l.dropWhile p ++ [a] := by
  induction l with
  | nil => simp [List.dropWhile_cons, h]
  | cons x xs ih =>
    by_cases hx : p x = true
    · simp [List.dropWhile_cons, hx, ih]
    · simp [List.dropWhile_cons, hx]

theorem dirPart_head (y : GoString) (h : y.head? = some '/') : (dirPart y).head? = some '/' := by
  cases y with
  | nil => simp at h
  | cons x z =>
    have hx : x = '/' := by simpa using h
    subst hx
    unfold dirPart
    rw [List.reverse_cons, dropWhile_append_singleton _ _ _ (by simp)]
    simp

theorem guard_inside (cwd : Path) (dest name : GoString) (hdir : ¬ endsInDotDot dest)
    (hg : HasPrefix (Join dest name) (Clean dest ++ ['/']) = true) :
    strictlyInside (resolve cwd dest) (resolve cwd (Join dest name)) := by
  by_cases habs : dest.head? = some '/'
  · rw [resolve_abs cwd dest habs, resolve_abs cwd _ (Join_head dest name habs)]
    exact rooted_guard_inside dest name habs hg
  · obtain ⟨s, hs, -, h1, -⟩ := guard_rel cwd dest name habs hdir hg
    rw [h1]
    exact ⟨List.prefix_append _ _, fun h => hs (by simpa using h)⟩

theorem parent_inside (cwd : Path) (dest name : GoString) (hdir : ¬ endsInDotDot dest)
    (hg : HasPrefix (Join dest name) (Clean dest ++ ['/']) = true) :
    resolve cwd dest <+: resolve cwd (Dir (Join dest name)) := by
  by_cases habs : dest.head? = some '/'
  · have hin := rooted_guard_inside dest name habs hg
    rw [rooted_Join dest name habs] at hin
    have hdh : (Dir (Join dest name)).head? = some '/' :=
      Clean_head _ (dirPart_head _ (Join_head dest name habs))
    rw [resolve_abs cwd dest habs, resolve_abs cwd _ hdh, Join_rooted dest name habs]
    have hne : cleanElems true (dest ++ '/' :: name) ≠ [] := by
      intro h0
      rw [h0] at hin
      exact hin.2 (List.prefix_nil.mp hin.1)
    rw [rooted_Dir _ (rooted_plain _) hne]
    exact prefix_dropLast hin.1 hin.2
  · obtain ⟨s, -, -, -, h2⟩ := guard_rel cwd dest name habs hdir hg
    rw [h2]
    exact List.prefix_append _ _

theorem not_guard_of_outside (cwd : Path) (dest name : GoString) (hdir : ¬ endsInDotDot dest)
    (h : ¬ strictlyInside (resolve cwd dest) (resolve cwd (Join dest name))) :
    HasPrefix (Join dest name) (Clean dest ++ ['/']) = false := by
  cases hg : HasPrefix (Join dest name) (Clean dest ++ ['/'])
  · rfl
  · exact absurd (guard_inside cwd dest name hdir hg) h

/-! ### The file system -/

theorem FS.stat_put (fs : FS) (p q : Path) (n : FsNode) :
    (fs.put p n).stat q = if p = q then some n else fs.stat q := by
  simp [FS.put, FS.stat]

theorem FS.mkdir_stat (fs fs1 : FS) (p : Path) (mode : Nat) (h : fs.mkdir p mode = some fs1) :
    fs.stat p = none ∧ ∀ q, fs1.stat q = if p = q then some (.dir mode) else fs.stat q := by
  unfold FS.mkdir at h
  split_ifs at h with hc
  injection h with h
  subst h
  exact ⟨hc.2.2, fun q => FS.stat_put fs p q _⟩

theorem FS.mkdirAllRev_stat (fs : FS) (mode : Nat) (rp : List GoString) :
    ∀ fs1, fs.mkdirAllRev mode rp = some fs1 →
      ∀ q, fs1.stat q = fs.stat q ∨ (fs.stat q = none ∧ q <+: rp.reverse) := by
  induction rp with
  | nil =>
    intro fs1 h q
    unfold FS.mkdirAllRev at h
    split at h
    · injection h with h; subst h; exact Or.inl rfl
    · exact absurd h (by simp)
  | cons name parent ih =>
    intro fs1 h q
    unfold FS.mkdirAllRev at h
    split at h
    · injection h with h; subst h; exact Or.inl rfl
    · exact absurd h (by simp)
    · rename_i hnone
      cases hp : FS.mkdirAllRev fs mode parent with
      | none => rw [hp] at h; exact absurd h (by simp)
      | some fs0 =>
        rw [hp] at h
        simp only at h
        obtain ⟨hfree, hst⟩ := FS.mkdir_stat fs0 fs1 _ mode h
        rw [hst q]
        by_cases hq : (name :: parent).reverse = q
        · subst hq
          right
          exact ⟨hnone, List.prefix_refl _⟩
        · simp only [hq, if_false]
          rcases ih fs0 hp q with h1 | ⟨h1, h2⟩
          · exact Or.inl h1
          · right
            refine ⟨h1, h2.trans ?_⟩
            simp

theorem FS.mkdirAll_stat (fs fs1 : FS) (p : Path) (mode : Nat) (h : fs.mkdirAll p mode = some fs1) :
    ∀ q, fs1.stat q = fs.stat q ∨ (fs.stat q = none ∧ q <+: p) := by
  intro q
  have := FS.mkdirAllRev_stat fs mode p.reverse fs1 h q
  simpa using this

theorem FS.openFile_stat (fs fs1 : FS) (p : Path) (mode : Nat) (trunc : Bool)
    (h : fs.openFile p mode trunc = some fs1) :
    (∀ q, q ≠ p → fs1.stat q = fs.stat q) ∧ ∃ m c, fs1.stat p = some (.file m c) := by
  unfold FS.openFile at h
  split at h
  · exact absurd h (by simp)
  · rename_i m c hs
    split_ifs at h
    · injection h with h; subst h
      refine ⟨fun q hq => ?_, m, [], ?_⟩
      · rw [FS.stat_put]; simp [Ne.symm hq]
      · rw [FS.stat_put]; simp
    · injection h with h; subst h
      exact ⟨fun q _ => rfl, m, c, hs⟩
  · split_ifs at h
    injection h with h; subst h
    refine ⟨fun q hq => ?_, mode, [], ?_⟩
    · rw [FS.stat_put]; simp [Ne.symm hq]
    · rw [FS.stat_put]; simp

theorem FS.writeFromStart_stat (fs : FS) (p : Path) (data : GoString) :
    ∀ q, q ≠ p → (fs.writeFromStart p data).stat q = fs.stat q := by
  intro q hq
  unfold FS.writeFromStart
  split
  · rw [FS.stat_put]; simp [Ne.symm hq]
  · rfl

theorem DirsTo.dir_above {fs : FS} {c q : Path} (h : DirsTo fs c) (hq : q <+: c) :
    fs.isDir q = true := h q ((List.mem_inits _ _).mpr hq)

theorem FrameAt.frame_refl (c : Path) (fs : FS) : FrameAt c fs fs := fun _ _ => rfl

theorem FrameAt.frame_trans {c : Path} {fs fs1 fs2 : FS} (h1 : FrameAt c fs fs1)
    (h2 : FrameAt c fs1 fs2) : FrameAt c fs fs2 :=
  fun q hq => (h2 q hq).trans (h1 q hq)

theorem DirsTo.frame {c : Path} {fs fs1 : FS} (h : DirsTo fs c) (hf : FrameAt c fs fs1) :
    DirsTo fs1 c := by
  intro q hq
  rw [List.mem_inits] at hq
  have : ¬ strictlyInside c q := by
    rintro ⟨h1, h2⟩
    exact h2 (h1.eq_of_length_le hq.length_le)
  unfold FS.isDir
  rw [hf q this]
  exact h.dir_above hq

theorem prefix_of_both {α : Type} {q c t : List α} (hq : q <+: t) (hc : c <+: t) :
    q <+: c ∨ (c <+: q ∧ c ≠ q) := by
  rcases Nat.le_total q.length c.length with h | h
  · exact Or.inl (List.prefix_of_prefix_length_le hq hc h)
  · by_cases he : c = q
    · subst he; exact Or.inl (List.prefix_refl _)
    · exact Or.inr ⟨List.prefix_of_prefix_length_le hc hq h, he⟩

theorem FrameAt.frame_mkdirAll {c p : Path} {fs fs1 : FS} {mode : Nat} (hd : DirsTo fs c)
    (hp : c <+: p) (h : fs.mkdirAll p mode = some fs1) : FrameAt c fs fs1 := by
  intro q hq
  rcases FS.mkdirAll_stat fs fs1 p mode h q with h1 | ⟨h1, h2⟩
  · exact h1
  · rcases prefix_of_both h2 hp with h3 | h3
    · have := hd.dir_above h3
      unfold FS.isDir at this
      rw [h1] at this
      exact absurd this (by simp)
    · exact absurd h3 hq

theorem FrameAt.frame_openFile {c p : Path} {fs fs1 : FS} {mode : Nat} {trunc : Bool}
    (hp : strictlyInside c p) (h : fs.openFile p mode trunc = some fs1) : FrameAt c fs fs1 := by
  intro q hq
  exact (FS.openFile_stat fs fs1 p mode trunc h).1 q (fun he => hq (he ▸ hp))

theorem FrameAt.frame_writeFromStart {c p : Path} {fs : FS} {data : GoString}
    (hp : strictlyInside c p) : FrameAt c fs (fs.writeFromStart p data) := by
  intro q hq
  exact FS.writeFromStart_stat fs p data q (fun he => hq (he ▸ hp))

/-! ### The extraction loops -/

theorem osMkdirAll_frame {c : Path} (cwd : Path) (w : World) (path : GoString) (mode : Nat)
    (hd : DirsTo w.fs c) (hp : c <+: resolve cwd path) :
    FrameAt c w.fs (osMkdirAll cwd w path mode).2.fs := by
  unfold osMkdirAll
  cases h : w.fs.mkdirAll (resolve cwd path) mode with
  | none => exact FrameAt.frame_refl _ _
  | some fs1 => exact FrameAt.frame_mkdirAll hd hp h

theorem osOpenFile_frame {c : Path} (cwd : Path) (w : World) (path : GoString) (mode : Nat)
    (hp : strictlyInside c (resolve cwd path)) : FrameAt c w.fs (osOpenFile cwd w path mode).2.fs := by
  unfold osOpenFile
  cases h : w.fs.openFile (resolve cwd path) mode false with
  | none => exact FrameAt.frame_refl _ _
  | some fs1 => exact FrameAt.frame_openFile hp h

theorem osCreate_frame {c : Path} (cwd : Path) (w : World) (path : GoString)
    (hp : strictlyInside c (resolve cwd path)) : FrameAt c w.fs (osCreate cwd w path).2.fs := by
  unfold osCreate
  cases h : w.fs.openFile (resolve cwd path) 0o666 true with
  | none => exact FrameAt.frame_refl _ _
  | some fs1 => exact FrameAt.frame_openFile hp h

theorem ioCopy_frame {c : Path} (cwd : Path) (w : World) (path data : GoString)
    (hp : strictlyInside c (resolve cwd path)) : FrameAt c w.fs (ioCopy cwd w path data).fs :=
  FrameAt.frame_writeFromStart hp

theorem tarLoop_frame (cwd : Path) (destDir : GoString) (hwd : ¬ endsInDotDot destDir)
    (headerErr : Bool) (entries : List TarEntry) :
    ∀ w : World, DirsTo w.fs (resolve cwd destDir) →
      FrameAt (resolve cwd destDir) w.fs (tarLoop cwd destDir headerErr w entries).2.fs := by
  induction entries with
  | nil =>
    intro w _
    unfold tarLoop
    split_ifs <;> exact FrameAt.frame_refl _ _
  | cons e rest ih =>
    intro w hd
    unfold tarLoop
    simp only []
    by_cases hg : HasPrefix (Join destDir e.name) (Clean destDir ++ ['/']) = true
    · have hin := guard_inside cwd destDir e.name hwd hg
      simp only [hg, Bool.not_true, Bool.false_eq_true, if_false]
      by_cases hdir : e.typeflag = TypeDir
      · simp only [hdir, if_true]
        have hf := osMkdirAll_frame cwd w (Join destDir e.name) 0o755 hd hin.1
        rcases hres : osMkdirAll cwd w (Join destDir e.name) 0o755 with ⟨b, w1⟩
        rw [hres] at hf
        cases b
        · exact hf
        · dsimp only at hf ⊢
          exact hf.frame_trans (ih w1 (hd.frame hf))
      · simp only [hdir, if_false]
        by_cases hreg : e.typeflag = TypeReg
        · simp only [hreg, if_true]
          have hf := osMkdirAll_frame cwd w (Dir (Join destDir e.name)) 0o755 hd
            (parent_inside cwd destDir e.name hwd hg)
          rcases hres : osMkdirAll cwd w (Dir (Join destDir e.name)) 0o755 with ⟨b, w1⟩
          rw [hres] at hf
          cases b
          · exact hf
          · dsimp only at hf ⊢
            have hf2 := osOpenFile_frame cwd w1 (Join destDir e.name) e.mode hin
            rcases hres2 : osOpenFile cwd w1 (Join destDir e.name) e.mode with ⟨b2, w2⟩
            rw [hres2] at hf2
            cases b2
            · exact hf.frame_trans hf2
            · dsimp only at hf2 ⊢
              have hf3 := ioCopy_frame cwd w2 (Join destDir e.name) e.body hin
              have hall := (hf.frame_trans hf2).frame_trans hf3
              split_ifs
              · exact hall
              · exact hall.frame_trans (ih _ (hd.frame hall))
        · simp only [hreg, if_false]
          exact ih w hd
    · simp only [hg, Bool.not_false, if_true]
      exact FrameAt.frame_refl _ _

theorem zipLoop_frame (cwd : Path) (destDir : GoString) (hwd : ¬ endsInDotDot destDir)
    (files : List ZipEntry) :
    ∀ w : World, DirsTo w.fs (resolve cwd destDir) →
      FrameAt (resolve cwd destDir) w.fs (zipLoop cwd destDir w files).2.fs := by
  induction files with
  | nil =>
    intro w _
    unfold zipLoop
    exact FrameAt.frame_refl _ _
  | cons f rest ih =>
    intro w hd
    unfold zipLoop
    simp only []
    by_cases hg : HasPrefix (Join destDir f.name) (Clean destDir ++ ['/']) = true
    · have hin := guard_inside cwd destDir f.name hwd hg
      simp only [hg, Bool.not_true, Bool.false_eq_true, if_false]
      cases hdir : f.isDir
      · simp only [Bool.false_eq_true, if_false]
        have hf := osMkdirAll_frame cwd w (Dir (Join destDir f.name)) 0o755 hd
          (parent_inside cwd destDir f.name hwd hg)
        rcases hres : osMkdirAll cwd w (Dir (Join destDir f.name)) 0o755 with ⟨b, w1⟩
        rw [hres] at hf
        cases b
        · exact hf
        · dsimp only at hf ⊢
          have hf2 := osCreate_frame cwd w1 (Join destDir f.name) hin
          rcases hres2 : osCreate cwd w1 (Join destDir f.name) with ⟨b2, w2⟩
          rw [hres2] at hf2
          cases b2
          · exact hf.frame_trans hf2
          · dsimp only at hf2 ⊢
            split_ifs
            · exact hf.frame_trans hf2
            · exact (hf.frame_trans hf2).frame_trans (ioCopy_frame cwd w2 _ f.body hin)
            · have hall := (hf.frame_trans hf2).frame_trans (ioCopy_frame cwd w2 _ f.body hin)
              exact hall.frame_trans (ih _ (hd.frame hall))
      · simp only [if_true]
        have hf := osMkdirAll_frame cwd w (Join destDir f.name) 0o755 hd hin.1
        rcases hres : osMkdirAll cwd w (Join destDir f.name) 0o755 with ⟨b, w1⟩
        rw [hres] at hf
        cases b
        · exact hf
        · dsimp only at hf ⊢
          exact hf.frame_trans (ih w1 (hd.frame hf))
    · simp only [hg, Bool.not_false, if_true]
      exact FrameAt.frame_refl _ _

theorem tarLoop_append_bad (cwd : Path) (destDir : GoString) (headerErr : Bool) (e : TarEntry)
    (post : List TarEntry)
    (hbad : HasPrefix (Join destDir e.name) (Clean destDir ++ ['/']) = false)
    (pre : List TarEntry) :
    ∀ w : World, tarLoop cwd destDir headerErr w (pre ++ e :: post) =
      match tarLoop cwd destDir false w pre with
      | (none, w1) => (some (.invalidPath e.name), w1)
      | r => r := by
  induction pre with
  | nil =>
    intro w
    simp [tarLoop, hbad]
  | cons x rest ih =>
    intro w
    simp only [List.cons_append]
    unfold tarLoop
    simp only []
    split_ifs
    · rfl
    · rcases osMkdirAll cwd w (Join destDir x.name) 0o755 with ⟨b, w1⟩
      cases b
      · rfl
      · exact ih w1
    · rcases osMkdirAll cwd w (Dir (Join destDir x.name)) 0o755 with ⟨b, w1⟩
      cases b
      · rfl
      · dsimp only
        rcases osOpenFile cwd w1 (Join destDir x.name) x.mode with ⟨b2, w2⟩
        cases b2 <;> rfl
    · rcases osMkdirAll cwd w (Dir (Join destDir x.name)) 0o755 with ⟨b, w1⟩
      cases b
      · rfl
      · dsimp only
        rcases osOpenFile cwd w1 (Join destDir x.name) x.mode with ⟨b2, w2⟩
        cases b2
        · rfl
        · exact ih _
    · exact ih w

theorem zipLoop_append_bad (cwd : Path) (destDir : GoString) (f : ZipEntry) (post : List ZipEntry)
    (hbad : HasPrefix (Join destDir f.name) (Clean destDir ++ ['/']) = false)
    (pre : List ZipEntry) :
    ∀ w : World, zipLoop cwd destDir w (pre ++ f :: post) =
      match zipLoop cwd destDir w pre with
      | (none, w1) => (some (.invalidPath f.name), w1)
      | r => r := by
  induction pre with
  | nil =>
    intro w
    simp [zipLoop, hbad]
  | cons x rest ih =>
    intro w
    simp only [List.cons_append]
    unfold zipLoop
    simp only []
    split_ifs
    · rfl
    · rcases osMkdirAll cwd w (Join destDir x.name) 0o755 with ⟨b, w1⟩
      cases b
      · rfl
      · exact ih w1
    · rcases osMkdirAll cwd w (Dir (Join destDir x.name)) 0o755 with ⟨b, w1⟩
      cases b
      · rfl
      · dsimp only
        rcases osCreate cwd w1 (Join destDir x.name) with ⟨b2, w2⟩
        cases b2 <;> rfl
    · rcases osMkdirAll cwd w (Dir (Join destDir x.name)) 0o755 with ⟨b, w1⟩
      cases b
      · rfl
      · dsimp only
        rcases osCreate cwd w1 (Join destDir x.name) with ⟨b2, w2⟩
        cases b2 <;> rfl
    · rcases osMkdirAll cwd w (Dir (Join destDir x.name)) 0o755 with ⟨b, w1⟩
      cases b
      · rfl
      · dsimp only
        rcases osCreate cwd w1 (Join destDir x.name) with ⟨b2, w2⟩
        cases b2
        · rfl
        · exact ih _

theorem tarLoop_ok_guard (cwd : Path) (destDir : GoString) (headerErr : Bool) (pre : List TarEntry) :
    ∀ w w1 : World, tarLoop cwd destDir headerErr w pre = (none, w1) →
      ∀ x ∈ pre, HasPrefix (Join destDir x.name) (Clean destDir ++ ['/']) = true := by
  induction pre with
  | nil => intro _ _ _ x hx; exact absurd hx (List.not_mem_nil _)
  | cons y rest ih =>
    intro w w1 h x hx
    unfold tarLoop at h
    simp only [] at h
    by_cases hg : HasPrefix (Join destDir y.name) (Clean destDir ++ ['/']) = true
    · rcases List.mem_cons.mp hx with rfl | hx
      · exact hg
      · simp only [hg, Bool.not_true, Bool.false_eq_true, if_false] at h
        split_ifs at h
        · rcases hres : osMkdirAll cwd w (Join destDir y.name) 0o755 with ⟨b, w2⟩
          rw [hres] at h
          cases b
          · simp at h
          · exact ih w2 w1 h x hx
        · rcases hres : osMkdirAll cwd w (Dir (Join destDir y.name)) 0o755 with ⟨b, w2⟩
          rw [hres] at h
          cases b
          · simp at h
          · dsimp only at h
            rcases hres2 : osOpenFile cwd w2 (Join destDir y.name) y.mode with ⟨b2, w3⟩
            rw [hres2] at h
            cases b2 <;> simp at h
        · rcases hres : osMkdirAll cwd w (Dir (Join destDir y.name)) 0o755 with ⟨b, w2⟩
          rw [hres] at h
          cases b
          · simp at h
          · dsimp only at h
            rcases hres2 : osOpenFile cwd w2 (Join destDir y.name) y.mode with ⟨b2, w3⟩
            rw [hres2] at h
            cases b2
            · simp at h
            · exact ih _ w1 h x hx
        · exact ih w w1 h x hx
    · simp [hg] at h

theorem zipLoop_ok_guard (cwd : Path) (destDir : GoString) (pre : List ZipEntry) :
    ∀ w w1 : World, zipLoop cwd destDir w pre = (none, w1) →
      ∀ x ∈ pre, HasPrefix (Join destDir x.name) (Clean destDir ++ ['/']) = true := by
  induction pre with
  | nil => intro _ _ _ x hx; exact absurd hx (List.not_mem_nil _)
  | cons y rest ih =>
    intro w w1 h x hx
    unfold zipLoop at h
    simp only [] at h
    by_cases hg : HasPrefix (Join destDir y.name) (Clean destDir ++ ['/']) = true
    · rcases List.mem_cons.mp hx with rfl | hx
      · exact hg
      · simp only [hg, Bool.not_true, Bool.false_eq_true, if_false] at h
        split_ifs at h
        · rcases hres : osMkdirAll cwd w (Join destDir y.name) 0o755 with ⟨b, w2⟩
          rw [hres] at h
          cases b
          · simp at h
          · exact ih w2 w1 h x hx
        · rcases hres : osMkdirAll cwd w (Dir (Join destDir y.name)) 0o755 with ⟨b, w2⟩
          rw [hres] at h
          cases b
          · simp at h
          · dsimp only at h
            rcases hres2 : osCreate cwd w2 (Join destDir y.name) with ⟨b2, w3⟩
            rw [hres2] at h
            cases b2 <;> simp at h
        · rcases hres : osMkdirAll cwd w (Dir (Join destDir y.name)) 0o755 with ⟨b, w2⟩
          rw [hres] at h
          cases b
          · simp at h
          · dsimp only at h
            rcases hres2 : osCreate cwd w2 (Join destDir y.name) with ⟨b2, w3⟩
            rw [hres2] at h
            cases b2 <;> simp at h
        · rcases hres : osMkdirAll cwd w (Dir (Join destDir y.name)) 0o755 with ⟨b, w2⟩
          rw [hres] at h
          cases b
          · simp at h
          · dsimp only at h
            rcases hres2 : osCreate cwd w2 (Join destDir y.name) with ⟨b2, w3⟩
            rw [hres2] at h
            cases b2
            · simp at h
            · exact ih _ w1 h x hx
    · simp [hg] at h

/-- Claim C1, as the code has it. Path-traversal guard of `extractTarGz` and `extractZip`,
for a working directory given by an absolute or a relative path whose cleaned form does not
end in `..`, and a process with any current directory.  When a member's stored path, joined
to the working directory and cleaned, is not strictly below the working directory, the
extraction ends at that member, whatever follows it in the archive: its outcome is the
outcome of the members before it, with the invalid-path error for this member in place of
success.  So the extraction fails; and when the members before it were extracted without
error (each of them then lies strictly below the working directory, so that this member is
the first that does not), the error is the invalid-path error for this member and the file
system is the one those earlier members left.  Whatever the archive and the outcome, every
location the extraction creates or changes lies strictly below the working directory. -/
theorem extract_path_guard (env : Env) (w : World) (destDir : GoString)
    (hwd : ¬ endsInDotDot destDir) :
    (∀ (archivePath : GoString) (m : Nat) (bytes : GoString) (pre : List TarEntry)
        (e : TarEntry) (post : List TarEntry) (headerErr : Bool),
        w.fs.stat (resolve env.cwd archivePath) = some (.file m bytes) →
        env.gunzipTar bytes = some ⟨pre ++ e :: post, headerErr⟩ →
        ¬ strictlyInside (resolve env.cwd destDir) (resolve env.cwd (Join destDir e.name)) →
        (extractTarGz env w archivePath destDir =
          match tarLoop env.cwd destDir false
            ⟨w.fs, w.calls ++ [.openArchive archivePath]⟩ pre with
          | (none, w1) => (some (.invalidPath e.name), w1)
          | r => r) ∧
        (extractTarGz env w archivePath destDir).1 ≠ none ∧
        ∀ w1, tarLoop env.cwd destDir false ⟨w.fs, w.calls ++ [.openArchive archivePath]⟩ pre
            = (none, w1) →
          extractTarGz env w archivePath destDir = (some (.invalidPath e.name), w1) ∧
          ∀ x ∈ pre,
            strictlyInside (resolve env.cwd destDir) (resolve env.cwd (Join destDir x.name))) ∧
    (∀ (archivePath : GoString) (m : Nat) (bytes : GoString) (pre : List ZipEntry)
        (f : ZipEntry) (post : List ZipEntry),
        w.fs.stat (resolve env.cwd archivePath) = some (.file m bytes) →
        env.unzip bytes = some (pre ++ f :: post) →
        ¬ strictlyInside (resolve env.cwd destDir) (resolve env.cwd (Join destDir f.name)) →
        (extractZip env w archivePath destDir =
          match zipLoop env.cwd destDir ⟨w.fs, w.calls ++ [.openArchive archivePath]⟩ pre with
          | (none, w1) => (some (.invalidPath f.name), w1)
          | r => r) ∧
        (extractZip env w archivePath destDir).1 ≠ none ∧
        ∀ w1, zipLoop env.cwd destDir ⟨w.fs, w.calls ++ [.openArchive archivePath]⟩ pre
            = (none, w1) →
          extractZip env w archivePath destDir = (some (.invalidPath f.name), w1) ∧
          ∀ x ∈ pre,
            strictlyInside (resolve env.cwd destDir) (resolve env.cwd (Join destDir x.name))) ∧
    (DirsTo w.fs (resolve env.cwd destDir) →
      ∀ (archivePath : GoString) (q : Path),
        ((extractTarGz env w archivePath destDir).2.fs.stat q ≠ w.fs.stat q ∨
          (extractZip env w archivePath destDir).2.fs.stat q ≠ w.fs.stat q) →
        strictlyInside (resolve env.cwd destDir) q) := by
  refine ⟨?_, ?_, ?_⟩
  · intro archivePath m bytes pre e post headerErr hstat hgz hout
    have hbad := not_guard_of_outside env.cwd destDir e.name hwd hout
    have hrun : extractTarGz env w archivePath destDir =
        match tarLoop env.cwd destDir false
          ⟨w.fs, w.calls ++ [.openArchive archivePath]⟩ pre with
        | (none, w1) => (some (.invalidPath e.name), w1)
        | r => r := by
      unfold extractTarGz
      simp only [hstat, hgz]
      exact tarLoop_append_bad env.cwd destDir headerErr e post hbad pre _
    refine ⟨hrun, ?_, ?_⟩
    · rw [hrun]
      rcases hres : tarLoop env.cwd destDir false
        ⟨w.fs, w.calls ++ [.openArchive archivePath]⟩ pre with ⟨r, w1⟩
      cases r <;> simp [hres]
    · intro w1 hpre
      refine ⟨?_, ?_⟩
      · rw [hrun, hpre]
      · intro x hx
        exact guard_inside env.cwd destDir x.name hwd
          (tarLoop_ok_guard env.cwd destDir false pre _ w1 hpre x hx)
  · intro archivePath m bytes pre f post hstat hz hout
    have hbad := not_guard_of_outside env.cwd destDir f.name hwd hout
    have hrun : extractZip env w archivePath destDir =
        match zipLoop env.cwd destDir ⟨w.fs, w.calls ++ [.openArchive archivePath]⟩ pre with
        | (none, w1) => (some (.invalidPath f.name), w1)
        | r => r := by
      unfold extractZip
      simp only [hstat, hz]
      exact zipLoop_append_bad env.cwd destDir f post hbad pre _
    refine ⟨hrun, ?_, ?_⟩
    · rw [hrun]
      rcases hres : zipLoop env.cwd destDir ⟨w.fs, w.calls ++ [.openArchive archivePath]⟩ pre
        with ⟨r, w1⟩
      cases r <;> simp [hres]
    · intro w1 hpre
      refine ⟨?_, ?_⟩
      · rw [hrun, hpre]
      · intro x hx
        exact guard_inside env.cwd destDir x.name hwd
          (zipLoop_ok_guard env.cwd destDir pre _ w1 hpre x hx)
  · intro hd archivePath q hq
    by_contra hin
    rcases hq with hq | hq
    · apply hq
      have hf : FrameAt (resolve env.cwd destDir) w.fs
          (extractTarGz env w archivePath destDir).2.fs := by
        unfold extractTarGz
        simp only []
        split
        · exact FrameAt.frame_refl _ _
        · exact FrameAt.frame_refl _ _
        · split
          · exact FrameAt.frame_refl _ _
          · exact tarLoop_frame env.cwd destDir hwd _ _ ⟨w.fs, _⟩ hd
      exact hf q hin
    · apply hq
      have hf : FrameAt (resolve env.cwd destDir) w.fs
          (extractZip env w archivePath destDir).2.fs := by
        unfold extractZip
        simp only []
        split
        · split
          · exact FrameAt.frame_refl _ _
          · exact zipLoop_frame env.cwd destDir hwd _ ⟨w.fs, _⟩ hd
        · exact FrameAt.frame_refl _ _
      exact hf q hin

theorem extract_path_guard_witness :
    (extractTarGz demoEnv demoWorld "/a".toList "/tmp/x".toList
        = (some (.invalidPath "../evil".toList), demoAfterTar) ∧
      extractZip demoEnv demoWorld "/a".toList "/tmp/x".toList
        = (some (.invalidPath ".".toList), demoAfterZip) ∧
      demoAfterTar.fs.stat ["tmp".toList, "x".toList, "proj".toList, "a.txt".toList]
        = some (.file 0o644 "hi".toList) ∧
      demoAfterTar.fs.stat ["tmp".toList, "x".toList, "proj".toList, "b.txt".toList] = none ∧
      demoAfterTar.fs.stat ["tmp".toList, "evil".toList] = none ∧
      strictlyInside ["tmp".toList, "x".toList]
        ["tmp".toList, "x".toList, "proj".toList, "a.txt".toList]) ∧
    (extractTarGz relEnv relWorld "a".toList "work/x".toList
        = (some (.invalidPath "../evil".toList), relAfterTar) ∧
      relAfterTar.fs.stat
          ["home".toList, "u".toList, "work".toList, "x".toList, "proj".toList, "a.txt".toList]
        = some (.file 0o644 "hi".toList) ∧
      relAfterTar.fs.stat ["home".toList, "u".toList, "work".toList, "evil".toList] = none ∧
      strictlyInside ["home".toList, "u".toList, "work".toList, "x".toList]
        ["home".toList, "u".toList, "work".toList, "x".toList, "proj".toList,
          "a.txt".toList]) := by
  have T := extract_path_guard demoEnv demoWorld "/tmp/x".toList (by decide)
  obtain ⟨ht, hz, hf⟩ := T
  have h1 := (ht "/a".toList 0o644 [] (demoTar.entries.take 1)
    ⟨"../evil".toList, '0', 0o644, "x".toList, false⟩ (demoTar.entries.drop 2) false
    (by decide) (by rfl) (by decide)).2.2 demoAfterTar (by decide)
  have h2 := (hz "/a".toList 0o644 [] (demoZip.take 1)
    ⟨".".toList, true, false, [], false⟩ (demoZip.drop 2)
    (by decide) (by rfl) (by decide)).2.2 demoAfterZip (by decide)
  have R := extract_path_guard relEnv relWorld "work/x".toList (by decide)
  obtain ⟨rt, -, rf⟩ := R
  have h3 := (rt "a".toList 0o644 [] (demoTar.entries.take 1)
    ⟨"../evil".toList, '0', 0o644, "x".toList, false⟩ (demoTar.entries.drop 2) false
    (by decide) (by rfl) (by decide)).2.2 relAfterTar (by decide)
  refine ⟨⟨h1.1, h2.1, by decide, by decide, by decide, ?_⟩, h3.1, by decide, by decide, ?_⟩
  · exact hf (by decide) "/a".toList _ (Or.inl (by rw [h1.1]; decide))
  · exact rf (by decide) "a".toList _ (Or.inl (by rw [h3.1]; decide))

/-- Claim C1 as stated fails, in two ways. In the archive `a`, `a/b`, `../evil` the third
member lies outside the working directory `/tmp/x`, yet neither format ends with the
invalid-path error: the second member cannot be created below the file `a`, and the
extraction stops there with the error of creating the parent directory.  And with the
working directory `..` (for a process that runs in `/tmp/x/y`, the directory `/tmp/x`) the
member `../evil` passes the guard, since `../../evil` begins with `../`: both formats return
without error and have created `/tmp/evil`, outside the working directory. -/
theorem extract_earlier_error_first :
    (¬ strictlyInside (resolve [] "/tmp/x".toList)
        (resolve [] (Join "/tmp/x".toList "../evil".toList)) ∧
      shadowEnv.gunzipTar [] = some shadowTar ∧
      shadowEnv.unzip [] = some shadowZip ∧
      (extractTarGz shadowEnv demoWorld "/a".toList "/tmp/x".toList).1 = some .createParent ∧
      (extractZip shadowEnv demoWorld "/a".toList "/tmp/x".toList).1 = some .createParent ∧
      (extractTarGz shadowEnv demoWorld "/a".toList "/tmp/x".toList).1
        ≠ some (.invalidPath "../evil".toList)) ∧
    (endsInDotDot "..".toList ∧
      resolve escapeEnv.cwd "..".toList = ["tmp".toList, "x".toList] ∧
      resolve escapeEnv.cwd (Join "..".toList "../evil".toList) = ["tmp".toList, "evil".toList] ∧
      ¬ strictlyInside (resolve escapeEnv.cwd "..".toList)
        (resolve escapeEnv.cwd (Join "..".toList "../evil".toList)) ∧
      (extractTarGz escapeEnv escapeWorld "/a".toList "..".toList).1 = none ∧
      (extractTarGz escapeEnv escapeWorld "/a".toList "..".toList).2.fs.hasKind
        ["tmp".toList, "evil".toList] false ∧
      (extractZip escapeEnv escapeWorld "/a".toList "..".toList).1 = none ∧
      (extractZip escapeEnv escapeWorld "/a".toList "..".toList).2.fs.hasKind
        ["tmp".toList, "evil".toList] false ∧
      escapeWorld.fs.stat ["tmp".toList, "evil".toList] = none) := by
  refine ⟨⟨by decide, rfl, rfl, by decide, by decide, by decide⟩,
    by decide, by decide, by decide, by decide, by decide, by decide, by decide, by decide,
    by decide⟩

/-- Claim C2. `processFile` on the text `module {{MODULE}} pkg` with the token `{{MODULE}}`:
the replacement `example.com/app` is written as it stands, but in the replacement
`example.com/$app` the part `$app` is read as a reference to a capture group and is dropped:
the file written is `module example.com/ pkg`. -/
theorem processFile_dollar_template :
    (processFile demoModFS ["s".toList, "go.mod".toList] ["d".toList, "go.mod".toList]
        ⟨"{{MODULE}}".toList⟩ "example.com/app".toList).2.stat ["d".toList, "go.mod".toList]
      = some (.file 0o644 "module example.com/app pkg".toList) ∧
    (processFile demoModFS ["s".toList, "go.mod".toList] ["d".toList, "go.mod".toList]
        ⟨"{{MODULE}}".toList⟩ "example.com/$app".toList).2.stat ["d".toList, "go.mod".toList]
      = some (.file 0o644 "module example.com/ pkg".toList) := by
  decide

theorem rooted_append_plain (dir name : GoString) (h : PlainName name) :
    cleanElems true (dir ++ '/' :: name) = cleanElems true dir ++ [name] := by
  unfold cleanElems
  rw [splitSlash_append_slash, splitSlash_word name h.2.1, List.foldl_append]
  simp [cleanStep_plain _ _ _ h]

theorem Join_ne_self (dir name : GoString) (habs : dir.head? = some '/') (h : PlainName name) :
    Join dir name ≠ dir := by
  intro heq
  have h1 := rooted_Join dir name habs
  rw [heq, rooted_append_plain dir name h] at h1
  have := congrArg List.length h1
  simp at this

/-- Claim C3. `stripRootDirectory` on a directory that can be listed: when the listing is
exactly one entry and that entry is a directory, the result is the path of that entry below
the directory; in every other case (no entry, one entry that is a file, two entries or more)
the result is the directory itself.  For a directory given by an absolute path the two
results differ, so the child's path is returned if and only if the listing is one
directory. -/
theorem stripRootDirectory_spec (cwd : Path) (w : World) (dir : GoString) (entries : List DirEntry)
    (hread : w.fs.readDir (resolve cwd dir) = some entries) :
    (∀ e, entries = [e] → e.isDir = true →
      (stripRootDirectory cwd w dir).1 = .ok (Join dir e.name)) ∧
    (¬ (∃ e, entries = [e] ∧ e.isDir = true) → (stripRootDirectory cwd w dir).1 = .ok dir) ∧
    (entries = [] → (stripRootDirectory cwd w dir).1 = .ok dir) ∧
    (∀ e, entries = [e] → e.isDir = false → (stripRootDirectory cwd w dir).1 = .ok dir) ∧
    (2 ≤ entries.length → (stripRootDirectory cwd w dir).1 = .ok dir) ∧
    (dir.head? = some '/' → (∀ e ∈ entries, PlainName e.name) →
      ((∃ e, entries = [e] ∧ (stripRootDirectory cwd w dir).1 = .ok (Join dir e.name)) ↔
        ∃ e, entries = [e] ∧ e.isDir = true)) := by
  have hyes : ∀ e, entries = [e] → e.isDir = true →
      (stripRootDirectory cwd w dir).1 = .ok (Join dir e.name) := by
    intro e he hd
    subst he
    simp [stripRootDirectory, hread, hd]
  have hno : ¬ (∃ e, entries = [e] ∧ e.isDir = true) →
      (stripRootDirectory cwd w dir).1 = .ok dir := by
    intro hn
    unfold stripRootDirectory
    simp only [hread]
    cases entries with
    | nil => rfl
    | cons first rest =>
      simp only []
      split_ifs with hc
      · exfalso
        apply hn
        refine ⟨first, ?_, hc.2⟩
        have : rest = [] := by
          have := hc.1
          simp at this
          exact this
        rw [this]
      · rfl
  refine ⟨hyes, hno, ?_, ?_, ?_, ?_⟩
  · intro he
    exact hno (by rintro ⟨e, h1, -⟩; rw [he] at h1; exact absurd h1 (by simp))
  · intro e he hd
    apply hno
    rintro ⟨e2, h1, h2⟩
    rw [he] at h1
    injection h1 with h1 _
    rw [← h1, hd] at h2
    exact absurd h2 (by simp)
  · intro hlen
    apply hno
    rintro ⟨e, h1, -⟩
    rw [h1] at hlen
    simp at hlen
  · intro habs hplain
    constructor
    · rintro ⟨e, he, hres⟩
      refine ⟨e, he, ?_⟩
      by_contra hd
      have hfile : e.isDir = false := by simpa using hd
      have hdir := hno (by
        rintro ⟨e2, h1, h2⟩
        rw [he] at h1
        injection h1 with h1 _
        rw [← h1, hfile] at h2
        exact absurd h2 (by simp))
      rw [hdir] at hres
      injection hres with hres
      exact Join_ne_self dir e.name habs (hplain e (by rw [he]; simp)) hres.symm
    · rintro ⟨e, he, hd⟩
      exact ⟨e, he, hyes e he hd⟩

theorem stripRootDirectory_spec_witness :
    (stripRootDirectory [] demoStripWorld "/tmp/x".toList).1 = .ok "/tmp/x/proj-v1".toList ∧
    (stripRootDirectory [] demoStripWorld "/tmp/x/proj-v1".toList).1
      = .ok "/tmp/x/proj-v1".toList ∧
    (stripRootDirectory [] demoStripWorld "/tmp".toList).1 = .ok "/tmp".toList := by
  refine ⟨?_, ?_, ?_⟩
  · exact (stripRootDirectory_spec [] demoStripWorld "/tmp/x".toList [⟨"proj-v1".toList, true⟩]
      (by decide)).1 ⟨"proj-v1".toList, true⟩ rfl rfl
  · exact (stripRootDirectory_spec [] demoStripWorld "/tmp/x/proj-v1".toList
      [⟨"file.txt".toList, false⟩] (by decide)).2.2.2.1 ⟨"file.txt".toList, false⟩ rfl rfl
  · exact (stripRootDirectory_spec [] demoStripWorld "/tmp".toList
      [⟨"x".toList, true⟩, ⟨"y".toList, false⟩] (by decide)).2.2.2.2.1 (by decide)

/-! ### `processFile` -/

theorem indexOf_isSome_iff (lit s : GoString) : (indexOf lit s).isSome = true ↔ lit <:+: s := by
  induction s with
  | nil =>
    unfold indexOf
    by_cases h : lit = []
    · simp [h]
    · simp [h]
  | cons c cs ih =>
    unfold indexOf
    rw [List.infix_cons_iff]
    by_cases hp : lit.isPrefixOf (c :: cs) = true
    · simp only [hp, if_true, Option.isSome_some, true_iff]
      exact Or.inl (List.isPrefixOf_iff_prefix.mp hp)
    · simp only [hp, Bool.false_eq_true, if_false, Option.isSome_map']
      have hnp : ¬ lit <+: c :: cs := fun h => hp (List.isPrefixOf_iff_prefix.mpr h)
      rw [ih]
      simp [hnp]

theorem indexOf_some (lit : GoString) :
    ∀ (s : GoString) (i : Nat), indexOf lit s = some i → lit <+: s.drop i := by
  intro s
  induction s with
  | nil =>
    intro i h
    unfold indexOf at h
    split_ifs at h with hl
    subst hl
    simp
  | cons c cs ih =>
    intro i h
    unfold indexOf at h
    split_ifs at h with hp
    · injection h with h
      subst h
      exact List.isPrefixOf_iff_prefix.mp hp
    · cases hj : indexOf lit cs with
      | none => rw [hj] at h; simp at h
      | some j =>
        rw [hj] at h
        simp only [Option.map_some', Option.some.injEq] at h
        subst h
        exact ih j hj

theorem indexOf_nil (s : GoString) : indexOf [] s = some 0 := by
  cases s <;> simp [indexOf]

theorem DecodeRune_cases (s : GoString) :
    (DecodeRune s).1 = RuneError ∨
    ((DecodeRune s).1 = s.take (DecodeRune s).2 ∧ 0 < (DecodeRune s).2 ∧
      (DecodeRune s).2 ≤ s.length ∧
      ∀ u, DecodeRune (s.take (DecodeRune s).2 ++ u) = DecodeRune s) := by
  cases s with
  | nil => exact Or.inl rfl
  | cons b0 rest =>
    by_cases h1 : b0.toNat < 0x80
    · have hd : ∀ r, DecodeRune (b0 :: r) = ([b0], 1) := by
        intro r; simp [DecodeRune, h1]
      right
      rw [hd]
      exact ⟨by simp, by simp, by simp, fun u => by simpa using hd u⟩
    by_cases h2 : b0.toNat < 0xC2
    · left; simp [DecodeRune, h1, h2]
    by_cases h3 : b0.toNat < 0xE0
    · cases rest with
      | nil => left; simp [DecodeRune, h1, h2, h3]
      | cons b1 r1 =>
        by_cases hc : inRange 0x80 0xBF b1 = true
        · have hd : ∀ r, DecodeRune (b0 :: b1 :: r) = ([b0, b1], 2) := by
            intro r; simp [DecodeRune, h1, h2, h3, hc]
          right
          rw [hd]
          exact ⟨by simp, by simp, by simp, fun u => by simpa using hd u⟩
        · left; simp [DecodeRune, h1, h2, h3, hc]
    by_cases h4 : b0.toNat < 0xF0
    · cases rest with
      | nil => left; simp [DecodeRune, h1, h2, h3, h4]
      | cons b1 r1 =>
        cases r1 with
        | nil => left; simp [DecodeRune, h1, h2, h3, h4]
        | cons b2 r2 =>
          by_cases hc : (inRange (if b0.toNat = 0xE0 then 0xA0 else 0x80)
              (if b0.toNat = 0xED then 0x9F else 0xBF) b1 && inRange 0x80 0xBF b2) = true
          · have hd : ∀ r, DecodeRune (b0 :: b1 :: b2 :: r) = ([b0, b1, b2], 3) := by
              intro r
              unfold DecodeRune
              simp only [h1, h2, h3, h4, if_false, if_true, hc]
            right
            rw [hd]
            exact ⟨by simp, by simp, by simp, fun u => by simpa using hd u⟩
          · left
            unfold DecodeRune
            simp only [h1, h2, h3, h4, if_false, if_true, hc]
            simp
    by_cases h5 : b0.toNat < 0xF5
    · cases rest with
      | nil => left; simp [DecodeRune, h1, h2, h3, h4, h5]
      | cons b1 r1 =>
        cases r1 with
        | nil => left; simp [DecodeRune, h1, h2, h3, h4, h5]
        | cons b2 r2 =>
          cases r2 with
          | nil => left; simp [DecodeRune, h1, h2, h3, h4, h5]
          | cons b3 r3 =>
            by_cases hc : (inRange (if b0.toNat = 0xF0 then 0x90 else 0x80)
                (if b0.toNat = 0xF4 then 0x8F else 0xBF) b1 && inRange 0x80 0xBF b2
                && inRange 0x80 0xBF b3) = true
            · have hd : ∀ r, DecodeRune (b0 :: b1 :: b2 :: b3 :: r) = ([b0, b1, b2, b3], 4) := by
                intro r
                unfold DecodeRune
                simp only [h1, h2, h3, h4, h5, if_false, if_true, hc]
              right
              rw [hd]
              exact ⟨by simp, by simp, by simp, fun u => by simpa using hd u⟩
            · left
              unfold DecodeRune
              simp only [h1, h2, h3, h4, h5, if_false, if_true, hc]
              simp
    · left; simp [DecodeRune, h1, h2, h3, h4, h5]

theorem DecodeRune_append (t u : GoString) (h : (DecodeRune t).1 ≠ RuneError) :
    DecodeRune (t ++ u) = DecodeRune t := by
  rcases DecodeRune_cases t with h0 | ⟨-, -, hle, hall⟩
  · exact absurd h0 h
  · have := hall (t.drop (DecodeRune t).2 ++ u)
    rwa [← List.append_assoc, List.take_append_drop] at this

theorem runesOf_good (n : Nat) :
    ∀ t : GoString, t.length ≤ n → (∀ r ∈ runesOf n t, r ≠ RuneError) →
      (runesOf n t).flatten = t ∧ ∀ u, matchRunes (runesOf n t) (t ++ u) = some t.length := by
  induction n with
  | zero =>
    intro t hn _
    have ht : t = [] := List.length_eq_zero.mp (Nat.le_zero.mp hn)
    subst ht
    exact ⟨rfl, fun u => rfl⟩
  | succ n ih =>
    intro t hn h
    by_cases ht : t = []
    · subst ht
      exact ⟨by simp [runesOf], fun u => by simp [runesOf, matchRunes]⟩
    · have hr : runesOf (n + 1) t
          = (DecodeRune t).1 :: runesOf n (t.drop (DecodeRune t).2) := by
        simp [runesOf, ht]
      rw [hr] at h ⊢
      have hne : (DecodeRune t).1 ≠ RuneError := h _ (List.mem_cons_self _ _)
      rcases DecodeRune_cases t with h0 | ⟨htake, hpos, hle, -⟩
      · exact absurd h0 hne
      · have hlen : (t.drop (DecodeRune t).2).length ≤ n := by
          rw [List.length_drop]; omega
        obtain ⟨ih1, ih2⟩ := ih (t.drop (DecodeRune t).2) hlen
          (fun r hr => h r (List.mem_cons_of_mem _ hr))
        refine ⟨?_, ?_⟩
        · rw [List.flatten_cons, ih1]
          conv_lhs => rw [htake]
          exact List.take_append_drop _ _
        · intro u
          unfold matchRunes
          rw [DecodeRune_append t u hne]
          have hw : ¬ (DecodeRune t).2 = 0 := by omega
          simp only [hw, if_false, if_true]
          rw [List.drop_append_of_le_length hle, ih2 u, List.length_drop]
          simp only [Option.map_some', Option.some.injEq]
          omega

theorem Regexp.prefixBytes_good (re : Regexp) (hgood : ∀ r ∈ re.runes, r ≠ RuneError) :
    re.prefixBytes = re.literal := by
  unfold Regexp.prefixBytes
  have : re.runes.takeWhile (fun r => decide (r ≠ RuneError)) = re.runes := by
    rw [List.takeWhile_eq_self_iff]
    intro r hr
    simpa using hgood r hr
  rw [this]
  exact (runesOf_good _ re.literal (le_refl _) hgood).1

theorem Regexp.find_literal (re : Regexp) (hgood : ∀ r ∈ re.runes, r ≠ RuneError)
    (src : GoString) (pos : Nat) (hpos : pos ≤ src.length) :
    re.find src pos
      = (indexOf re.literal (src.drop pos)).map
          (fun i => (pos + i, pos + i + re.literal.length)) := by
  have hm := (runesOf_good _ re.literal (le_refl _) hgood).2
  unfold Regexp.find Regexp.findLoop
  rw [Regexp.prefixBytes_good re hgood]
  have hlt : ¬ src.length < pos := by omega
  simp only [hlt, if_false]
  by_cases hl : re.literal = []
  · have hr : re.runes = [] := by
      unfold Regexp.runes
      rw [hl]
      rfl
    simp [hl, hr, matchRunes, indexOf_nil]
  · simp only [hl, if_false]
    cases hi : indexOf re.literal (src.drop pos) with
    | none => rfl
    | some i =>
      obtain ⟨u, hu⟩ := indexOf_some re.literal _ i hi
      rw [List.drop_drop] at hu
      simp only [Option.map_some']
      have hrun : matchRunes re.runes (src.drop (pos + i)) = some re.literal.length := by
        rw [← hu]
        exact hm u
      rw [hrun]

theorem Regexp.Match_iff (re : Regexp) (hgood : ∀ r ∈ re.runes, r ≠ RuneError)
    (b : GoString) : re.Match b = true ↔ re.literal <:+: b := by
  unfold Regexp.Match
  rw [Regexp.find_literal re hgood b 0 (Nat.zero_le _), Option.isSome_map']
  simpa using indexOf_isSome_iff re.literal b

theorem Regexp.ReplaceAll_no_match (re : Regexp) (hgood : ∀ r ∈ re.runes, r ≠ RuneError)
    (src repl : GoString) (h : ¬ re.literal <:+: src) : re.ReplaceAll src repl = src := by
  have hm : re.find src 0 = none := by
    have := (Regexp.Match_iff re hgood src).not.mpr h
    unfold Regexp.Match at this
    simpa using this
  unfold Regexp.ReplaceAll
  simp [replaceAllLoop, hm]

theorem MustCompileQuoteMeta_literal (token : GoString) (pattern : Regexp)
    (h : MustCompileQuoteMeta token = some pattern) : pattern = ⟨token⟩ := by
  unfold MustCompileQuoteMeta at h
  split_ifs at h
  injection h with h
  exact h.symm

theorem FS.openFile_ok (fs : FS) (p : Path) (mode : Nat) (trunc : Bool) (hp : p ≠ [])
    (hparent : fs.isDir p.dropLast = true) (hnodir : fs.isDir p = false) :
    ∃ fs1, fs.openFile p mode trunc = some fs1 := by
  unfold FS.openFile
  unfold FS.isDir at hnodir
  cases hs : fs.stat p with
  | none =>
    refine ⟨fs.put p (.file mode []), ?_⟩
    simp [hp, hparent]
  | some n =>
    cases n with
    | dir m => rw [hs] at hnodir; simp at hnodir
    | file m c => cases trunc <;> exact ⟨_, rfl⟩

theorem FS.openFile_trunc_stat (fs fs1 : FS) (p : Path) (mode : Nat)
    (h : fs.openFile p mode true = some fs1) :
    ∃ m, fs1.stat p = some (.file m []) := by
  unfold FS.openFile at h
  split at h
  · exact absurd h (by simp)
  · rename_i m c hs
    simp only [if_true] at h
    injection h with h; subst h
    exact ⟨m, by rw [FS.stat_put]; simp⟩
  · split_ifs at h
    injection h with h; subst h
    exact ⟨mode, by rw [FS.stat_put]; simp⟩

theorem FS.writeFromStart_empty (fs : FS) (p : Path) (m : Nat) (data : GoString)
    (h : fs.stat p = some (.file m [])) :
    (fs.writeFromStart p data).stat p = some (.file m data) := by
  unfold FS.writeFromStart
  rw [h]
  simp [FS.stat_put]

theorem null_byte_isBinary (c : GoString) (h : ∃ b ∈ c.take 512, b.toNat = 0) :
    isBinary c = true := by
  rw [← isBinary_take, isBinary_eq_sample]
  left
  obtain ⟨b, hb, h0⟩ := h
  refine ⟨b, ?_, h0⟩
  rw [sample_take]
  have : c.take (min c.length 512) = c.take 512 := by
    rcases Nat.le_total c.length 512 with hl | hl
    · rw [Nat.min_eq_left hl, List.take_of_length_le hl, List.take_of_length_le (le_refl _)]
    · rw [Nat.min_eq_right hl]
  rw [this]
  exact hb

/-- Claim C6. A file whose content `isBinary` classifies as binary (as it does every content
with a null byte among its first 512 bytes) is copied by `processFile` as it is: with a
destination that can be written and is not the source itself, `processFile` returns no error
and reports no replacement, the destination holds the bytes of the source, and the source is
unchanged, whatever the pattern and the replacement. -/
theorem processFile_binary (fs : FS) (srcPath destPath : Path) (pattern : Regexp)
    (replacement : GoString) (m : Nat) (content : GoString)
    (hsrc : fs.stat srcPath = some (.file m content))
    (hbin : isBinary content = true)
    (hne : srcPath ≠ destPath)
    (hdest : destPath ≠ [])
    (hparent : fs.isDir destPath.dropLast = true)
    (hnodir : fs.isDir destPath = false) :
    (processFile fs srcPath destPath pattern replacement).1 = (false, none) ∧
    (∃ m1, (processFile fs srcPath destPath pattern replacement).2.stat destPath
      = some (.file m1 content)) ∧
    (processFile fs srcPath destPath pattern replacement).2.stat srcPath
      = some (.file m content) ∧
    (∀ c : GoString, (∃ b ∈ c.take 512, b.toNat = 0) → isBinary c = true) := by
  obtain ⟨fs1, hopen⟩ := FS.openFile_ok fs destPath m true hdest hparent hnodir
  obtain ⟨m1, hm1⟩ := FS.openFile_trunc_stat fs fs1 destPath m hopen
  have hsrc1 : fs1.stat srcPath = some (.file m content) := by
    rw [(FS.openFile_stat fs fs1 destPath m true hopen).1 srcPath hne, hsrc]
  have hrun : processFile fs srcPath destPath pattern replacement
      = ((false, none), fs1.writeFromStart destPath content) := by
    simp [processFile, hsrc, hbin, copyFile, FsNode.mode, hopen, hsrc1]
  rw [hrun]
  refine ⟨rfl, ⟨m1, FS.writeFromStart_empty fs1 destPath m1 content hm1⟩, ?_, null_byte_isBinary⟩
  rw [FS.writeFromStart_stat fs1 destPath content srcPath hne, hsrc1]

theorem processFile_binary_witness :
    (processFile demoCopyFS ["s".toList, "logo.png".toList] ["d".toList, "logo.png".toList]
        ⟨"{{MODULE}}".toList⟩ "example.com/app".toList).1 = (false, none) ∧
    (processFile demoCopyFS ["s".toList, "logo.png".toList] ["d".toList, "logo.png".toList]
        ⟨"{{MODULE}}".toList⟩ "example.com/app".toList).2.stat ["d".toList, "logo.png".toList]
      = some (.file 0o644 ("PNG".toList ++ [Char.ofNat 0] ++ "{{MODULE}}".toList)) ∧
    "{{MODULE}}".toList <:+: "PNG".toList ++ [Char.ofNat 0] ++ "{{MODULE}}".toList := by
  have h := processFile_binary demoCopyFS ["s".toList, "logo.png".toList]
    ["d".toList, "logo.png".toList] ⟨"{{MODULE}}".toList⟩ "example.com/app".toList 0o644
    ("PNG".toList ++ [Char.ofNat 0] ++ "{{MODULE}}".toList)
    (by decide) (by decide) (by decide) (by decide) (by decide) (by decide)
  exact ⟨h.1, by decide, by decide⟩

/-- Claim C7. A text file in the walk of `ProcessAndCopy`, with a destination that can be
written.  For a token that is valid UTF-8 and holds no U+FFFD, `processFile` returns no error
and reports a replacement exactly when the token occurs in the content; the walk function
counts the file as processed, counts it as modified exactly when the token occurs, and, when
the token does not occur, leaves the counter of modified files alone and writes the content
of the source to the destination.  A token that holds U+FFFD, though, is also matched by any
byte that starts no well-formed encoding: with the token U+FFFD, the text file of the bytes
`a`, `0xFF`, `b`, in which the token does not occur, is reported and counted as modified, and
`aXb` is written for the replacement `X`.  And with a token that is not valid UTF-8
`ProcessAndCopy` panics before it visits a file, whether or not the token occurs in one. -/
theorem processFile_text_counts :
    (∀ (srcDir destDir relPath : Path) (name : GoString) (mode : Nat) (st : CopyState)
        (token moduleName : GoString) (pattern : Regexp) (m : Nat) (content : GoString),
      MustCompileQuoteMeta token = some pattern →
      (∀ r ∈ pattern.runes, r ≠ RuneError) →
      relPath ≠ [] →
      st.fs.stat (srcDir ++ relPath) = some (.file m content) →
      isBinary content = false →
      st.fs.isDir (destDir ++ relPath).dropLast = true →
      st.fs.isDir (destDir ++ relPath) = false →
      (processFile st.fs (srcDir ++ relPath) (destDir ++ relPath) pattern moduleName).1.2
        = none ∧
      ((processFile st.fs (srcDir ++ relPath) (destDir ++ relPath) pattern moduleName).1.1
        = true ↔ token <:+: content) ∧
      (walkFn srcDir destDir pattern moduleName relPath false name mode st).1 = none ∧
      (walkFn srcDir destDir pattern moduleName relPath false name mode st).2.fileCount
        = st.fileCount + 1 ∧
      ((walkFn srcDir destDir pattern moduleName relPath false name mode st).2.replacementCount
        = st.replacementCount + 1 ↔ token <:+: content) ∧
      (¬ token <:+: content →
        (walkFn srcDir destDir pattern moduleName relPath false name mode st).2.replacementCount
          = st.replacementCount ∧
        ∃ m1, (walkFn srcDir destDir pattern moduleName relPath false name mode st).2.fs.stat
          (destDir ++ relPath) = some (.file m1 content))) ∧
    (MustCompileQuoteMeta RuneError = some ⟨RuneError⟩ ∧
      isBinary ['a', Char.ofNat 0xFF, 'b'] = false ∧
      ¬ RuneError <:+: ['a', Char.ofNat 0xFF, 'b'] ∧
      (processFile demoRuneFS ["s".toList, "f".toList] ["d".toList, "f".toList] ⟨RuneError⟩
        "X".toList).1 = (true, none) ∧
      (processFile demoRuneFS ["s".toList, "f".toList] ["d".toList, "f".toList] ⟨RuneError⟩
        "X".toList).2.stat ["d".toList, "f".toList] = some (.file 0o644 "aXb".toList) ∧
      (walkFn ["s".toList] ["d".toList] ⟨RuneError⟩ "X".toList ["f".toList] false "f".toList
        0o644 ⟨demoRuneFS, 0, 0⟩).2.replacementCount = 1 ∧
      (ProcessAndCopy demoRuneFS (.dir "s".toList 0o755 [.file "f".toList 0o644]) ["s".toList]
        ["d".toList] RuneError "X".toList).map (fun r => (r.1, r.2.fileCount,
          r.2.replacementCount)) = some (none, 1, 1)) ∧
    (MustCompileQuoteMeta [Char.ofNat 0xFF] = none ∧
      [Char.ofNat 0xFF] <:+: ['a', Char.ofNat 0xFF, 'b'] ∧
      ProcessAndCopy demoRuneFS (.dir "s".toList 0o755 [.file "f".toList 0o644]) ["s".toList]
        ["d".toList] [Char.ofNat 0xFF] "X".toList = none) := by
  refine ⟨?_, by decide, by decide⟩
  intro srcDir destDir relPath name mode st token moduleName pattern m content hcomp hgood hrel
    hsrc htext hparent hnodir
  have hpat := MustCompileQuoteMeta_literal token pattern hcomp
  subst hpat
  have hdne : destDir ++ relPath ≠ [] := by simp [hrel]
  obtain ⟨fs1, hopen⟩ := FS.openFile_ok st.fs (destDir ++ relPath) m true hdne hparent hnodir
  obtain ⟨m1, hm1⟩ := FS.openFile_trunc_stat st.fs fs1 _ m hopen
  have hrun : processFile st.fs (srcDir ++ relPath) (destDir ++ relPath) ⟨token⟩ moduleName
      = (((⟨token⟩ : Regexp).Match content, none),
          fs1.writeFromStart (destDir ++ relPath)
            ((⟨token⟩ : Regexp).ReplaceAll content moduleName)) := by
    simp [processFile, hsrc, htext, FsNode.mode, hopen]
  have hmatch := Regexp.Match_iff ⟨token⟩ hgood content
  simp only [] at hmatch
  have hwalk : walkFn srcDir destDir ⟨token⟩ moduleName relPath false name mode st
      = (none, ⟨fs1.writeFromStart (destDir ++ relPath)
            ((⟨token⟩ : Regexp).ReplaceAll content moduleName), st.fileCount + 1,
          if (⟨token⟩ : Regexp).Match content then st.replacementCount + 1
          else st.replacementCount⟩) := by
    simp [walkFn, hrel, hrun]
  rw [hrun, hwalk]
  refine ⟨rfl, hmatch, rfl, rfl, ?_, ?_⟩
  · by_cases hin : token <:+: content
    · simp [hmatch.mpr hin, hin]
    · have : (⟨token⟩ : Regexp).Match content = false := by
        simpa using hmatch.not.mpr hin
      simp [this, hin]
  · intro hin
    have hm : (⟨token⟩ : Regexp).Match content = false := by
      simpa using hmatch.not.mpr hin
    refine ⟨by simp [hm], m1, ?_⟩
    simp only []
    rw [Regexp.ReplaceAll_no_match ⟨token⟩ hgood content moduleName hin]
    exact FS.writeFromStart_empty fs1 _ m1 content hm1

theorem processFile_text_counts_witness :
    (walkFn ["s".toList] ["d".toList] ⟨"{{MODULE}}".toList⟩ "example.com/app".toList
        ["LICENSE".toList] false "LICENSE".toList 0o644 ⟨demoCopyFS, 0, 0⟩).2.fileCount = 1 ∧
    (walkFn ["s".toList] ["d".toList] ⟨"{{MODULE}}".toList⟩ "example.com/app".toList
        ["LICENSE".toList] false "LICENSE".toList 0o644 ⟨demoCopyFS, 0, 0⟩).2.replacementCount
      = 0 ∧
    (walkFn ["s".toList] ["d".toList] ⟨"{{MODULE}}".toList⟩ "example.com/app".toList
        ["README.md".toList] false "README.md".toList 0o644
        ⟨demoCopyFS, 0, 0⟩).2.replacementCount = 1 ∧
    (ProcessAndCopy demoCopyFS demoCopyTree ["s".toList] ["d".toList] "{{MODULE}}".toList
        "example.com/app".toList).map (fun r => (r.1, r.2.fileCount, r.2.replacementCount))
      = some (none, 3, 1) := by
  have h1 := processFile_text_counts.1 ["s".toList] ["d".toList] ["LICENSE".toList]
    "LICENSE".toList 0o644 ⟨demoCopyFS, 0, 0⟩ "{{MODULE}}".toList "example.com/app".toList
    ⟨"{{MODULE}}".toList⟩ 0o644 "MIT".toList (by decide) (by decide) (by decide) (by decide)
    (by decide) (by decide) (by decide)
  have h2 := processFile_text_counts.1 ["s".toList] ["d".toList] ["README.md".toList]
    "README.md".toList 0o644 ⟨demoCopyFS, 0, 0⟩ "{{MODULE}}".toList "example.com/app".toList
    ⟨"{{MODULE}}".toList⟩ 0o644 "# {{MODULE}}".toList (by decide) (by decide) (by decide)
    (by decide) (by decide) (by decide) (by decide)
  refine ⟨h1.2.2.2.1, (h1.2.2.2.2.2 (by decide)).1, h2.2.2.2.2.1.mpr (by decide), ?_⟩
  decide

/-! ### `DetectArchiveFormat` and `Extract` -/

theorem extScan_eq_cons (r acc : GoString) (c : Char) (x : GoString)
    (h : extScan r acc = c :: x) :
    ∃ r1 r2, r = r1 ++ '.' :: r2 ∧ c :: x = '.' :: (r1.reverse ++ acc) := by
  induction r generalizing acc with
  | nil => simp [extScan] at h
  | cons a rest ih =>
    unfold extScan at h
    split_ifs at h with h1 h2
    · subst h2
      exact ⟨[], rest, rfl, by simpa using h.symm⟩
    · obtain ⟨r1, r2, hr, hx⟩ := ih (a :: acc) h
      exact ⟨a :: r1, r2, by simp [hr], by simpa using hx⟩

theorem extScan_append (r1 r2 acc : GoString) (h : ∀ c ∈ r1, c ≠ '/' ∧ c ≠ '.') :
    extScan (r1 ++ '.' :: r2) acc = '.' :: (r1.reverse ++ acc) := by
  induction r1 generalizing acc with
  | nil => simp [extScan]
  | cons a rest ih =>
    have ha := h a (List.mem_cons_self _ _)
    show extScan (a :: (rest ++ '.' :: r2)) acc = _
    unfold extScan
    simp only [ha.1, ha.2, if_false]
    rw [ih _ (fun c hc => h c (List.mem_cons_of_mem _ hc))]
    simp

theorem Ext_eq_zip_iff (url : GoString) : Ext url = ".zip".toList ↔ ".zip".toList <:+ url := by
  unfold Ext
  constructor
  · intro h
    obtain ⟨r1, r2, hr, hx⟩ := extScan_eq_cons url.reverse [] '.' "zip".toList h
    have h1 : r1.reverse = "zip".toList := by simpa using hx.symm
    refine ⟨r2.reverse, ?_⟩
    have := congrArg List.reverse hr
    rw [List.reverse_reverse] at this
    rw [this]
    simp only [List.reverse_append, List.reverse_cons, h1]
    simp
  · rintro ⟨pre, rfl⟩
    have : (pre ++ ".zip".toList).reverse = "piz".toList ++ '.' :: pre.reverse := by
      simp
    rw [this, extScan_append _ _ _ (by decide)]
    rfl

theorem DetectArchiveFormat_cases (url : GoString) :
    DetectArchiveFormat url = "tar.gz".toList ∨ DetectArchiveFormat url = "zip".toList := by
  unfold DetectArchiveFormat
  simp only []
  split_ifs
  · exact Or.inl rfl
  · exact Or.inr rfl
  · exact Or.inl rfl

theorem tarLoop_supported (cwd : Path) (destDir : GoString) (headerErr : Bool) (format : GoString)
    (entries : List TarEntry) :
    ∀ w : World, (tarLoop cwd destDir headerErr w entries).1 ≠ some (.unsupportedFormat format) := by
  induction entries with
  | nil =>
    intro w
    unfold tarLoop
    split_ifs <;> simp
  | cons x rest ih =>
    intro w
    unfold tarLoop
    simp only []
    split_ifs
    · simp
    · rcases osMkdirAll cwd w (Join destDir x.name) 0o755 with ⟨b, w1⟩
      cases b
      · simp
      · exact ih w1
    · rcases osMkdirAll cwd w (Dir (Join destDir x.name)) 0o755 with ⟨b, w1⟩
      cases b
      · simp
      · dsimp only
        rcases osOpenFile cwd w1 (Join destDir x.name) x.mode with ⟨b2, w2⟩
        cases b2 <;> simp
    · rcases osMkdirAll cwd w (Dir (Join destDir x.name)) 0o755 with ⟨b, w1⟩
      cases b
      · simp
      · dsimp only
        rcases osOpenFile cwd w1 (Join destDir x.name) x.mode with ⟨b2, w2⟩
        cases b2
        · simp
        · exact ih _
    · exact ih w

theorem zipLoop_supported (cwd : Path) (destDir : GoString) (format : GoString) (files : List ZipEntry) :
    ∀ w : World, (zipLoop cwd destDir w files).1 ≠ some (.unsupportedFormat format) := by
  induction files with
  | nil =>
    intro w
    simp [zipLoop]
  | cons x rest ih =>
    intro w
    unfold zipLoop
    simp only []
    split_ifs
    · simp
    · rcases osMkdirAll cwd w (Join destDir x.name) 0o755 with ⟨b, w1⟩
      cases b
      · simp
      · exact ih w1
    · rcases osMkdirAll cwd w (Dir (Join destDir x.name)) 0o755 with ⟨b, w1⟩
      cases b
      · simp
      · dsimp only
        rcases osCreate cwd w1 (Join destDir x.name) with ⟨b2, w2⟩
        cases b2 <;> simp
    · rcases osMkdirAll cwd w (Dir (Join destDir x.name)) 0o755 with ⟨b, w1⟩
      cases b
      · simp
      · dsimp only
        rcases osCreate cwd w1 (Join destDir x.name) with ⟨b2, w2⟩
        cases b2 <;> simp
    · rcases osMkdirAll cwd w (Dir (Join destDir x.name)) 0o755 with ⟨b, w1⟩
      cases b
      · simp
      · dsimp only
        rcases osCreate cwd w1 (Join destDir x.name) with ⟨b2, w2⟩
        cases b2
        · simp
        · exact ih _

theorem extractTarGz_supported (env : Env) (w : World) (archivePath destDir format : GoString) :
    (extractTarGz env w archivePath destDir).1 ≠ some (.unsupportedFormat format) := by
  unfold extractTarGz
  simp only []
  split
  · simp
  · simp
  · split
    · simp
    · exact tarLoop_supported _ _ _ _ _ _

theorem extractZip_supported (env : Env) (w : World) (archivePath destDir format : GoString) :
    (extractZip env w archivePath destDir).1 ≠ some (.unsupportedFormat format) := by
  unfold extractZip
  simp only []
  split
  · split
    · simp
    · exact zipLoop_supported _ _ _ _ _
  · simp

theorem stripRootDirectory_supported (cwd : Path) (w : World) (dir format : GoString) :
    (stripRootDirectory cwd w dir).1 ≠ .error (.unsupportedFormat format) := by
  unfold stripRootDirectory
  simp only []
  split
  · simp
  · split
    · split_ifs <;> simp
    · simp

theorem Extract_supported (env : Env) (w : World) (archivePath format f : GoString)
    (h : format = "tar.gz".toList ∨ format = "zip".toList) :
    (Extract env w archivePath format).1 ≠ .error (.unsupportedFormat f) := by
  unfold Extract
  rcases osMkdirTemp env w with ⟨t, w1⟩
  cases t with
  | none => simp
  | some tmpDir =>
    dsimp only
    rcases h with h | h
    · simp only [h, if_true]
      have h1 := extractTarGz_supported env w1 archivePath tmpDir f
      rcases hres : extractTarGz env w1 archivePath tmpDir with ⟨r, w2⟩
      rw [hres] at h1
      cases r with
      | some err =>
        dsimp only at h1 ⊢
        intro hc
        injection hc with hc
        exact h1 (by rw [hc])
      | none =>
        dsimp only
        have h2 := stripRootDirectory_supported env.cwd w2 tmpDir f
        rcases hres2 : stripRootDirectory env.cwd w2 tmpDir with ⟨r2, w3⟩
        rw [hres2] at h2
        cases r2 with
        | error err => dsimp only at h2 ⊢; exact h2
        | ok d => simp
    · have hne : ¬ "zip".toList = "tar.gz".toList := by decide
      simp only [h, hne, if_true, if_false]
      have h1 := extractZip_supported env w1 archivePath tmpDir f
      rcases hres : extractZip env w1 archivePath tmpDir with ⟨r, w2⟩
      rw [hres] at h1
      cases r with
      | some err =>
        dsimp only at h1 ⊢
        intro hc
        injection hc with hc
        exact h1 (by rw [hc])
      | none =>
        dsimp only
        have h2 := stripRootDirectory_supported env.cwd w2 tmpDir f
        rcases hres2 : stripRootDirectory env.cwd w2 tmpDir with ⟨r2, w3⟩
        rw [hres2] at h2
        cases r2 with
        | error err => dsimp only at h2 ⊢; exact h2
        | ok d => simp

/-- Claim C9. `DetectArchiveFormat` answers `zip` for a URL that ends in `.zip` and `tar.gz`
for every other URL, the URL `.tar.gz` included; so `Extract`, called with its answer, never
reports an unsupported format. -/
theorem DetectArchiveFormat_spec (url : GoString) :
    DetectArchiveFormat url
      = (if ".zip".toList <:+ url then "zip".toList else "tar.gz".toList) ∧
    DetectArchiveFormat ".tar.gz".toList = "tar.gz".toList ∧
    DetectArchiveFormat "https://host/v1.tar.gz".toList = "tar.gz".toList ∧
    (DetectArchiveFormat url = "tar.gz".toList ∨ DetectArchiveFormat url = "zip".toList) ∧
    ∀ (env : Env) (w : World) (archivePath f : GoString),
      (Extract env w archivePath (DetectArchiveFormat url)).1 ≠ .error (.unsupportedFormat f) := by
  refine ⟨?_, by decide, by decide, DetectArchiveFormat_cases url, fun env w a f =>
    Extract_supported env w a _ f (DetectArchiveFormat_cases url)⟩
  by_cases hz : ".zip".toList <:+ url
  · have hext := (Ext_eq_zip_iff url).mpr hz
    have hne : ¬ ".zip".toList = ".gz".toList := by decide
    rw [if_pos hz]
    unfold DetectArchiveFormat
    simp only [hext]
    rfl
  · have hext := (Ext_eq_zip_iff url).not.mpr hz
    rw [if_neg hz]
    unfold DetectArchiveFormat
    simp only [hext, if_false]
    split_ifs <;> rfl

theorem FS.removeAll_stat (fs : FS) (p q : Path) :
    (fs.removeAll p).stat q = if p <+: q then none else fs.stat q := by
  induction fs with
  | nil => simp [FS.removeAll, FS.stat]
  | cons e rest ih =>
    obtain ⟨k, n⟩ := e
    unfold FS.removeAll at ih ⊢
    rw [List.filter_cons]
    by_cases hk : p <+: k
    · have hb : p.isPrefixOf k = true := List.isPrefixOf_iff_prefix.mpr hk
      simp only [hb, Bool.not_true, Bool.false_eq_true, if_false]
      rw [ih]
      by_cases hq : p <+: q
      · simp [hq]
      · have hkq : k ≠ q := fun h => hq (h ▸ hk)
        simp [hq, FS.stat, hkq]
    · have hb : p.isPrefixOf k = false := by
        cases hc : p.isPrefixOf k
        · rfl
        · exact absurd (List.isPrefixOf_iff_prefix.mp hc) hk
      simp only [hb, Bool.not_false, if_true]
      by_cases hkq : k = q
      · subst hkq
        simp [FS.stat, hk]
      · simp only [FS.stat, hkq, if_false]
        exact ih

theorem mkdirTempLoop_stat (cwd : Path) (fs : FS) (dir : GoString) (rs : List GoString) (name : GoString)
    (fs1 : FS) (h : mkdirTempLoop cwd fs dir rs = some (name, fs1)) :
    ∀ q, ¬ resolve cwd name <+: q → fs1.stat q = fs.stat q := by
  induction rs with
  | nil => simp [mkdirTempLoop] at h
  | cons r rest ih =>
    unfold mkdirTempLoop at h
    simp only [] at h
    cases hm : fs.mkdir (resolve cwd (joinPath dir ("goinit-extract-".toList ++ r))) 0o700 with
    | some fs2 =>
      rw [hm] at h
      injection h with h
      injection h with h1 h2
      subst h1 h2
      intro q hq
      rw [(FS.mkdir_stat fs fs2 _ _ hm).2 q]
      have : resolve cwd (joinPath dir ("goinit-extract-".toList ++ r)) ≠ q :=
        fun he => hq (he ▸ List.prefix_refl _)
      rw [if_neg this]
    | none =>
      rw [hm] at h
      simp only [] at h
      split_ifs at h
      exact ih h

/-- Claim C10, as the code has it. Called with a format tag other than `tar.gz` and `zip`,
`Extract` first creates the temporary working directory.  When that fails, the failure is
what it returns.  Otherwise it removes the directory again and returns the unsupported-format
error: the two calls are all it does (the archive is not opened), the directory and what is
below it are gone, and every other location is as before. -/
theorem Extract_unsupported (env : Env) (w : World) (archivePath format : GoString)
    (h1 : format ≠ "tar.gz".toList) (h2 : format ≠ "zip".toList) :
    (∀ w1, osMkdirTemp env w = (none, w1) →
      Extract env w archivePath format = (.error .tempDir, w1)) ∧
    (∀ tmpDir w1, osMkdirTemp env w = (some tmpDir, w1) →
      (Extract env w archivePath format).1 = .error (.unsupportedFormat format) ∧
      (Extract env w archivePath format).2.calls
        = w.calls ++ [.mkdirTemp env.tempDir, .removeAll tmpDir] ∧
      ∀ q, (Extract env w archivePath format).2.fs.stat q
        = if resolve env.cwd tmpDir <+: q then none else w.fs.stat q) := by
  refine ⟨?_, ?_⟩
  · intro w1 hw
    simp [Extract, hw]
  · intro tmpDir w1 hw
    have hrun : Extract env w archivePath format
        = (.error (.unsupportedFormat format), osRemoveAll env.cwd w1 tmpDir) := by
      simp only [Extract, hw, h1, h2, if_false]
    rw [hrun]
    unfold osMkdirTemp at hw
    cases hl : mkdirTempLoop env.cwd w.fs env.tempDir env.randoms with
    | none => rw [hl] at hw; simp at hw
    | some pr =>
      obtain ⟨name, fs1⟩ := pr
      rw [hl] at hw
      simp only [Prod.mk.injEq, Option.some.injEq] at hw
      obtain ⟨hname, hw1⟩ := hw
      subst hname hw1
      refine ⟨rfl, by simp [osRemoveAll], ?_⟩
      intro q
      simp only [osRemoveAll]
      rw [FS.removeAll_stat]
      by_cases hq : resolve env.cwd name <+: q
      · simp [hq]
      · simp only [hq, if_false]
        exact mkdirTempLoop_stat env.cwd w.fs env.tempDir env.randoms name fs1 hl q hq

theorem Extract_unsupported_witness :
    Extract demoEnv demoWorld "/a".toList "rar".toList
      = (.error (.unsupportedFormat "rar".toList),
          ⟨demoWorld.fs, [.mkdirTemp "/tmp".toList,
            .removeAll "/tmp/goinit-extract-1".toList]⟩) := by
  have h := (Extract_unsupported demoEnv demoWorld "/a".toList "rar".toList (by decide)
    (by decide)).2 "/tmp/goinit-extract-1".toList _ (by decide : osMkdirTemp demoEnv demoWorld
      = (some "/tmp/goinit-extract-1".toList, (osMkdirTemp demoEnv demoWorld).2))
  have hfs : (Extract demoEnv demoWorld "/a".toList "rar".toList).2.fs = demoWorld.fs := by
    decide
  exact Prod.ext h.1 (by
    cases hE : (Extract demoEnv demoWorld "/a".toList "rar".toList).2 with
    | mk fs calls =>
      rw [hE] at hfs
      have hc := h.2.1
      rw [hE] at hc
      simp only at hfs hc
      rw [hfs, hc]
      rfl)

/-- Claim C10 as stated fails. With the format tag `rar`, `Extract` has called the file
system twice by the time it returns the unsupported-format error (it has created and removed
its temporary directory); and without a usable directory for temporary files it does not
return the unsupported-format error at all, but the failure to create the directory. -/
theorem Extract_unsupported_after_io :
    (Extract demoEnv demoWorld "/a".toList "rar".toList).1
      = .error (.unsupportedFormat "rar".toList) ∧
    (Extract demoEnv demoWorld "/a".toList "rar".toList).2.calls
      = [.mkdirTemp "/tmp".toList, .removeAll "/tmp/goinit-extract-1".toList] ∧
    (Extract demoEnv demoWorld "/a".toList "rar".toList).2.calls ≠ demoWorld.calls ∧
    (Extract demoEnvNoTemp demoWorld "/a".toList "rar".toList).1 = .error .tempDir := by
  decide

/-! ### `ProcessAndCopy` -/

theorem FS.hasKind_unique (fs : FS) (q : Path) (d1 d2 : Bool) (h1 : fs.hasKind q d1)
    (h2 : fs.hasKind q d2) : d1 = d2 := by
  unfold FS.hasKind at h1 h2
  cases hs : fs.stat q with
  | none => rw [hs] at h1; exact absurd h1 id
  | some n =>
    rw [hs] at h1 h2
    cases n <;> simp only at h1 h2 <;> rw [h1, h2]

theorem FS.hasKind_stat (fs : FS) (q : Path) (d : Bool) (h : fs.hasKind q d) :
    fs.stat q ≠ none := by
  unfold FS.hasKind at h
  split at h
  · simp [*]
  · simp [*]
  · exact absurd h id

theorem KeepsKinds.kinds_refl (fs : FS) : KeepsKinds fs fs := fun _ _ h => h

theorem KeepsKinds.kinds_trans {fs fs1 fs2 : FS} (h1 : KeepsKinds fs fs1) (h2 : KeepsKinds fs1 fs2) :
    KeepsKinds fs fs2 := fun q d h => h2 q d (h1 q d h)

theorem KeepsKinds.of_stat {fs fs1 : FS}
    (h : ∀ q, fs1.stat q = fs.stat q ∨ fs.stat q = none) : KeepsKinds fs fs1 := by
  intro q d hk
  rcases h q with h1 | h1
  · unfold FS.hasKind at hk ⊢
    rw [h1]
    exact hk
  · exact absurd h1 (FS.hasKind_stat fs q d hk)

theorem WalkSpec.nil (destDir : Path) (fs : FS) : WalkSpec destDir [] fs fs :=
  ⟨KeepsKinds.kinds_refl fs, fun _ h1 h2 => absurd h1 h2, fun _ he => absurd he (List.not_mem_nil _)⟩

theorem WalkSpec.hidden (destDir : Path) (entries : List (Path × Bool)) (fs : FS)
    (h : ∀ e ∈ entries, ¬ visibleEntry e) : WalkSpec destDir entries fs fs :=
  ⟨KeepsKinds.kinds_refl fs, fun _ h1 h2 => absurd h1 h2, fun e he hv => absurd hv (h e he)⟩

theorem WalkSpec.append {destDir : Path} {l1 l2 : List (Path × Bool)} {fs fs1 fs2 : FS}
    (h1 : WalkSpec destDir l1 fs fs1) (h2 : WalkSpec destDir l2 fs1 fs2) :
    WalkSpec destDir (l1 ++ l2) fs fs2 := by
  obtain ⟨k1, c1, m1⟩ := h1
  obtain ⟨k2, c2, m2⟩ := h2
  refine ⟨k1.kinds_trans k2, ?_, ?_⟩
  · intro q hq0 hq2
    by_cases hq1 : fs1.stat q = none
    · obtain ⟨e, he, hv, hp⟩ := c2 q hq1 hq2
      exact ⟨e, List.mem_append_right _ he, hv, hp⟩
    · obtain ⟨e, he, hv, hp⟩ := c1 q hq0 hq1
      exact ⟨e, List.mem_append_left _ he, hv, hp⟩
  · intro e he hv
    rcases List.mem_append.mp he with he | he
    · exact k2 _ _ (m1 e he hv)
    · exact m2 e he hv

theorem FS.mkdirAllRev_isDir (fs : FS) (mode : Nat) (rp : List GoString) :
    ∀ fs1, fs.mkdirAllRev mode rp = some fs1 → fs1.hasKind rp.reverse true := by
  intro fs1 h
  cases rp with
  | nil =>
    unfold FS.mkdirAllRev at h
    split at h
    · rename_i hs
      injection h with h; subst h
      unfold FS.hasKind
      simp only [List.reverse_nil]
      rw [hs]
      simp
    · exact absurd h (by simp)
  | cons name parent =>
    unfold FS.mkdirAllRev at h
    split at h
    · rename_i hs
      injection h with h; subst h
      unfold FS.hasKind
      rw [hs]
    · exact absurd h (by simp)
    · cases hp : FS.mkdirAllRev fs mode parent with
      | none => rw [hp] at h; exact absurd h (by simp)
      | some fs0 =>
        rw [hp] at h
        simp only at h
        obtain ⟨-, hst⟩ := FS.mkdir_stat fs0 fs1 _ mode h
        unfold FS.hasKind
        rw [hst]
        simp

theorem WalkSpec.spec_mkdirAll {destDir p : Path} {fs fs1 : FS} {mode : Nat}
    (hv : visibleEntry (p, true)) (h : fs.mkdirAll (destDir ++ p) mode = some fs1) :
    WalkSpec destDir [(p, true)] fs fs1 := by
  have hst := FS.mkdirAll_stat fs fs1 _ mode h
  refine ⟨KeepsKinds.of_stat (fun q => (hst q).imp id (fun h => h.1)), ?_, ?_⟩
  · intro q hq0 hq1
    rcases hst q with h1 | ⟨-, h2⟩
    · rw [h1] at hq1; exact absurd hq0 hq1
    · exact ⟨(p, true), List.mem_singleton.mpr rfl, hv, h2⟩
  · intro e he _
    rw [List.mem_singleton.mp he]
    have := FS.mkdirAllRev_isDir fs mode (destDir ++ p).reverse fs1 h
    simpa using this

theorem openFile_write_spec (fs fs1 : FS) (dest : Path) (mode : Nat) (data : GoString)
    (h : fs.openFile dest mode true = some fs1) :
    KeepsKinds fs (fs1.writeFromStart dest data) ∧
    (∀ q, q ≠ dest → (fs1.writeFromStart dest data).stat q = fs.stat q) ∧
    (fs1.writeFromStart dest data).hasKind dest false := by
  obtain ⟨m1, hm1⟩ := FS.openFile_trunc_stat fs fs1 dest mode h
  have hother : ∀ q, q ≠ dest → (fs1.writeFromStart dest data).stat q = fs.stat q := by
    intro q hq
    rw [FS.writeFromStart_stat fs1 dest data q hq, (FS.openFile_stat fs fs1 dest mode true h).1 q hq]
  have hfile : (fs1.writeFromStart dest data).hasKind dest false := by
    unfold FS.hasKind
    rw [FS.writeFromStart_empty fs1 dest m1 data hm1]
  refine ⟨?_, hother, hfile⟩
  intro q d hk
  by_cases hq : q = dest
  · subst hq
    have : d = false := by
      unfold FS.hasKind at hk
      unfold FS.openFile at h
      split at hk
      · rename_i hs
        rw [hs] at h
        exact absurd h (by simp)
      · exact hk
      · exact absurd hk id
    rw [this]
    exact hfile
  · unfold FS.hasKind at hk ⊢
    rw [hother q hq]
    exact hk

theorem processFile_spec (fs fs1 : FS) (srcPath destPath : Path) (pattern : Regexp)
    (replacement : GoString) (b : Bool)
    (h : processFile fs srcPath destPath pattern replacement = ((b, none), fs1)) :
    KeepsKinds fs fs1 ∧ (∀ q, q ≠ destPath → fs1.stat q = fs.stat q) ∧
      fs1.hasKind destPath false := by
  unfold processFile at h
  split at h
  · rename_i m content hsrc
    split_ifs at h with hbin
    · -- binary: copyFile
      unfold copyFile at h
      simp only [hsrc] at h
      cases ho : fs.openFile destPath (FsNode.file m content).mode true with
      | none => rw [ho] at h; simp at h
      | some fsA =>
        rw [ho] at h
        simp only at h
        split at h
        · rename_i hs2
          simp only [Prod.mk.injEq, true_and] at h
          rw [← h.2]
          exact openFile_write_spec fs fsA destPath _ _ ho
        · simp at h
    · simp only [hsrc] at h
      cases ho : fs.openFile destPath (FsNode.file m content).mode true with
      | none => rw [ho] at h; simp at h
      | some fsA =>
        rw [ho] at h
        simp only [Prod.mk.injEq] at h
        rw [← h.2]
        exact openFile_write_spec fs fsA destPath _ _ ho
  · simp at h

mutual
theorem entriesAt_below : ∀ (node : WalkNode) (p : Path),
    ∀ e ∈ WalkNode.entriesAt p node,
      e = (p, node.isDir) ∨ (p <+: e.1 ∧ p.length < e.1.length)
  | .file _ _, p => by
    intro e he
    simp only [WalkNode.entriesAt, List.mem_singleton] at he
    left
    rw [he]
    rfl
  | .dir _ _ children, p => by
    intro e he
    simp only [WalkNode.entriesAt, List.mem_cons] at he
    rcases he with rfl | he
    · left; rfl
    · right; exact entriesOf_below children p e he
theorem entriesOf_below : ∀ (children : List WalkNode) (p : Path),
    ∀ e ∈ WalkNode.entriesAt.entriesOf p children, p <+: e.1 ∧ p.length < e.1.length
  | [], p => by
    intro e he
    simp [WalkNode.entriesAt.entriesOf] at he
  | c :: cs, p => by
    intro e he
    simp only [WalkNode.entriesAt.entriesOf, List.mem_append] at he
    rcases he with he | he
    · rcases entriesAt_below c (p ++ [c.name]) e he with rfl | ⟨h1, h2⟩
      · simp
      · refine ⟨(List.prefix_append _ _).trans h1, ?_⟩
        simp only [List.length_append, List.length_singleton] at h2
        omega
    · exact entriesOf_below cs p e he
end

mutual
theorem dirsAt_under : ∀ (node : WalkNode) (p : Path),
    ∀ d ∈ WalkNode.dirsAt p node, p <+: d.1
  | .file _ _, p => by
    intro d hd
    simp [WalkNode.dirsAt] at hd
  | .dir _ _ children, p => by
    intro d hd
    simp only [WalkNode.dirsAt, List.mem_cons] at hd
    rcases hd with rfl | hd
    · exact List.prefix_refl _
    · obtain ⟨c, -, hp⟩ := dirsOf_under children p d hd
      exact (List.prefix_append _ _).trans hp
theorem dirsOf_under : ∀ (children : List WalkNode) (p : Path),
    ∀ d ∈ WalkNode.dirsAt.dirsOf p children, ∃ c ∈ children, p ++ [c.name] <+: d.1
  | [], p => by
    intro d hd
    simp [WalkNode.dirsAt.dirsOf] at hd
  | c :: cs, p => by
    intro d hd
    simp only [WalkNode.dirsAt.dirsOf, List.mem_append] at hd
    rcases hd with hd | hd
    · exact ⟨c, List.mem_cons_self _ _, dirsAt_under c (p ++ [c.name]) d hd⟩
    · obtain ⟨c1, hc1, hp⟩ := dirsOf_under cs p d hd
      exact ⟨c1, List.mem_cons_of_mem _ hc1, hp⟩
end

mutual
theorem dirsAt_open : ∀ (node : WalkNode) (p : Path), node.dirsOpen = true →
    ∀ d ∈ WalkNode.dirsAt p node, ownerWrite d.2 = true ∧ ownerSearch d.2 = true
  | .file _ _, p => by
    intro _ d hd
    simp [WalkNode.dirsAt] at hd
  | .dir _ mode children, p => by
    intro h d hd
    unfold WalkNode.dirsOpen at h
    simp only [Bool.and_eq_true] at h
    simp only [WalkNode.dirsAt, List.mem_cons] at hd
    rcases hd with rfl | hd
    · exact ⟨h.1.1.2, h.1.2⟩
    · exact dirsOf_open children p h.2 d hd
theorem dirsOf_open : ∀ (children : List WalkNode) (p : Path),
    WalkNode.dirsOpen.allOpen children = true →
    ∀ d ∈ WalkNode.dirsAt.dirsOf p children, ownerWrite d.2 = true ∧ ownerSearch d.2 = true
  | [], p => by
    intro _ d hd
    simp [WalkNode.dirsAt.dirsOf] at hd
  | c :: cs, p => by
    intro h d hd
    unfold WalkNode.dirsOpen.allOpen at h
    rw [Bool.and_eq_true] at h
    simp only [WalkNode.dirsAt.dirsOf, List.mem_append] at hd
    rcases hd with hd | hd
    · exact dirsAt_open c (p ++ [c.name]) h.1 d hd
    · exact dirsOf_open cs p h.2 d hd
end

theorem visibleEntry_dropLast (e : Path × Bool) (h : visibleEntry e) :
    ∀ n ∈ e.1.dropLast, dotted n = false := by
  intro n hn
  unfold visibleEntry at h
  cases hd : e.2
  · rw [hd] at h
    exact h n hn
  · rw [hd] at h
    exact h n (List.mem_of_mem_dropLast hn)

theorem visibleEntry_above (e e1 : Path × Bool) (h : visibleEntry e1) (hp : e.1 <+: e1.1)
    (hne : e.1 ≠ e1.1) : visibleEntry e := by
  have hsub : ∀ n ∈ e.1, dotted n = false := by
    intro n hn
    exact visibleEntry_dropLast e1 h n ((prefix_dropLast hp hne).subset hn)
  intro n hn
  split_ifs at hn
  · exact hsub n hn
  · exact hsub n (List.mem_of_mem_dropLast hn)

theorem hidden_entries (node : WalkNode) (rel : Path) (hdir : node.isDir = true)
    (hdot : dotted node.name = true) :
    ∀ e ∈ WalkNode.entriesAt (rel ++ [node.name]) node, ¬ visibleEntry e := by
  intro e he hv
  have hmem : node.name ∈ rel ++ [node.name] := by simp
  rcases entriesAt_below node _ e he with rfl | ⟨h1, h2⟩
  · unfold visibleEntry at hv
    simp only [hdir, if_true] at hv
    have := hv node.name hmem
    rw [hdot] at this
    exact absurd this (by simp)
  · have hne : rel ++ [node.name] ≠ e.1 := by
      intro h
      rw [← h] at h2
      exact absurd h2 (lt_irrefl _)
    have := visibleEntry_dropLast e hv node.name ((prefix_dropLast h1 hne).subset hmem)
    rw [hdot] at this
    exact absurd this (by simp)

theorem walkFn_file_spec (srcDir destDir : Path) (pattern : Regexp) (moduleName : GoString)
    (rel : Path) (name nodeName : GoString) (mode : Nat) (st st1 : CopyState)
    (res : Option WalkErr) (hrel : ∀ n ∈ rel, dotted n = false)
    (h : walkFn srcDir destDir pattern moduleName (rel ++ [nodeName]) false name mode st
      = (res, st1)) :
    (res = none ∧ WalkSpec destDir [(rel ++ [nodeName], false)] st.fs st1.fs) ∨
      ∃ err, res = some err ∧ err ≠ .skipDir := by
  unfold walkFn at h
  have hne : rel ++ [nodeName] ≠ [] := by simp
  simp only [hne, if_false, Bool.false_eq_true, false_and] at h
  rcases hp : processFile st.fs (srcDir ++ (rel ++ [nodeName])) (destDir ++ (rel ++ [nodeName]))
    pattern moduleName with ⟨⟨b, oe⟩, fs1⟩
  rw [hp] at h
  cases oe with
  | some err =>
    simp only [Prod.mk.injEq] at h
    right
    exact ⟨_, h.1.symm, by simp⟩
  | none =>
    simp only [Prod.mk.injEq] at h
    left
    obtain ⟨hres, hst⟩ := h
    subst hst
    obtain ⟨hk, hother, hfile⟩ := processFile_spec st.fs fs1 _ _ pattern moduleName b hp
    refine ⟨hres.symm, hk, ?_, ?_⟩
    · intro q hq0 hq1
      refine ⟨_, List.mem_singleton.mpr rfl, ?_, ?_⟩
      · intro n hn
        simp only [Bool.false_eq_true, if_false, List.dropLast_concat] at hn
        exact hrel n hn
      · by_cases hq : q = destDir ++ (rel ++ [nodeName])
        · rw [hq]
        · simp only at hq1
          rw [hother q hq] at hq1
          exact absurd hq0 hq1
    · intro e he _
      rw [List.mem_singleton.mp he]
      exact hfile

theorem walkFn_dir_spec (srcDir destDir : Path) (pattern : Regexp) (moduleName : GoString)
    (rel : Path) (name : GoString) (mode : Nat) (st st1 : CopyState)
    (res : Option WalkErr) (hrel : ∀ n ∈ rel, dotted n = false)
    (h : walkFn srcDir destDir pattern moduleName (rel ++ [name]) true name mode st
      = (res, st1)) :
    (res = none ∧ dotted name = false ∧ WalkSpec destDir [(rel ++ [name], true)] st.fs st1.fs) ∨
      (res = some .skipDir ∧ st1 = st ∧ dotted name = true) ∨
      ∃ err, res = some err ∧ err ≠ .skipDir := by
  unfold walkFn at h
  have hne : rel ++ [name] ≠ [] := by simp
  simp only [hne, if_false, true_and, if_true] at h
  cases hdot : dotted name
  · have hd : HasPrefix name ['.'] = false := hdot
    simp only [hd, Bool.false_eq_true, if_false] at h
    cases hm : st.fs.mkdirAll (destDir ++ (rel ++ [name])) mode with
    | none =>
      rw [hm] at h
      simp only [Prod.mk.injEq] at h
      right; right
      exact ⟨_, h.1.symm, by simp⟩
    | some fs1 =>
      rw [hm] at h
      simp only [Prod.mk.injEq] at h
      left
      obtain ⟨hres, hst⟩ := h
      subst hst
      refine ⟨hres.symm, rfl, WalkSpec.spec_mkdirAll ?_ hm⟩
      intro n hn
      simp only [if_true, List.mem_append, List.mem_singleton] at hn
      rcases hn with hn | hn
      · exact hrel n hn
      · rw [hn]; exact hdot
  · have hd : HasPrefix name ['.'] = true := hdot
    simp only [hd, if_true, Prod.mk.injEq] at h
    right; left
    exact ⟨h.1.symm, h.2.symm, rfl⟩

mutual
theorem walk_spec (srcDir destDir : Path) (pattern : Regexp) (moduleName : GoString) :
    ∀ (node : WalkNode) (rel : Path) (st st1 : CopyState) (res : Option WalkErr),
      (∀ n ∈ rel, dotted n = false) →
      walk srcDir destDir pattern moduleName (rel ++ [node.name]) node st = (res, st1) →
      (res = none ∧
          WalkSpec destDir (WalkNode.entriesAt (rel ++ [node.name]) node) st.fs st1.fs) ∨
        (res = some .skipDir ∧ node.isDir = true ∧ st1 = st ∧ dotted node.name = true) ∨
        ∃ err, res = some err ∧ err ≠ .skipDir
  | .file name mode, rel, st, st1, res, hrel, h => by
    unfold walk at h
    rcases walkFn_file_spec srcDir destDir pattern moduleName rel name name mode st st1 res
      hrel h with h1 | h1
    · exact Or.inl h1
    · exact Or.inr (Or.inr h1)
  | .dir name mode children, rel, st, st1, res, hrel, h => by
    unfold walk at h
    simp only [WalkNode.name] at h ⊢
    rcases hfn : walkFn srcDir destDir pattern moduleName (rel ++ [name]) true name mode st
      with ⟨r0, st0⟩
    rw [hfn] at h
    rcases walkFn_dir_spec srcDir destDir pattern moduleName rel name mode st st0 r0 hrel hfn
      with ⟨hr, hdot, hspec⟩ | ⟨hr, hst, hdot⟩ | ⟨err, hr, herr⟩
    · subst hr
      simp only at h
      have hrel1 : ∀ n ∈ rel ++ [name], dotted n = false := by
        intro n hn
        rcases List.mem_append.mp hn with hn | hn
        · exact hrel n hn
        · rw [List.mem_singleton.mp hn]; exact hdot
      rcases walkEntries_spec srcDir destDir pattern moduleName children (rel ++ [name]) st0
        st1 res hrel1 h with ⟨h1, h2⟩ | h1
      · left
        refine ⟨h1, ?_⟩
        have := WalkSpec.append hspec h2
        simpa [WalkNode.entriesAt] using this
      · exact Or.inr (Or.inr h1)
    · subst hr
      simp only [Prod.mk.injEq] at h
      right; left
      exact ⟨h.1.symm, rfl, by rw [← h.2, hst], hdot⟩
    · subst hr
      simp only [Prod.mk.injEq] at h
      right; right
      exact ⟨err, h.1.symm, herr⟩
theorem walkEntries_spec (srcDir destDir : Path) (pattern : Regexp) (moduleName : GoString) :
    ∀ (children : List WalkNode) (rel : Path) (st st1 : CopyState) (res : Option WalkErr),
      (∀ n ∈ rel, dotted n = false) →
      walk.walkEntries srcDir destDir pattern moduleName rel children st = (res, st1) →
      (res = none ∧
          WalkSpec destDir (WalkNode.entriesAt.entriesOf rel children) st.fs st1.fs) ∨
        ∃ err, res = some err ∧ err ≠ .skipDir
  | [], rel, st, st1, res, _, h => by
    unfold walk.walkEntries at h
    simp only [Prod.mk.injEq] at h
    left
    refine ⟨h.1.symm, ?_⟩
    rw [← h.2]
    exact WalkSpec.nil destDir st.fs
  | child :: rest, rel, st, st1, res, hrel, h => by
    unfold walk.walkEntries at h
    rcases hc : walk srcDir destDir pattern moduleName (rel ++ [child.name]) child st
      with ⟨r0, st0⟩
    rw [hc] at h
    rcases walk_spec srcDir destDir pattern moduleName child rel st st0 r0 hrel hc
      with ⟨hr, hspec⟩ | ⟨hr, hdir, hst, hdot⟩ | ⟨err, hr, herr⟩
    · subst hr
      simp only at h
      rcases walkEntries_spec srcDir destDir pattern moduleName rest rel st0 st1 res hrel h
        with ⟨h1, h2⟩ | h1
      · left
        exact ⟨h1, by simpa [WalkNode.entriesAt.entriesOf] using WalkSpec.append hspec h2⟩
      · exact Or.inr h1
    · subst hr hst
      simp only [hdir, true_and, if_true] at h
      rcases walkEntries_spec srcDir destDir pattern moduleName rest rel st0 st1 res hrel h
        with ⟨h1, h2⟩ | h1
      · left
        refine ⟨h1, ?_⟩
        have hh := WalkSpec.hidden destDir _ st0.fs (hidden_entries child rel hdir hdot)
        simpa [WalkNode.entriesAt.entriesOf] using WalkSpec.append hh h2
      · exact Or.inr h1
    · subst hr
      have : ¬ (child.isDir = true ∧ err = WalkErr.skipDir) := fun hc => herr hc.2
      simp only [this, if_false, Prod.mk.injEq] at h
      right
      exact ⟨err, h.1.symm, herr⟩
end

/-! ### `ProcessAndCopy` runs to the end -/

theorem FS.mkdirAll_fresh (fs : FS) (p : Path) (mode : Nat) (hp : p ≠ [])
    (hparent : fs.isDir p.dropLast = true) (hfree : fs.stat p = none) :
    fs.mkdirAll p mode = some (fs.put p (.dir mode)) := by
  obtain ⟨init, last, rfl⟩ : ∃ init last, p = init ++ [last] :=
    ⟨p.dropLast, p.getLast hp, (List.dropLast_append_getLast hp).symm⟩
  rw [List.dropLast_concat] at hparent
  have hmk : fs.mkdir (init ++ [last]) mode = some (fs.put (init ++ [last]) (.dir mode)) := by
    unfold FS.mkdir
    rw [List.dropLast_concat]
    simp [hparent, hfree]
  have hpar : fs.mkdirAllRev mode init.reverse = some fs := by
    unfold FS.isDir at hparent
    cases hr : init.reverse with
    | nil =>
      have : init = [] := by simpa using hr
      subst this
      unfold FS.mkdirAllRev
      split
      · rfl
      · rename_i hnd
        cases hs : fs.stat [] with
        | none => rw [hs] at hparent; simp at hparent
        | some n =>
          cases n with
          | dir m => exact absurd hs (hnd m)
          | file m c => rw [hs] at hparent; simp at hparent
    | cons a rest =>
      have hinit : (a :: rest).reverse = init := by rw [← hr]; simp
      unfold FS.mkdirAllRev
      rw [hinit]
      cases hs : fs.stat init with
      | none => rw [hs] at hparent; simp at hparent
      | some n =>
        cases n with
        | dir m => rfl
        | file m c => rw [hs] at hparent; simp at hparent
  unfold FS.mkdirAll
  have hrev : (init ++ [last]).reverse = last :: init.reverse := by simp
  rw [hrev]
  unfold FS.mkdirAllRev
  have hback : (last :: init.reverse).reverse = init ++ [last] := by simp
  rw [hback, hfree]
  simp only [hpar]
  exact hmk

theorem processFile_ok (fs : FS) (srcPath destPath : Path) (pattern : Regexp)
    (replacement : GoString) (m : Nat) (content : GoString)
    (hsrc : fs.stat srcPath = some (.file m content)) (hne : srcPath ≠ destPath)
    (hdest : destPath ≠ []) (hparent : fs.isDir destPath.dropLast = true)
    (hnodir : fs.isDir destPath = false) :
    ∃ b fs1, processFile fs srcPath destPath pattern replacement = ((b, none), fs1) := by
  obtain ⟨fs1, hopen⟩ := FS.openFile_ok fs destPath m true hdest hparent hnodir
  have hsrc1 : fs1.stat srcPath = some (.file m content) := by
    rw [(FS.openFile_stat fs fs1 destPath m true hopen).1 srcPath hne, hsrc]
  cases hbin : isBinary content
  · exact ⟨pattern.Match content,
      fs1.writeFromStart destPath (pattern.ReplaceAll content replacement),
      by simp [processFile, hsrc, hbin, FsNode.mode, hopen]⟩
  · exact ⟨false, fs1.writeFromStart destPath content,
      by simp [processFile, hsrc, hbin, copyFile, FsNode.mode, hopen, hsrc1]⟩

theorem sibling_disjoint {α : Type} (p q : List α) (a b : α) (hab : a ≠ b)
    (ha : p ++ [a] <+: q) : ¬ p ++ [b] <+: q := by
  intro hb
  have := List.prefix_of_prefix_length_le ha hb (by simp)
  have h2 := this.eq_of_length (by simp)
  have := List.append_cancel_left h2
  simp at this
  exact hab this

theorem OnlyBelow.weaken {c d : Path} {fs fs1 : FS} (h : OnlyBelow c fs fs1) (hdc : d <+: c) :
    OnlyBelow d fs fs1 :=
  fun q hq => h q (fun hc => hq (hdc.trans hc))

theorem isDir_of_stat_eq {fs fs1 : FS} {q : Path} (h : fs1.stat q = fs.stat q) :
    fs1.isDir q = fs.isDir q := by
  unfold FS.isDir
  rw [h]

theorem walkFn_file_ok (srcDir destDir : Path) (pattern : Regexp) (moduleName : GoString)
    (rel : Path) (name nodeName : GoString) (mode : Nat) (st : CopyState)
    (hparent : st.fs.isDir (destDir ++ rel) = true)
    (hfree : st.fs.stat (destDir ++ (rel ++ [nodeName])) = none)
    (hsrc : ∃ m c, st.fs.stat (srcDir ++ (rel ++ [nodeName])) = some (.file m c)) :
    ∃ st1, walkFn srcDir destDir pattern moduleName (rel ++ [nodeName]) false name mode st
        = (none, st1) ∧
      OnlyBelow (destDir ++ (rel ++ [nodeName])) st.fs st1.fs := by
  obtain ⟨m, c, hs⟩ := hsrc
  have hne : srcDir ++ (rel ++ [nodeName]) ≠ destDir ++ (rel ++ [nodeName]) := by
    intro h
    rw [h, hfree] at hs
    exact absurd hs (by simp)
  have hdl : (destDir ++ (rel ++ [nodeName])).dropLast = destDir ++ rel := by
    rw [← List.append_assoc, List.dropLast_concat]
  have hnodir : st.fs.isDir (destDir ++ (rel ++ [nodeName])) = false := by
    unfold FS.isDir; rw [hfree]
  obtain ⟨b, fs1, hp⟩ := processFile_ok st.fs _ _ pattern moduleName m c hs hne (by simp)
    (by rw [hdl]; exact hparent) hnodir
  have hrel : rel ++ [nodeName] ≠ [] := by simp
  refine ⟨⟨fs1, st.fileCount + 1,
    if b then st.replacementCount + 1 else st.replacementCount⟩,
    by simp only [walkFn, hrel, if_false, Bool.false_eq_true, false_and, hp], ?_⟩
  intro q hq
  exact (processFile_spec st.fs fs1 _ _ pattern moduleName b hp).2.1 q
    (fun h => hq (h ▸ List.prefix_refl _))

theorem walkFn_dir_ok (srcDir destDir : Path) (pattern : Regexp) (moduleName : GoString)
    (rel : Path) (name : GoString) (mode : Nat) (st : CopyState)
    (hparent : st.fs.isDir (destDir ++ rel) = true)
    (hfree : st.fs.stat (destDir ++ (rel ++ [name])) = none) :
    (dotted name = true ∧
      walkFn srcDir destDir pattern moduleName (rel ++ [name]) true name mode st
        = (some .skipDir, st)) ∨
    (dotted name = false ∧
      walkFn srcDir destDir pattern moduleName (rel ++ [name]) true name mode st
        = (none, { st with fs := st.fs.put (destDir ++ (rel ++ [name])) (.dir mode) })) := by
  have hrel : rel ++ [name] ≠ [] := by simp
  cases hdot : dotted name
  · right
    have hd : HasPrefix name ['.'] = false := hdot
    have hdl : (destDir ++ (rel ++ [name])).dropLast = destDir ++ rel := by
      rw [← List.append_assoc, List.dropLast_concat]
    have hmk := FS.mkdirAll_fresh st.fs (destDir ++ (rel ++ [name])) mode (by simp)
      (by rw [hdl]; exact hparent) hfree
    refine ⟨rfl, ?_⟩
    simp only [walkFn, hrel, if_false, hd, Bool.false_eq_true, and_false, if_true, hmk]
  · left
    have hd : HasPrefix name ['.'] = true := hdot
    refine ⟨rfl, ?_⟩
    simp only [walkFn, hrel, if_false, hd, and_self, if_true]

theorem allWellFormed_mem (children : List WalkNode)
    (h : WalkNode.wellFormed.allWellFormed children = true) :
    ∀ c ∈ children, c.wellFormed = true := by
  induction children with
  | nil => intro c hc; exact absurd hc (List.not_mem_nil _)
  | cons a rest ih =>
    unfold WalkNode.wellFormed.allWellFormed at h
    rw [Bool.and_eq_true] at h
    intro c hc
    rcases List.mem_cons.mp hc with rfl | hc
    · exact h.1
    · exact ih h.2 c hc

mutual
theorem walk_ok (srcDir destDir : Path) (pattern : Regexp) (moduleName : GoString) :
    ∀ (node : WalkNode) (rel : Path) (st : CopyState),
      node.wellFormed = true →
      st.fs.isDir (destDir ++ rel) = true →
      (∀ q, destDir ++ (rel ++ [node.name]) <+: q → st.fs.stat q = none) →
      (∀ e ∈ WalkNode.entriesAt (rel ++ [node.name]) node, visibleEntry e → e.2 = false →
        (∃ m c, st.fs.stat (srcDir ++ e.1) = some (.file m c)) ∧
          ¬ destDir <+: srcDir ++ e.1) →
      (∀ n ∈ rel, dotted n = false) →
      ∃ res st1,
        walk srcDir destDir pattern moduleName (rel ++ [node.name]) node st = (res, st1) ∧
        (res = none ∨ (res = some .skipDir ∧ node.isDir = true)) ∧
        OnlyBelow (destDir ++ (rel ++ [node.name])) st.fs st1.fs ∧
        ∀ d ∈ WalkNode.dirsAt (rel ++ [node.name]) node, visibleEntry (d.1, true) →
          st1.fs.stat (destDir ++ d.1) = some (.dir d.2)
  | .file name mode, rel, st, _, hparent, hfree, hsrc, hrel => by
    simp only [WalkNode.name] at hfree hsrc ⊢
    have hvis : visibleEntry (rel ++ [name], false) := by
      intro n hn
      simp only [Bool.false_eq_true, if_false, List.dropLast_concat] at hn
      exact hrel n hn
    have hs := (hsrc (rel ++ [name], false) (by simp [WalkNode.entriesAt]) hvis rfl).1
    obtain ⟨st1, hw, hob⟩ := walkFn_file_ok srcDir destDir pattern moduleName rel name name
      mode st hparent (hfree _ (List.prefix_refl _)) hs
    refine ⟨none, st1, ?_, Or.inl rfl, hob, ?_⟩
    · unfold walk
      exact hw
    · intro d hd
      simp [WalkNode.dirsAt] at hd
  | .dir name mode children, rel, st, hwf, hparent, hfree, hsrc, hrel => by
    simp only [WalkNode.name] at hfree hsrc ⊢
    unfold WalkNode.wellFormed at hwf
    rw [Bool.and_eq_true] at hwf
    obtain ⟨hnodup, hall⟩ := hwf
    have hnodup : (children.map WalkNode.name).Nodup := by simpa using hnodup
    rcases walkFn_dir_ok srcDir destDir pattern moduleName rel name mode st hparent
      (hfree _ (List.prefix_refl _)) with ⟨_, hw⟩ | ⟨hdot, hw⟩
    · rename_i hdotted
      refine ⟨some .skipDir, st, ?_, Or.inr ⟨rfl, rfl⟩, fun _ _ => rfl, ?_⟩
      · unfold walk
        rw [hw]
      · intro d hd hv
        have hmem : name ∈ d.1 :=
          (dirsAt_under _ _ d hd).subset (by simp)
        have := hv name (by simpa using hmem)
        rw [hdotted] at this
        exact absurd this (by simp)
    · have hput : ∀ q, q ≠ destDir ++ (rel ++ [name]) →
          (st.fs.put (destDir ++ (rel ++ [name])) (.dir mode)).stat q = st.fs.stat q := by
        intro q hq
        rw [FS.stat_put]
        simp [Ne.symm hq]
      have hrel1 : ∀ n ∈ rel ++ [name], dotted n = false := by
        intro n hn
        rcases List.mem_append.mp hn with hn | hn
        · exact hrel n hn
        · rw [List.mem_singleton.mp hn]; exact hdot
      obtain ⟨st1, hwe, hob, hmodes⟩ := walkEntries_ok srcDir destDir pattern moduleName
        children
        (rel ++ [name]) { st with fs := st.fs.put (destDir ++ (rel ++ [name])) (.dir mode) }
        hall hnodup
        (by
          show (st.fs.put (destDir ++ (rel ++ [name])) (.dir mode)).isDir _ = true
          unfold FS.isDir
          rw [FS.stat_put]
          simp)
        (by
          intro c _ q hq
          show (st.fs.put (destDir ++ (rel ++ [name])) (.dir mode)).stat q = none
          have hlt : (destDir ++ (rel ++ [name])).length < q.length := by
            have := hq.length_le
            simp only [List.length_append, List.length_singleton] at this ⊢
            omega
          have hne : q ≠ destDir ++ (rel ++ [name]) := by
            intro h; rw [h] at hlt; exact absurd hlt (lt_irrefl _)
          rw [hput q hne]
          apply hfree
          refine List.IsPrefix.trans ?_ hq
          rw [← List.append_assoc, ← List.append_assoc, ← List.append_assoc]
          exact List.prefix_append _ _)
        (by
          intro e he hv hf
          obtain ⟨⟨m, c, hs⟩, hnd⟩ := hsrc e (by
            simp only [WalkNode.entriesAt, List.mem_cons]
            exact Or.inr he) hv hf
          refine ⟨⟨m, c, ?_⟩, hnd⟩
          show (st.fs.put (destDir ++ (rel ++ [name])) (.dir mode)).stat _ = _
          rw [hput (srcDir ++ e.1) (fun h => hnd (by rw [h]; exact List.prefix_append _ _)), hs])
        hrel1
      refine ⟨none, st1, ?_, Or.inl rfl, ?_, ?_⟩
      · unfold walk
        rw [hw]
        exact hwe
      · intro q hq
        rw [hob q (by
          intro c _ hc
          apply hq
          refine List.IsPrefix.trans ?_ hc
          rw [← List.append_assoc, ← List.append_assoc, ← List.append_assoc]
          exact List.prefix_append _ _)]
        exact hput q (fun h => hq (h ▸ List.prefix_refl _))
      · intro d hd hv
        simp only [WalkNode.dirsAt, List.mem_cons] at hd
        rcases hd with rfl | hd
        · rw [hob _ (by
            intro c _ hc
            have := hc.length_le
            simp only [List.length_append, List.length_singleton] at this
            omega)]
          show (st.fs.put (destDir ++ (rel ++ [name])) (.dir mode)).stat _ = _
          rw [FS.stat_put]
          simp
        · exact hmodes d hd hv
theorem walkEntries_ok (srcDir destDir : Path) (pattern : Regexp) (moduleName : GoString) :
    ∀ (children : List WalkNode) (rel : Path) (st : CopyState),
      WalkNode.wellFormed.allWellFormed children = true →
      (children.map WalkNode.name).Nodup →
      st.fs.isDir (destDir ++ rel) = true →
      (∀ c ∈ children, ∀ q, destDir ++ (rel ++ [c.name]) <+: q → st.fs.stat q = none) →
      (∀ e ∈ WalkNode.entriesAt.entriesOf rel children, visibleEntry e → e.2 = false →
        (∃ m c, st.fs.stat (srcDir ++ e.1) = some (.file m c)) ∧
          ¬ destDir <+: srcDir ++ e.1) →
      (∀ n ∈ rel, dotted n = false) →
      ∃ st1,
        walk.walkEntries srcDir destDir pattern moduleName rel children st = (none, st1) ∧
        (∀ q, (∀ c ∈ children, ¬ destDir ++ (rel ++ [c.name]) <+: q) →
          st1.fs.stat q = st.fs.stat q) ∧
        ∀ d ∈ WalkNode.dirsAt.dirsOf rel children, visibleEntry (d.1, true) →
          st1.fs.stat (destDir ++ d.1) = some (.dir d.2)
  | [], rel, st, _, _, _, _, _, _ => by
    refine ⟨st, ?_, fun _ _ => rfl, ?_⟩
    · unfold walk.walkEntries
      rfl
    · intro d hd
      simp [WalkNode.dirsAt.dirsOf] at hd
  | child :: rest, rel, st, hall, hnodup, hparent, hfree, hsrc, hrel => by
    unfold WalkNode.wellFormed.allWellFormed at hall
    rw [Bool.and_eq_true] at hall
    rw [List.map_cons, List.nodup_cons] at hnodup
    obtain ⟨res, st0, hw, hres, hob, hmode0⟩ := walk_ok srcDir destDir pattern moduleName child
      rel st
      hall.1 hparent (hfree child (List.mem_cons_self _ _))
      (fun e he => hsrc e (by
        simp only [WalkNode.entriesAt.entriesOf, List.mem_append]
        exact Or.inl he))
      hrel
    have hkeep : ∀ q, ¬ destDir ++ (rel ++ [child.name]) <+: q →
        st0.fs.stat q = st.fs.stat q := hob
    have hsib : ∀ c ∈ rest, ∀ q, destDir ++ (rel ++ [c.name]) <+: q →
        ¬ destDir ++ (rel ++ [child.name]) <+: q := by
      intro c hc q hq
      have hne : c.name ≠ child.name := by
        intro h
        exact hnodup.1 (h ▸ List.mem_map_of_mem _ hc)
      rw [← List.append_assoc] at hq ⊢
      exact sibling_disjoint _ q _ _ hne hq
    obtain ⟨st1, hwe, hob1, hmode1⟩ := walkEntries_ok srcDir destDir pattern moduleName rest rel
      st0
      hall.2 hnodup.2
      (by
        rw [isDir_of_stat_eq (hkeep _ (by
          intro h
          have := h.length_le
          simp only [List.length_append, List.length_singleton] at this
          omega))]
        exact hparent)
      (by
        intro c hc q hq
        rw [hkeep q (hsib c hc q hq)]
        exact hfree c (List.mem_cons_of_mem _ hc) q hq)
      (by
        intro e he hv hf
        obtain ⟨⟨m, c, hs⟩, hnd⟩ := hsrc e (by
          simp only [WalkNode.entriesAt.entriesOf, List.mem_append]
          exact Or.inr he) hv hf
        refine ⟨⟨m, c, ?_⟩, hnd⟩
        rw [hkeep _ (fun h => hnd ((List.prefix_append _ _).trans h)), hs])
      hrel
    refine ⟨st1, ?_, ?_, ?_⟩
    · unfold walk.walkEntries
      rw [hw]
      rcases hres with hres | ⟨hres, hdir⟩
      · subst hres
        exact hwe
      · subst hres
        simp only [hdir, and_self, if_true]
        exact hwe
    · intro q hq
      rw [hob1 q (fun c hc => hq c (List.mem_cons_of_mem _ hc)),
        hkeep q (hq child (List.mem_cons_self _ _))]
    · intro d hd hv
      simp only [WalkNode.dirsAt.dirsOf, List.mem_append] at hd
      rcases hd with hd | hd
      · have hunder : destDir ++ (rel ++ [child.name]) <+: destDir ++ d.1 :=
          (List.prefix_append_right_inj destDir).mpr (dirsAt_under child _ d hd)
        rw [hob1 _ (by
          intro c hc hcq
          have hne : child.name ≠ c.name := by
            intro h
            exact hnodup.1 (h ▸ List.mem_map_of_mem _ hc)
          rw [← List.append_assoc] at hcq hunder
          exact sibling_disjoint _ _ _ _ hne hunder hcq)]
        exact hmode0 d hd hv
      · exact hmode1 d hd hv
end

theorem entriesOf_under (children : List WalkNode) (p : Path) :
    ∀ e ∈ WalkNode.entriesAt.entriesOf p children, ∃ c ∈ children, p ++ [c.name] <+: e.1 := by
  induction children with
  | nil =>
    intro e he
    simp [WalkNode.entriesAt.entriesOf] at he
  | cons a rest ih =>
    intro e he
    simp only [WalkNode.entriesAt.entriesOf, List.mem_append] at he
    rcases he with he | he
    · refine ⟨a, List.mem_cons_self _ _, ?_⟩
      rcases entriesAt_below a (p ++ [a.name]) e he with rfl | ⟨h1, -⟩
      · exact List.prefix_refl _
      · exact h1
    · obtain ⟨c, hc, hp⟩ := ih e he
      exact ⟨c, List.mem_cons_of_mem _ hc, hp⟩

mutual
theorem entriesAt_unique : ∀ (node : WalkNode) (p : Path), node.wellFormed = true →
    ∀ e1 ∈ WalkNode.entriesAt p node, ∀ e2 ∈ WalkNode.entriesAt p node,
      e1.1 = e2.1 → e1 = e2
  | .file _ _, p, _ => by
    intro e1 h1 e2 h2 _
    simp only [WalkNode.entriesAt, List.mem_singleton] at h1 h2
    rw [h1, h2]
  | .dir _ _ children, p, hwf => by
    intro e1 h1 e2 h2 heq
    unfold WalkNode.wellFormed at hwf
    rw [Bool.and_eq_true] at hwf
    have hnodup : (children.map WalkNode.name).Nodup := by simpa using hwf.1
    simp only [WalkNode.entriesAt, List.mem_cons] at h1 h2
    rcases h1 with rfl | h1 <;> rcases h2 with rfl | h2
    · rfl
    · have := (entriesOf_below children p e2 h2).2
      simp only at heq
      rw [heq] at this
      exact absurd this (lt_irrefl _)
    · have := (entriesOf_below children p e1 h1).2
      simp only at heq
      rw [← heq] at this
      exact absurd this (lt_irrefl _)
    · exact entriesOf_unique children p hwf.2 hnodup e1 h1 e2 h2 heq
theorem entriesOf_unique : ∀ (children : List WalkNode) (p : Path),
    WalkNode.wellFormed.allWellFormed children = true →
    (children.map WalkNode.name).Nodup →
    ∀ e1 ∈ WalkNode.entriesAt.entriesOf p children,
      ∀ e2 ∈ WalkNode.entriesAt.entriesOf p children, e1.1 = e2.1 → e1 = e2
  | [], p, _, _ => by
    intro e1 h1
    simp [WalkNode.entriesAt.entriesOf] at h1
  | child :: rest, p, hall, hnodup => by
    intro e1 h1 e2 h2 heq
    unfold WalkNode.wellFormed.allWellFormed at hall
    rw [Bool.and_eq_true] at hall
    rw [List.map_cons, List.nodup_cons] at hnodup
    have hunder : ∀ e ∈ WalkNode.entriesAt (p ++ [child.name]) child,
        p ++ [child.name] <+: e.1 := by
      intro e he
      rcases entriesAt_below child (p ++ [child.name]) e he with rfl | ⟨h, -⟩
      · exact List.prefix_refl _
      · exact h
    have hmixed : ∀ a ∈ WalkNode.entriesAt (p ++ [child.name]) child,
        ∀ b ∈ WalkNode.entriesAt.entriesOf p rest, a.1 ≠ b.1 := by
      intro a ha b hb hab
      obtain ⟨c, hc, hp⟩ := entriesOf_under rest p b hb
      have hne : c.name ≠ child.name := by
        intro h
        exact hnodup.1 (h ▸ List.mem_map_of_mem _ hc)
      have := hunder a ha
      rw [hab] at this
      exact sibling_disjoint p b.1 _ _ hne hp this
    simp only [WalkNode.entriesAt.entriesOf, List.mem_append] at h1 h2
    rcases h1 with h1 | h1 <;> rcases h2 with h2 | h2
    · exact entriesAt_unique child _ hall.1 e1 h1 e2 h2 heq
    · exact absurd heq (hmixed e1 h1 e2 h2)
    · exact absurd heq.symm (hmixed e2 h2 e1 h1)
    · exact entriesOf_unique rest p hall.2 hnodup.2 e1 h1 e2 h2 heq
end

theorem ProcessAndCopy_walk (fs : FS) (tree : WalkNode) (srcDir destDir : Path)
    (token moduleName : GoString) (htoken : checkUTF8 token.length token = true) :
    ProcessAndCopy fs tree srcDir destDir token moduleName
      = match walk srcDir destDir ⟨token⟩ moduleName [] tree ⟨fs, 0, 0⟩ with
        | (some .skipDir, st) => some (none, st)
        | r => some r := by
  simp only [ProcessAndCopy, MustCompileQuoteMeta, htoken, if_true]

theorem ProcessAndCopy_spec (fs : FS) (tree : WalkNode) (srcDir destDir : Path)
    (token moduleName : GoString) (st : CopyState)
    (htoken : checkUTF8 token.length token = true)
    (hok : ProcessAndCopy fs tree srcDir destDir token moduleName = some (none, st)) :
    WalkSpec destDir tree.entriesBelow fs st.fs := by
  rw [ProcessAndCopy_walk fs tree srcDir destDir token moduleName htoken] at hok
  cases tree with
  | file name mode =>
    have hw : walk srcDir destDir ⟨token⟩ moduleName [] (.file name mode) ⟨fs, 0, 0⟩
        = (none, ⟨fs, 0, 0⟩) := by
      simp [walk, walkFn]
    rw [hw] at hok
    simp only [Option.some.injEq, Prod.mk.injEq, true_and] at hok
    rw [← hok]
    exact WalkSpec.nil destDir fs
  | dir name mode children =>
    have hw : walk srcDir destDir ⟨token⟩ moduleName [] (.dir name mode children) ⟨fs, 0, 0⟩
        = walk.walkEntries srcDir destDir ⟨token⟩ moduleName [] children ⟨fs, 0, 0⟩ := by
      simp [walk, walkFn]
    rw [hw] at hok
    rcases hr : walk.walkEntries srcDir destDir ⟨token⟩ moduleName [] children ⟨fs, 0, 0⟩
      with ⟨res, st1⟩
    rw [hr] at hok
    rcases walkEntries_spec srcDir destDir ⟨token⟩ moduleName children [] ⟨fs, 0, 0⟩ st1 res
      (fun n hn => absurd hn (List.not_mem_nil _)) hr with ⟨h1, h2⟩ | ⟨err, h1, herr⟩
    · subst h1
      simp only [Option.some.injEq, Prod.mk.injEq, true_and] at hok
      rw [← hok]
      exact h2
    · subst h1
      cases err <;> simp at hok herr

theorem ProcessAndCopy_ok (fs : FS) (tree : WalkNode) (srcDir destDir : Path)
    (token moduleName : GoString)
    (htoken : checkUTF8 token.length token = true)
    (hwf : tree.wellFormed = true)
    (hsrc : ∀ e ∈ tree.entriesBelow, visibleEntry e → e.2 = false →
      fs.hasKind (srcDir ++ e.1) false)
    (hdest : fs.isDir destDir = true)
    (hempty : ∀ q, strictlyInside destDir q → fs.stat q = none) :
    ∃ st, ProcessAndCopy fs tree srcDir destDir token moduleName = some (none, st) ∧
      OnlyBelow destDir fs st.fs ∧
      ∀ d ∈ tree.dirsBelow, visibleEntry (d.1, true) →
        st.fs.stat (destDir ++ d.1) = some (.dir d.2) := by
  rw [ProcessAndCopy_walk fs tree srcDir destDir token moduleName htoken]
  cases tree with
  | file name mode =>
    refine ⟨⟨fs, 0, 0⟩, by simp [walk, walkFn], fun _ _ => rfl, ?_⟩
    intro d hd
    simp [WalkNode.dirsBelow] at hd
  | dir name mode children =>
    have hw : walk srcDir destDir ⟨token⟩ moduleName [] (.dir name mode children) ⟨fs, 0, 0⟩
        = walk.walkEntries srcDir destDir ⟨token⟩ moduleName [] children ⟨fs, 0, 0⟩ := by
      simp [walk, walkFn]
    unfold WalkNode.wellFormed at hwf
    rw [Bool.and_eq_true] at hwf
    have hnodup : (children.map WalkNode.name).Nodup := by simpa using hwf.1
    obtain ⟨st1, hwe, hob, hmodes⟩ := walkEntries_ok srcDir destDir ⟨token⟩ moduleName children []
      ⟨fs, 0, 0⟩ hwf.2 hnodup (by simpa using hdest)
      (by
        intro c _ q hq
        apply hempty q
        refine ⟨(List.prefix_append _ _).trans hq, ?_⟩
        intro h
        have := hq.length_le
        rw [← h] at this
        simp at this)
      (by
        intro e he hv hf
        have hk := hsrc e he hv hf
        have hfile : ∃ m c, fs.stat (srcDir ++ e.1) = some (.file m c) := by
          unfold FS.hasKind at hk
          cases hs : fs.stat (srcDir ++ e.1) with
          | none => rw [hs] at hk; exact absurd hk id
          | some n =>
            cases n with
            | dir m => rw [hs] at hk; simp at hk
            | file m c => exact ⟨m, c, rfl⟩
        refine ⟨hfile, ?_⟩
        intro hp
        obtain ⟨m, c, hs⟩ := hfile
        by_cases heq : destDir = srcDir ++ e.1
        · unfold FS.isDir at hdest
          rw [heq, hs] at hdest
          simp at hdest
        · rw [hempty _ ⟨hp, heq⟩] at hs
          exact absurd hs (by simp))
      (fun n hn => absurd hn (List.not_mem_nil _))
    refine ⟨st1, ?_, ?_, hmodes⟩
    · rw [hw, hwe]
    · intro q hq
      exact hob q (fun c _ hc => hq ((List.prefix_append _ _).trans hc))

/-- Claim C8. `ProcessAndCopy` with a token that is valid UTF-8, on a source tree the process
can read (every directory grants its owner reading and searching, and writing too, as the
copy of a directory is given its mode; every visible file grants reading), with an empty
destination directory outside the source tree that the process may write: it returns without
error, and a source entry other than the root has a destination entry at the same relative
path if and only if no directory on its path, itself included when it is a directory, has a
base name that begins with a dot; the destination entry is a directory for a directory and a
file for a file.  In particular whatever lies at or below a directory named `.git` leaves
nothing at its place in the destination.  Every directory made has the mode of its source, so
that files can be created in it; nothing outside the destination is changed, and the source
tree is as before. -/
theorem ProcessAndCopy_mirrors (fs : FS) (tree : WalkNode) (srcDir destDir : Path)
    (token moduleName : GoString)
    (htoken : checkUTF8 token.length token = true)
    (hwf : tree.wellFormed = true)
    (hopen : tree.dirsOpen = true)
    (hsrc : ∀ e ∈ tree.entriesBelow, visibleEntry e → e.2 = false →
      fs.readableFile (srcDir ++ e.1) = true)
    (hdest : fs.writableDir destDir = true)
    (hapart : ¬ srcDir <+: destDir ∧ ¬ destDir <+: srcDir)
    (hempty : ∀ q, strictlyInside destDir q → fs.stat q = none) :
    ∃ st, ProcessAndCopy fs tree srcDir destDir token moduleName = some (none, st) ∧
      (∀ e ∈ tree.entriesBelow,
        ((st.fs.stat (destDir ++ e.1)).isSome = true ↔ visibleEntry e) ∧
        (visibleEntry e → st.fs.hasKind (destDir ++ e.1) e.2)) ∧
      (∀ e ∈ tree.entriesBelow, ".git".toList ∈ (if e.2 then e.1 else e.1.dropLast) →
        st.fs.stat (destDir ++ e.1) = none) ∧
      (∀ d ∈ tree.dirsBelow, visibleEntry (d.1, true) →
        st.fs.stat (destDir ++ d.1) = some (.dir d.2) ∧
        st.fs.writableDir (destDir ++ d.1) = true) ∧
      (∀ q, ¬ destDir <+: q → st.fs.stat q = fs.stat q) ∧
      (∀ q, srcDir <+: q → st.fs.stat q = fs.stat q) := by
  have hsrc1 : ∀ e ∈ tree.entriesBelow, visibleEntry e → e.2 = false →
      fs.hasKind (srcDir ++ e.1) false := by
    intro e he hv hf
    have hr := hsrc e he hv hf
    unfold FS.readableFile at hr
    unfold FS.hasKind
    cases hs : fs.stat (srcDir ++ e.1) with
    | none => rw [hs] at hr; simp at hr
    | some n =>
      cases n with
      | dir m => rw [hs] at hr; simp at hr
      | file m c => rfl
  have hdest1 : fs.isDir destDir = true := by
    unfold FS.writableDir at hdest
    unfold FS.isDir
    cases hs : fs.stat destDir with
    | none => rw [hs] at hdest; simp at hdest
    | some n =>
      cases n with
      | dir m => rfl
      | file m c => rw [hs] at hdest; simp at hdest
  obtain ⟨st, hok, hframe, hmodes⟩ := ProcessAndCopy_ok fs tree srcDir destDir token moduleName
    htoken hwf hsrc1 hdest1 hempty
  obtain ⟨-, hnew, hmirror⟩ := ProcessAndCopy_spec fs tree srcDir destDir token moduleName st
    htoken hok
  have hpos : ∀ e ∈ tree.entriesBelow, e.1 ≠ [] := by
    intro e he h0
    cases tree with
    | file name mode => simp [WalkNode.entriesBelow] at he
    | dir name mode children =>
      have := (entriesOf_below children [] e he).2
      rw [h0] at this
      exact absurd this (lt_irrefl _)
  have huniq : ∀ e1 ∈ tree.entriesBelow, ∀ e2 ∈ tree.entriesBelow, e1.1 = e2.1 → e1 = e2 := by
    cases tree with
    | file name mode =>
      intro e1 h1
      simp [WalkNode.entriesBelow] at h1
    | dir name mode children =>
      unfold WalkNode.wellFormed at hwf
      rw [Bool.and_eq_true] at hwf
      exact entriesOf_unique children [] hwf.2 (by simpa using hwf.1)
  have hiff : ∀ e ∈ tree.entriesBelow,
      ((st.fs.stat (destDir ++ e.1)).isSome = true ↔ visibleEntry e) := by
    intro e he
    constructor
    · intro hs
      have hfree : fs.stat (destDir ++ e.1) = none := by
        apply hempty
        refine ⟨List.prefix_append _ _, ?_⟩
        intro h
        have := congrArg List.length h
        simp only [List.length_append] at this
        have hl := List.length_pos.mpr (hpos e he)
        omega
      obtain ⟨e1, he1, hv1, hp⟩ := hnew _ hfree (by
        intro h; rw [h] at hs; simp at hs)
      have hp1 : e.1 <+: e1.1 := (List.prefix_append_right_inj destDir).mp hp
      by_cases heq : e.1 = e1.1
      · rw [huniq e he e1 he1 heq]
        exact hv1
      · exact visibleEntry_above e e1 hv1 hp1 heq
    · intro hv
      have := FS.hasKind_stat _ _ _ (hmirror e he hv)
      exact Option.isSome_iff_ne_none.mpr this
  refine ⟨st, hok, fun e he => ⟨hiff e he, hmirror e he⟩, ?_, ?_, hframe, ?_⟩
  · intro e he hgit
    by_contra hs
    have hv := (hiff e he).mp (Option.isSome_iff_ne_none.mpr hs)
    have := hv _ hgit
    exact absurd this (by decide)
  · intro d hd hv
    have hst := hmodes d hd hv
    refine ⟨hst, ?_⟩
    have hbits : ownerWrite d.2 = true ∧ ownerSearch d.2 = true := by
      cases tree with
      | file name mode => simp [WalkNode.dirsBelow] at hd
      | dir name mode children =>
        unfold WalkNode.dirsOpen at hopen
        simp only [Bool.and_eq_true] at hopen
        exact dirsOf_open children [] hopen.2 d hd
    unfold FS.writableDir
    rw [hst]
    simp [hbits.1, hbits.2]
  · intro q hq
    apply hframe
    intro hd
    rcases prefix_of_both hq hd with h | ⟨h, -⟩
    · exact hapart.1 h
    · exact hapart.2 h

theorem FS.stat_none_of_keys (fs : FS) (q : Path) (h : ∀ k ∈ fs.map Prod.fst, k ≠ q) :
    fs.stat q = none := by
  induction fs with
  | nil => rfl
  | cons e rest ih =>
    obtain ⟨k, n⟩ := e
    unfold FS.stat
    have hk : k ≠ q := h k (List.mem_map.mpr ⟨(k, n), List.mem_cons_self _ _, rfl⟩)
    simp only [hk, if_false]
    exact ih (fun k2 hk2 => h k2 (by
      rw [List.map_cons, List.mem_cons]
      exact Or.inr hk2))

theorem ProcessAndCopy_mirrors_witness :
    ProcessAndCopy demoTreeFS demoTree ["s".toList] ["d".toList] "{{M}}".toList "app".toList
      = some (none, demoTreeResult) ∧
    demoTreeResult.fs.hasKind ["d".toList, "pkg".toList, "a.go".toList] false ∧
    demoTreeResult.fs.hasKind ["d".toList, ".gitignore".toList] false ∧
    demoTreeResult.fs.hasKind ["d".toList, "pkg".toList] true ∧
    demoTreeResult.fs.stat ["d".toList, ".git".toList] = none ∧
    demoTreeResult.fs.stat ["d".toList, ".git".toList, "config".toList] = none ∧
    demoTreeResult.fs.stat ["d".toList, "pkg".toList, ".cache".toList, "x".toList] = none := by
  have hkeys : ∀ k ∈ demoTreeFS.map Prod.fst, ¬ strictlyInside ["d".toList] k := by decide
  obtain ⟨st, hok, hm, hgit, -⟩ := ProcessAndCopy_mirrors demoTreeFS demoTree ["s".toList]
    ["d".toList] "{{M}}".toList "app".toList (by decide) (by decide) (by decide) (by decide)
    (by decide) (by decide) (fun q hq => FS.stat_none_of_keys _ q (fun k hk h => hkeys k hk (h ▸ hq)))
  have hst : st = demoTreeResult := by
    unfold demoTreeResult
    rw [hok]
  rw [hst] at hm hgit hok
  refine ⟨hok, ?_, ?_, ?_, ?_, ?_, ?_⟩
  · exact (hm (["pkg".toList, "a.go".toList], false) (by decide)).2 (by decide)
  · exact (hm ([".gitignore".toList], false) (by decide)).2 (by decide)
  · exact (hm (["pkg".toList], true) (by decide)).2 (by decide)
  · exact hgit ([".git".toList], true) (by decide) (by decide)
  · exact hgit ([".git".toList, "config".toList], false) (by decide) (by decide)
  · have := (hm (["pkg".toList, ".cache".toList, "x".toList], false) (by decide)).1
    by_contra hs
    exact absurd (this.mp (Option.isSome_iff_ne_none.mpr hs)) (by decide)

/-! ### The `create` command -/

/-- Claim C11. The `create` command on an archive whose only top-level entry is the
directory `proj-v1`: `Extract` succeeds and returns `/tmp/goinit-extract-1/proj-v1`, and the
deferred `os.RemoveAll` removes that directory only.  When the command returns, after a
materialisation that succeeded (project directory `/p`) as after one that failed (project
directory below a missing one), the working directory `/tmp/goinit-extract-1` that `Extract`
created still exists, as an empty directory.  On an archive with two top-level entries
`Extract` returns the working directory itself, and that one is gone afterwards. -/
theorem createCmd_leaves_working_directory :
    (Extract wrappedEnv createWorld "/a".toList "tar.gz".toList).1
      = .ok "/tmp/goinit-extract-1/proj-v1".toList ∧
    (createCmd wrappedEnv createWorld (.dir "proj-v1".toList 0o755 [.file "go.mod".toList 0o644])
      "/a".toList "https://host/proj-v1.tar.gz".toList "/p".toList "{{M}}".toList
      "example.com/app".toList).1 = none ∧
    (createCmd wrappedEnv createWorld (.dir "proj-v1".toList 0o755 [.file "go.mod".toList 0o644])
      "/a".toList "https://host/proj-v1.tar.gz".toList "/p".toList "{{M}}".toList
      "example.com/app".toList).2.fs.stat ["tmp".toList, "goinit-extract-1".toList]
      = some (.dir 0o700) ∧
    (createCmd wrappedEnv createWorld (.dir "proj-v1".toList 0o755 [.file "go.mod".toList 0o644])
      "/a".toList "https://host/proj-v1.tar.gz".toList "/p".toList "{{M}}".toList
      "example.com/app".toList).2.fs.stat
        ["tmp".toList, "goinit-extract-1".toList, "proj-v1".toList] = none ∧
    (createCmd wrappedEnv createWorld (.dir "proj-v1".toList 0o755 [.file "go.mod".toList 0o644])
      "/a".toList "https://host/proj-v1.tar.gz".toList "/p".toList "{{M}}".toList
      "example.com/app".toList).2.fs.stat ["p".toList, "go.mod".toList]
      = some (.file 0o644 "module example.com/app".toList) ∧
    (createCmd wrappedEnv createWorld (.dir "proj-v1".toList 0o755 [.file "go.mod".toList 0o644])
      "/a".toList "https://host/proj-v1.tar.gz".toList "/missing/p".toList "{{M}}".toList
      "example.com/app".toList).1
      = some (.process (.processFile ["go.mod".toList] .writeFile)) ∧
    (createCmd wrappedEnv createWorld (.dir "proj-v1".toList 0o755 [.file "go.mod".toList 0o644])
      "/a".toList "https://host/proj-v1.tar.gz".toList "/missing/p".toList "{{M}}".toList
      "example.com/app".toList).2.fs.stat ["tmp".toList, "goinit-extract-1".toList]
      = some (.dir 0o700) ∧
    (createCmd flatEnv createWorld
      (.dir "goinit-extract-1".toList 0o700
        [.file "go.mod".toList 0o644, .file "main.go".toList 0o644])
      "/a".toList "https://host/flat.tar.gz".toList "/p".toList "{{M}}".toList
      "example.com/app".toList).2.fs.stat ["tmp".toList, "goinit-extract-1".toList]
      = none := by
  decide

end Goinit
